import Mathlib

/-! Transaction log domain (searchlib/transactionlog/domain.cpp)

A shallow embedding of `Domain` from `domain.cpp` together with the inline parts of
`domainpart.h`.  A `std::map` is a list of key/value pairs kept in ascending key order;
shared pointers to segments and sessions are replaced by the values themselves, and an
in-place mutation through such a pointer becomes an update of the map entry.

Serial numbers are unsigned 64-bit values, session ids are C++ `int` values.  Methods of
`DomainPart` that are only declared in `domainpart.h` are taken as parameters (`PartOps`).
Undefined behaviour and failed assertions are modelled by `none`.
-/

namespace TransLog

/-! ## Data model -/

abbrev SerialNum := Nat

/-- The value of `std::numeric_limits<SerialNum>::max()` for the unsigned 64-bit `SerialNum`. -/
def maxSerialNum : Nat := 2 ^ 64 - 1

/-- The pair `[from, to]` carried by `SerialNumRange`. -/
structure SerialNumRange where
  from_ : SerialNum
  to_ : SerialNum
deriving DecidableEq, Repr

/-- The data members of `DomainPart` that `Domain` reads through the inline accessors of
`domainpart.h` (`range()`, `size()`, `byteSize()`, `getSynced()`); `closed` is the state that
`isClosed()` reports. -/
structure DomainPart where
  range : SerialNumRange
  sz : Nat
  byteSize : Nat
  syncedSerial : SerialNum
  closed : Bool
deriving DecidableEq, Repr

namespace DomainPart

def size (p : DomainPart) : Nat := p.sz

def getSynced (p : DomainPart) : SerialNum := p.syncedSerial

def isClosed (p : DomainPart) : Bool := p.closed

end DomainPart

/-- A packet as `Domain::append` sees it: the serial of its lead entry, which `append`
deserializes, and the content that `Domain` hands on to `DomainPart::commit` unread: the
bytes of the packet and the serials of the entries that follow the lead entry. -/
structure Packet where
  serial : SerialNum
  payload : List Nat
  more : List SerialNum
deriving DecidableEq, Repr

/-- Modelled from the spec: the entries of a packet, a batch of one or more entries (the
class `Packet` is not among the sources): the serial of the lead entry, then the serials
of the entries that follow it, in the order in which `commit` stores them. -/
def Packet.entries (packet : Packet) : List SerialNum :=
  packet.serial :: packet.more

/-- The member functions of `DomainPart` whose bodies live outside `domainpart.h`.
`create s allowTruncate` is the constructor for the file of starting serial `s`
(`none` when it throws), `erase` returns the result flag and the segment afterwards,
`commit` is `none` when the commit is fatal. -/
structure PartOps where
  create : SerialNum → Bool → Option DomainPart
  erase : DomainPart → SerialNum → Bool × DomainPart
  commit : DomainPart → SerialNum → Packet → Option DomainPart
  sync : DomainPart → DomainPart
  close : DomainPart → DomainPart

/-- A visit session as `Domain` uses it: `id()`, `range()`, `inSync()`, `finished()`,
`isVisitRunning()` and the start time. -/
structure Session where
  id : Int
  range : SerialNumRange
  inSync : Bool
  finished : Bool
  visitRunning : Bool
  startTime : Nat
deriving DecidableEq, Repr

/-- Work handed to the executor. -/
inductive Task where
  | addPart (partId : SerialNum) (isLastPart : Bool)
  | sync (partKey : SerialNum)
  | session (sessionId : Int)
deriving DecidableEq, Repr

structure DomainConfig where
  partSizeLimit : Nat
deriving DecidableEq, Repr

abbrev DomainPartList := List (SerialNum × DomainPart)

abbrev SessionList := List (Int × Session)

/-- The mutable members of `Domain`.  `executeLog` records every call of
`_executor.execute` with whether the executor took the task; `syncTasks` holds the keys
of the segments captured by scheduled sync tasks that have not completed. -/
structure Domain where
  config : DomainConfig
  lastSerial : SerialNum
  sessionId : Int
  pendingSync : Bool
  syncTasks : List SerialNum
  parts : DomainPartList
  sessions : SessionList
  maxSessionRunTime : Nat
  executeLog : List (Task × Bool)
deriving DecidableEq, Repr

/-! ## Ordered maps as key-sorted association lists -/

section MapOps

variable {K : Type} {V : Type} [LinearOrder K]

/-- The assignment `m[k] = v`: replaces the value under `k` or inserts in key order. -/
def mapInsert (k : K) (v : V) : List (K × V) → List (K × V)
  | [] => [(k, v)]
  | (k', v') :: rest =>
    if k < k' then (k, v) :: (k', v') :: rest
    else if k = k' then (k, v) :: rest
    else (k', v') :: mapInsert k v rest

/-- The lookup `m.find(k)`. -/
def mapFind (k : K) (m : List (K × V)) : Option V :=
  (m.find? (fun kv => decide (kv.1 = k))).map Prod.snd

/-- The removal `m.erase(k)`. -/
def mapErase (k : K) (m : List (K × V)) : List (K × V) :=
  m.filter (fun kv => !decide (kv.1 = k))

/-- A mutation of the object stored under `k`, through the pointer in the map. -/
def mapUpdate (k : K) (f : V → V) (m : List (K × V)) : List (K × V) :=
  m.map (fun kv => if kv.1 = k then (kv.1, f kv.2) else kv)

/-- The iterator `m.upper_bound(s)` as a position: the first entry whose key exceeds `s`. -/
def upperBound (s : K) (m : List (K × V)) : Nat :=
  m.findIdx (fun kv => decide (s < kv.1))

/-- The keys of a map, in iteration order. -/
def keys (m : List (K × V)) : List K := m.map Prod.fst

/-- The representation invariant of `std::map`: strictly ascending keys. -/
def KeysAscending (m : List (K × V)) : Prop := (keys m).Pairwise (· < ·)

instance (m : List (K × V)) : Decidable (KeysAscending m) := by
  unfold KeysAscending; infer_instance

end MapOps

/-! ## Domain::findOldestActiveVisit, Domain::findPart -/

/-- `Domain::findOldestActiveVisit`. -/
def findOldestActiveVisit (sessions : SessionList) : SerialNum :=
  sessions.foldl
    (fun oldestActive pair =>
      if !pair.2.inSync then min oldestActive pair.2.range.from_ else oldestActive)
    maxSerialNum

/-- `Domain::findPart`: the segment returned, with its key; `none` is the empty pointer. -/
def findPart (parts : DomainPartList) (s : SerialNum) : Option (SerialNum × DomainPart) :=
  let it := upperBound s parts
  let atIt : Option (SerialNum × DomainPart) := parts[it]?
  if !parts.isEmpty && it != 0 then
    match parts[it - 1]? with
    | some prev => if prev.2.range.to_ > s then some prev else atIt
    | none => atIt
  else atIt

/-! ## Domain::erase -/

/-- The outcome of the pruning loop of `Domain::erase`: the map that is left, the value of
`retval`, the segments taken out of the map (oldest first, as `DomainPart::erase` left them)
and the keys of the segments on which `DomainPart::erase` was called. -/
structure EraseLoop where
  parts : DomainPartList
  retval : Bool
  removed : DomainPartList
  invoked : List SerialNum
deriving DecidableEq, Repr

/-- The `for` loop of `Domain::erase`: while more than one segment is left and the first
one ends below `to`, unlink it and evaluate `retval = retval && dp->erase(to)`. -/
def eraseLoop (ops : PartOps) (to_ : SerialNum) :
    DomainPartList → Bool → DomainPartList → List SerialNum → EraseLoop
  | (k, dp) :: next :: rest, retval, removed, invoked =>
    if dp.range.to_ < to_ then
      if retval then
        eraseLoop ops to_ (next :: rest) (ops.erase dp to_).1
          (removed ++ [(k, (ops.erase dp to_).2)]) (invoked ++ [k])
      else
        eraseLoop ops to_ (next :: rest) false (removed ++ [(k, dp)]) invoked
    else ⟨(k, dp) :: next :: rest, retval, removed, invoked⟩
  | parts, retval, removed, invoked => ⟨parts, retval, removed, invoked⟩

/-- The statement after the loop: a partial erase of the first segment left when it
reaches `to`.  An empty map has no `begin()` to dereference. -/
def eraseBoundary (ops : PartOps) (to_ : SerialNum) : DomainPartList → Option DomainPartList
  | [] => none
  | (k, dp) :: rest =>
    if dp.range.to_ ≥ to_ then some ((k, (ops.erase dp to_).2) :: rest)
    else some ((k, dp) :: rest)

/-- `Domain::erase`: the returned flag and the Domain afterwards. -/
def Domain.erase (ops : PartOps) (d : Domain) (to_ : SerialNum) : Option (Bool × Domain) :=
  let loop := eraseLoop ops to_ d.parts true [] []
  (eraseBoundary ops to_ loop.parts).map (fun parts => (loop.retval, { d with parts := parts }))

/-- The number of segments that `Domain::erase(to)` is to unlink, in the words of its
contract: the longest leading run of segments ending below `to`, cut short so that one
segment remains. -/
def prunedCount (to_ : SerialNum) (parts : DomainPartList) : Nat :=
  min (parts.takeWhile (fun e => decide (e.2.range.to_ < to_))).length (parts.length - 1)

/-! ## Domain::Domain, Domain::addPart -/

/-- `Domain::end`: the upper end of the newest segment, `0` for an empty map. -/
def domainEnd (parts : DomainPartList) : SerialNum :=
  match parts.getLast? with
  | some entry => entry.2.range.to_
  | none => 0

/-- `Domain::addPart`: loads the segment file of `partId`.  A segment of size zero is
deleted instead of entered, which only the last one may be (`assert(isLastPart)`); any
other segment is entered under `partId` and closed unless it is the last. -/
def addPart (ops : PartOps) (parts : DomainPartList) (partId : SerialNum) (isLastPart : Bool) :
    Option DomainPartList :=
  match ops.create partId isLastPart with
  | none => none
  | some dp =>
    if dp.size = 0 then
      if isLastPart then some parts else none
    else
      some (mapInsert partId (if !isLastPart then ops.close dp else dp) parts)

/-- The loop of the constructor over `partIdVector`: one `addPart` task per serial other
than the reserved maximum, each run by the executor before `_executor.sync()` returns. -/
def loadParts (ops : PartOps) (lastPart : SerialNum) :
    List SerialNum → DomainPartList → List (Task × Bool) →
      Option (DomainPartList × List (Task × Bool))
  | [], parts, log => some (parts, log)
  | partId :: rest, parts, log =>
    if partId ≠ maxSerialNum then
      match addPart ops parts partId (decide (partId = lastPart)) with
      | none => none
      | some parts' =>
        loadParts ops lastPart rest parts'
          (log ++ [(Task.addPart partId (decide (partId = lastPart)), true)])
    else loadParts ops lastPart rest parts log

/-- The body of the constructor `Domain::Domain` after the directory scan has produced
`partIdVector`; `mkBaseDir` and `mkDomainDir` are the results of the two `makeDirectory`
calls, a non-zero one makes the constructor throw. -/
def Domain.initFrom (ops : PartOps) (cfg : DomainConfig) (mkBaseDir mkDomainDir : Int)
    (partIdVector : List SerialNum) : Option Domain :=
  if mkBaseDir ≠ 0 then none
  else if mkDomainDir ≠ 0 then none
  else
    let lastPart : SerialNum := partIdVector.getLastD 0
    match loadParts ops lastPart partIdVector [] [] with
    | none => none
    | some (parts, log) =>
      let needNew : Bool :=
        match parts.getLast? with
        | none => true
        | some entry => entry.2.isClosed
      let finish (parts : DomainPartList) : Domain :=
        { config := cfg, lastSerial := domainEnd parts, sessionId := 1, pendingSync := false,
          syncTasks := [], parts := parts, sessions := [], maxSessionRunTime := 0,
          executeLog := log }
      if needNew then
        match ops.create lastPart false with
        | none => none
        | some dp => some (finish (mapInsert lastPart dp parts))
      else some (finish parts)

/-! ## Sync, rotation, append -/

/-- `Domain::triggerSyncNow`: schedules a sync of the newest segment unless one is pending. -/
def Domain.triggerSyncNow (d : Domain) : Option Domain :=
  if !d.pendingSync then
    match d.parts.getLast? with
    | none => none
    | some entry =>
      some { d with pendingSync := true, syncTasks := d.syncTasks ++ [entry.1],
                    executeLog := d.executeLog ++ [(Task.sync entry.1, true)] }
  else some d

/-- The task scheduled by `triggerSyncNow` runs to completion: the captured segment is
synced and the pending flag cleared. -/
def Domain.syncTaskDone (ops : PartOps) (d : Domain) : Domain :=
  match d.syncTasks with
  | [] => d
  | k :: rest =>
    { d with parts := mapUpdate k ops.sync d.parts, syncTasks := rest, pendingSync := false }

/-- `waitPendingSync`: returns at once when nothing is pending, otherwise when the
scheduled task has completed; with the flag set and no task scheduled it blocks for ever. -/
def Domain.waitPendingSync (ops : PartOps) (d : Domain) : Option Domain :=
  if !d.pendingSync then some d
  else
    match d.syncTasks with
    | [] => none
    | _ :: _ => some (d.syncTaskDone ops)

/-- `Domain::optionallyRotateFile`: the key of the segment returned and the Domain
afterwards. -/
def Domain.optionallyRotateFile (ops : PartOps) (d : Domain) (serialNum : SerialNum) :
    Option (SerialNum × Domain) :=
  match d.parts.getLast? with
  | none => none
  | some (k, dp) =>
    if dp.byteSize > d.config.partSizeLimit then
      match d.waitPendingSync ops with
      | none => none
      | some d1 =>
        match d1.triggerSyncNow with
        | none => none
        | some d2 =>
          match d2.waitPendingSync ops with
          | none => none
          | some d3 =>
            let closedParts := mapUpdate k ops.close d3.parts
            match ops.create serialNum false with
            | none => none
            | some fresh =>
              let parts := mapInsert serialNum fresh closedParts
              if (parts.getLast?).map Prod.fst = some serialNum then
                some (serialNum, { d3 with parts := parts })
              else none
    else some (k, d)

/-- `Domain::cleanSessions`. -/
def cleanSessions (sessions : SessionList) : SessionList :=
  if sessions.isEmpty then sessions
  else
    sessions.filter (fun pair =>
      if pair.2.inSync then false
      else if pair.2.finished then false
      else true)

/-- `Domain::append`. -/
def Domain.append (ops : PartOps) (d : Domain) (packet : Packet) : Option Domain :=
  match d.optionallyRotateFile ops packet.serial with
  | none => none
  | some (k, d1) =>
    match mapFind k d1.parts with
    | none => none
    | some dp =>
      match ops.commit dp packet.serial packet with
      | none => none
      | some dp' =>
        some { d1 with parts := mapUpdate k (fun _ => dp') d1.parts,
                       sessions := cleanSessions d1.sessions }

/-! ## Visit sessions -/

/-- The conversion of a value to the 32-bit `int` of a session id. -/
def toInt32 (x : Int) : Int := (x + 2 ^ 31) % 2 ^ 32 - 2 ^ 31

/-- Modelled from the spec: the `Session` constructor (session.h is not part of the
sources at hand) captures the id and the range; the new session is in state created,
neither in sync nor finished nor running. -/
def Session.create (id : Int) (range : SerialNumRange) : Session :=
  { id := id, range := range, inSync := false, finished := false, visitRunning := false,
    startTime := 0 }

/-- `Domain::visit`: `domainIsThis` is the outcome of `this == domain.get()`; the id
returned is the value of `_sessionId` before the increment.  Session ids are `int` values
(`int id = session->id()`), so the counter is a 32-bit `int` and its increment wraps in
two's complement. -/
def Domain.visit (d : Domain) (domainIsThis : Bool) (from_ to_ : SerialNum) :
    Option (Int × Domain) :=
  if !domainIsThis then none
  else
    let sessions := cleanSessions d.sessions
    let session := Session.create d.sessionId ⟨from_, to_⟩
    let id := session.id
    some (id, { d with sessionId := toInt32 (d.sessionId + 1),
                       sessions := mapInsert id session sessions })

/-- `Domain::startSession`: `now` is the clock reading and `accepted` tells whether
`execute` returned the null pointer, that is, whether the executor took the task. -/
def Domain.startSession (d : Domain) (sessionId : Int) (now : Nat) (accepted : Bool) :
    Int × Domain :=
  match mapFind sessionId d.sessions with
  | none => (-1, d)
  | some _ =>
    let started := mapUpdate sessionId (fun s => { s with startTime := now }) d.sessions
    let log := d.executeLog ++ [(Task.session sessionId, accepted)]
    if accepted then (0, { d with sessions := started, executeLog := log })
    else (-1, { d with sessions := mapErase sessionId started, executeLog := log })

/-- The polling loop of `Domain::closeSession`.  `env i` is what the other threads do to
the session table during the `i`-th sleep; `none` means the loop is still polling when the
fuel is used up. -/
def closeLoop (sessionId : Int) (env : Nat → SessionList → SessionList) :
    Nat → Nat → Int → SessionList → Option (Int × SessionList)
  | 0, _, retval, sessions => if retval = 1 then none else some (retval, sessions)
  | fuel + 1, i, retval, sessions =>
    if retval = 1 then
      let seen := env i sessions
      match mapFind sessionId seen with
      | some found =>
        if !found.visitRunning then closeLoop sessionId env fuel (i + 1) 0 (mapErase sessionId seen)
        else closeLoop sessionId env fuel (i + 1) retval seen
      | none => closeLoop sessionId env fuel (i + 1) 0 seen
    else some (retval, sessions)

/-- The session table that the `n`-th poll after the `i`-th one looks at, for as long as
`closeSession` keeps polling. -/
def polled (env : Nat → SessionList → SessionList) : Nat → SessionList → Nat → SessionList
  | i, sessions, 0 => env i sessions
  | i, sessions, n + 1 => polled env (i + 1) (env i sessions) n

/-- `Domain::closeSession`, entered with the session table as it is once `_executor.sync()`
has returned: `runTime` is the clock reading minus the start time of the session found by
the first lookup. -/
def Domain.closeSession (d : Domain) (sessionId : Int) (runTime : Nat)
    (env : Nat → SessionList → SessionList) (fuel : Nat) : Option (Int × Domain) :=
  let first : Int × Nat :=
    match mapFind sessionId d.sessions with
    | some _ => (1, runTime)
    | none => (-1, 0)
  match closeLoop sessionId env fuel 0 first.1 d.sessions with
  | none => none
  | some (retval, sessions) =>
    some (retval, { d with sessions := sessions,
                           maxSessionRunTime :=
                             if first.2 > d.maxSessionRunTime then first.2
                             else d.maxSessionRunTime })

/-! ## Domain::scanDir

File names are C strings, modelled as lists of (non-NUL) characters. -/

/-- `isspace` of the C locale. -/
def isspace (c : Char) : Bool :=
  c = ' ' || c = '\t' || c = '\n' || c = '\x0b' || c = '\x0c' || c = '\r'

/-- `isdigit`. -/
def isdigit (c : Char) : Bool := decide (48 ≤ c.toNat) && decide (c.toNat ≤ 57)

/-- The value of the longest run of decimal digits at the front of a string,
continuing from `acc`. -/
def digitsValue : List Char → Nat → Nat
  | [], acc => acc
  | c :: rest, acc => if isdigit c then digitsValue rest (acc * 10 + (c.toNat - 48)) else acc

/-- `strtoull(p, NULL, 10)`: leading white space, an optional sign, then decimal digits up
to the first other character.  A value beyond the 64-bit range gives `ULLONG_MAX`, a minus
sign negates in unsigned arithmetic, no digits at all give 0. -/
def strtoull (p : List Char) : Nat :=
  let clamp (negative : Bool) (v : Nat) : Nat :=
    if v > maxSerialNum then maxSerialNum
    else if negative then (2 ^ 64 - v) % 2 ^ 64
    else v
  match p.dropWhile isspace with
  | [] => 0
  | c :: rest =>
    if c = '-' then clamp true (digitsValue rest 0)
    else if c = '+' then clamp false (digitsValue rest 0)
    else clamp false (digitsValue (c :: rest) 0)

/-- The last `w` decimal digits of `n`, most significant first. -/
def padDigits : Nat → Nat → List Char
  | 0, _ => []
  | w + 1, n => padDigits w (n / 10) ++ [Nat.digitChar (n % 10)]

/-- The number of characters `%016llu` prints for a 64-bit value: its number of decimal
digits, at least 16 (and at most 20). -/
def decimalWidth (n : Nat) : Nat :=
  if n < 10 ^ 16 then 16
  else if n < 10 ^ 17 then 17
  else if n < 10 ^ 18 then 18
  else if n < 10 ^ 19 then 19
  else 20

/-- The conversion `%016llu` of a 64-bit value: decimal, padded with zeros to 16 digits. -/
def fmt016 (num : Nat) : List Char := padDigits (decimalWidth num) num

/-- The string `fmt("%s-%016" PRIu64, name, num)`. -/
def partFileName (name : List Char) (num : SerialNum) : List Char :=
  name ++ '-' :: fmt016 num

/-- The body of the `while` loop of `Domain::scanDir` for the entry `ename`: the serial
pushed onto `res`, or `none` when the entry is skipped. -/
def scanDirEntry (name ename : List Char) : Option SerialNum :=
  if ename = ['.'] || ename = ['.', '.'] then none
  else if ename.take name.length ≠ name then none
  else if ename[name.length]? ≠ some '-' then none
  else
    let p := ename.drop (name.length + 1)
    let num := strtoull p
    let checkName := partFileName name num
    if checkName ≠ ename then none else some num

/-- `Domain::scanDir` over the entries that the directory scan of `dir()` yields. -/
def scanDir (name : List Char) (entries : List (List Char)) : List SerialNum :=
  (entries.filterMap (scanDirEntry name)).insertionSort (· ≤ ·)

/-- The constructor `Domain::Domain`, from the directory content. -/
def Domain.init (ops : PartOps) (cfg : DomainConfig) (mkBaseDir mkDomainDir : Int)
    (name : List Char) (entries : List (List Char)) : Option Domain :=
  Domain.initFrom ops cfg mkBaseDir mkDomainDir (scanDir name entries)

/-! ## Reachable states -/

/-- The Domain states reached from a completed construction by calls of the public
operations and by the progress of executor tasks; the index counts the calls of
`Domain::visit` made so far. -/
inductive Reached (ops : PartOps) : Domain → Nat → Prop
  | init {cfg : DomainConfig} {ids : List SerialNum} {d : Domain} :
      Domain.initFrom ops cfg 0 0 ids = some d → Reached ops d 0
  | visit {d d' : Domain} {k : Nat} {id : Int} (from_ to_ : SerialNum) :
      Reached ops d k → d.visit true from_ to_ = some (id, d') → Reached ops d' (k + 1)
  | append {d d' : Domain} {k : Nat} (packet : Packet) :
      Reached ops d k → d.append ops packet = some d' → Reached ops d' k
  | erase {d d' : Domain} {k : Nat} {r : Bool} (to_ : SerialNum) :
      Reached ops d k → d.erase ops to_ = some (r, d') → Reached ops d' k
  | startSession {d : Domain} {k : Nat} (sessionId : Int) (now : Nat) (accepted : Bool) :
      Reached ops d k → Reached ops (d.startSession sessionId now accepted).2 k
  | closeSession {d d' : Domain} {k : Nat} {r : Int} (sessionId : Int) (runTime : Nat)
      (env : Nat → SessionList → SessionList) (fuel : Nat) :
      Reached ops d k → d.closeSession sessionId runTime env fuel = some (r, d') →
      Reached ops d' k
  | triggerSyncNow {d d' : Domain} {k : Nat} :
      Reached ops d k → d.triggerSyncNow = some d' → Reached ops d' k
  | syncTaskDone {d : Domain} {k : Nat} :
      Reached ops d k → Reached ops (d.syncTaskDone ops) k
  | sessionProgress {d : Domain} {k : Nat} (inSync finished visitRunning : Session → Bool) :
      Reached ops d k →
      Reached ops { d with sessions := d.sessions.map (fun pair =>
        (pair.1, { pair.2 with inSync := inSync pair.2, finished := finished pair.2,
                               visitRunning := visitRunning pair.2 })) } k
  | setConfig {d : Domain} {k : Nat} (cfg : DomainConfig) :
      Reached ops d k → Reached ops { d with config := cfg } k

/-- The id returned by the `k`-th of `k` consecutive calls of `Domain::visit` on `d`. -/
def kthVisitId (d : Domain) : Nat → Option Int
  | 0 => none
  | 1 => (d.visit true 0 0).map Prod.fst
  | k + 2 =>
    match d.visit true 0 0 with
    | none => none
    | some (_, d') => kthVisitId d' (k + 1)

/-! ## Concrete inputs -/

/-- A simple segment implementation on which the model is evaluated: a new segment is
open and empty with the range just below its starting serial, `erase` raises the lower end of the range, `commit`
takes increasing serials, `sync` records the upper end, `close` sets the closed state. -/
def sampleOps : PartOps where
  create := fun s _ =>
    some { range := ⟨s, s - 1⟩, sz := 0, byteSize := 0, syncedSerial := 0, closed := false }
  erase := fun p to_ => (true, { p with range := ⟨min to_ p.range.to_, p.range.to_⟩ })
  commit := fun p s packet =>
    if p.range.to_ < s then
      some { p with range := ⟨p.range.from_, s⟩, sz := p.sz + 1,
                    byteSize := p.byteSize + packet.payload.length }
    else none
  sync := fun p => { p with syncedSerial := p.range.to_ }
  close := fun p => { p with closed := true }

/-- A segment covering `[lo, hi]` holding `bytes` bytes. -/
def samplePart (lo hi bytes : Nat) (closed : Bool) : DomainPart :=
  { range := ⟨lo, hi⟩, sz := hi - lo, byteSize := bytes, syncedSerial := hi, closed := closed }

/-- A Domain with two segments, `[1,10]` closed and `[11,20]` open, and one visit session
over `[5,30]` that is not in sync. -/
def visitedDomain : Domain :=
  { config := ⟨100⟩, lastSerial := 20, sessionId := 2, pendingSync := false, syncTasks := [],
    parts := [(1, ⟨⟨1, 10⟩, 10, 40, 10, true⟩), (11, ⟨⟨11, 20⟩, 10, 40, 0, false⟩)],
    sessions := [(1, ⟨1, ⟨5, 30⟩, false, false, true, 0⟩)], maxSessionRunTime := 0,
    executeLog := [(Task.session 1, true)] }

/-- The Domain that the constructor builds on an empty directory with `sampleOps`:
one open, empty segment under key 0. -/
def freshDomain : Domain :=
  { config := ⟨100⟩, lastSerial := 0, sessionId := 1, pendingSync := false, syncTasks := [],
    parts := [(0, ⟨⟨0, 0⟩, 0, 0, 0, false⟩)], sessions := [], maxSessionRunTime := 0,
    executeLog := [] }

/-- A Domain with the given segments and sessions and nothing pending. -/
def sampleDomain (limit : Nat) (parts : DomainPartList) (sessions : SessionList) : Domain :=
  { config := ⟨limit⟩, lastSerial := domainEnd parts, sessionId := 1, pendingSync := false,
    syncTasks := [], parts := parts, sessions := sessions, maxSessionRunTime := 0,
    executeLog := [] }

/-! ## Domain::getSynced -/

/-- `Domain::getSynced`: the synced serial of the newest segment, and when that is 0 and
an older segment exists, the synced serial of the segment just before it. -/
def getSynced (parts : DomainPartList) : SerialNum :=
  if parts.isEmpty then 0
  else
    let it := parts.length - 1
    match parts[it]? with
    | none => 0
    | some newest =>
      let s := newest.2.getSynced
      if s = 0 ∧ it ≠ 0 then
        match parts[it - 1]? with
        | some older => older.2.getSynced
        | none => s
      else s

/-! ## DomainPart::SkipInfo (domainpart.h) -/

/-- The conversion of a value to `int64_t`. -/
def toInt64 (x : Int) : Int := (x + 2 ^ 63) % 2 ^ 64 - 2 ^ 63

/-- An entry of the skip list: a serial number and a file position, both 64-bit. -/
structure SkipInfo where
  id : SerialNum
  pos : Nat
deriving DecidableEq, Repr

namespace SkipInfo

/-- `SkipInfo::cmp`: the unsigned 64-bit difference `_id - b._id`, returned as `int64_t`. -/
def cmp (a b : SkipInfo) : Int :=
  toInt64 ((((a.id : Int) - (b.id : Int)) % 2 ^ 64 : Int))

/-- `operator ==`. -/
def eq (a b : SkipInfo) : Bool := decide (a.cmp b = 0)

/-- `operator <`. -/
def lt (a b : SkipInfo) : Bool := decide (a.cmp b < 0)

/-- `operator >`. -/
def gt (a b : SkipInfo) : Bool := decide (a.cmp b > 0)

/-- `operator <=`. -/
def le (a b : SkipInfo) : Bool := decide (a.cmp b ≤ 0)

/-- `operator >=`. -/
def ge (a b : SkipInfo) : Bool := decide (a.cmp b ≥ 0)

end SkipInfo

/-! ## Sync state -/

/-- The sync state is consistent: at most one scheduled sync task has not completed, and
the pending flag is set exactly while there is one. -/
def SyncInv (d : Domain) : Prop :=
  d.syncTasks.length ≤ 1 ∧ (d.pendingSync = true ↔ d.syncTasks ≠ [])

/-! ## Segments as the spec describes them -/

/-- Modelled from the spec: how `DomainPart::commit` (domainpart.cpp is not among the
sources) stores the entries of a packet one after the other.  An entry whose serial is
not strictly greater than the current `range.to` is fatal; an entry that is stored grows
`range.to` to its serial and the entry count by one. -/
def commitEntries : DomainPart → List SerialNum → Option DomainPart
  | p, [] => some p
  | p, s :: rest =>
    if p.range.to_ < s then
      commitEntries { p with range := ⟨p.range.from_, s⟩, sz := p.sz + 1 } rest
    else none

/-- Modelled from the spec: `DomainPart::commit`, whose body (domainpart.cpp) is not among
the sources.  It appends all the entries of the packet to the segment, growing `range.to`
over each of them, and adds the bytes of the packet to the byte size; it is fatal as soon
as one entry has a serial that is not strictly greater than the current `range.to`. -/
def specCommit (p : DomainPart) (_firstSerial : SerialNum) (packet : Packet) :
    Option DomainPart :=
  (commitEntries p packet.entries).map
    (fun q => { q with byteSize := q.byteSize + packet.payload.length })

/-- Modelled from the spec: the `DomainPart` constructor (domainpart.cpp is not among the
sources) for the file of starting serial `s`, for a file without entries: the segment
starts at `s`, holds nothing yet and is open; its range ends just below `s`, so that `s`
is the first serial `commit` accepts. -/
def specCreate (s : SerialNum) (_allowTruncate : Bool) : Option DomainPart :=
  some { range := ⟨s, s - 1⟩, sz := 0, byteSize := 0, syncedSerial := 0, closed := false }

/-- Modelled from the spec: the operations of `DomainPart` declared in domainpart.h whose
bodies are not among the sources.  `erase` raises the lower end of the range, `sync` moves
the synced-serial watermark to the upper end, `close` marks the segment read-only. -/
def specOps : PartOps where
  create := specCreate
  erase := fun p to_ => (true, { p with range := ⟨min to_ p.range.to_, p.range.to_⟩ })
  commit := specCommit
  sync := fun p => { p with syncedSerial := p.range.to_ }
  close := fun p => { p with closed := true }

/-- Modelled from the spec: what `close()` and `isClosed()` of `DomainPart` (bodies not
among the sources) do to the closed state.  A constructed segment is open, `close` closes
it, and `sync`, `commit` and a partial `erase` (one with `to <= range().to()`) leave the
closed state as it is. -/
def ClosedDiscipline (ops : PartOps) : Prop :=
  (∀ s b p, ops.create s b = some p → p.isClosed = false) ∧
  (∀ p, (ops.close p).isClosed = true) ∧
  (∀ p, (ops.sync p).isClosed = p.isClosed) ∧
  (∀ p s packet p', ops.commit p s packet = some p' → p'.isClosed = p.isClosed) ∧
  (∀ p to_, to_ ≤ p.range.to_ → (ops.erase p to_).2.isClosed = p.isClosed)

/-- Every segment of the map but the last is closed and the last is open. -/
def ClosedInv (parts : DomainPartList) : Prop :=
  ∃ init last, parts = init ++ [last] ∧ (∀ e ∈ init, e.2.isClosed = true) ∧
    last.2.isClosed = false

/-- The state of the segment map while the constructor loads the segment files, `lastPart`
being the last serial of the scan: ascending keys up to `lastPart`, every segment below
`lastPart` closed and a segment under `lastPart` open. -/
def LoadInv (lastPart : SerialNum) (parts : DomainPartList) : Prop :=
  KeysAscending parts ∧
  ∀ e ∈ parts, e.1 ≤ lastPart ∧ (e.1 < lastPart → e.2.isClosed = true) ∧
    (e.1 = lastPart → e.2.isClosed = false)

/-- A sequence of `Domain::append` calls, one per packet. -/
def appendAll (ops : PartOps) : Domain → List Packet → Option Domain
  | d, [] => some d
  | d, packet :: rest =>
    match d.append ops packet with
    | none => none
    | some d' => appendAll ops d' rest

/-- The serials of all the entries of a sequence of packets, in the order in which the
appends store them. -/
def allEntries : List Packet → List SerialNum
  | [] => []
  | packet :: rest => packet.entries ++ allEntries rest

/-- The Domain states reached from a completed construction (on any directory content)
by calls of `Domain::append` and `Domain::erase`. -/
inductive ReachedByAppendErase (ops : PartOps) : Domain → Prop
  | init {cfg : DomainConfig} {name : List Char} {entries : List (List Char)} {d : Domain} :
      Domain.init ops cfg 0 0 name entries = some d → ReachedByAppendErase ops d
  | append {d d' : Domain} (packet : Packet) :
      ReachedByAppendErase ops d → d.append ops packet = some d' →
      ReachedByAppendErase ops d'
  | erase {d d' : Domain} {r : Bool} (to_ : SerialNum) :
      ReachedByAppendErase ops d → d.erase ops to_ = some (r, d') →
      ReachedByAppendErase ops d'

/-- The Domain that the constructor builds on an empty directory with `specOps` and
`partSizeLimit = 1`. -/
def specFresh : Domain :=
  { config := ⟨1⟩, lastSerial := 0, sessionId := 1, pendingSync := false, syncTasks := [],
    parts := [(0, ⟨⟨0, 0⟩, 0, 0, 0, false⟩)], sessions := [], maxSessionRunTime := 0,
    executeLog := [] }

/-- The Domain `specFresh` after the append of a two-byte packet of serial 10. -/
def specOnce : Domain :=
  { specFresh with parts := [(0, ⟨⟨0, 10⟩, 1, 2, 0, false⟩)] }

/-- The Domain `specOnce` after the append of a one-byte packet of serial 11, which
rotates. -/
def specRotated : Domain :=
  { specFresh with
    parts := [(0, ⟨⟨0, 10⟩, 1, 2, 10, true⟩), (11, ⟨⟨11, 11⟩, 1, 1, 0, false⟩)],
    executeLog := [(Task.sync 0, true)] }

/-- The Domain that the constructor builds with `specOps` and `partSizeLimit = 1` on a
directory whose only segment file, of starting serial 5, holds no entry: one open, empty
segment under key 5, so that `end()` is 4. -/
def specTail : Domain :=
  { config := ⟨1⟩, lastSerial := 4, sessionId := 1, pendingSync := false, syncTasks := [],
    parts := [(5, ⟨⟨5, 4⟩, 0, 0, 0, false⟩)], sessions := [], maxSessionRunTime := 0,
    executeLog := [(Task.addPart 5 true, true)] }

/-- The Domain `specTail` after the append of a two-byte packet with the entries 5 and 6
and the append of a one-byte packet with the entry 7, which rotates. -/
def specTailAppended : Domain :=
  { specTail with
    parts := [(5, ⟨⟨5, 6⟩, 2, 2, 6, true⟩), (7, ⟨⟨7, 7⟩, 1, 1, 0, false⟩)],
    executeLog := [(Task.addPart 5 true, true), (Task.sync 5, true)] }

/-- A segment implementation whose `erase` reports failure. -/
def refusingOps : PartOps :=
  { sampleOps with erase := fun p _ => (false, p) }

/-- Three segments `[1,10]`, `[11,20]`, `[21,30]`, the first two closed. -/
def threeParts : DomainPartList :=
  [(1, samplePart 1 10 40 true), (11, samplePart 11 20 40 true),
   (21, samplePart 21 30 40 false)]

/-! # Theorems -/

/-! ## Lemmas on Domain::erase -/

theorem eraseLoop_parts (ops : PartOps) (to_ : SerialNum) :
    ∀ (parts : DomainPartList) (rv : Bool) (rem : DomainPartList) (inv : List SerialNum),
      (eraseLoop ops to_ parts rv rem inv).parts = parts.drop (prunedCount to_ parts)
  | [], rv, rem, inv => by simp [eraseLoop, prunedCount]
  | [e], rv, rem, inv => by simp [eraseLoop, prunedCount]
  | (k, dp) :: next :: rest, rv, rem, inv => by
    unfold eraseLoop
    by_cases h : dp.range.to_ < to_
    · have ih1 := eraseLoop_parts ops to_ (next :: rest) (ops.erase dp to_).1
        (rem ++ [(k, (ops.erase dp to_).2)]) (inv ++ [k])
      have ih2 := eraseLoop_parts ops to_ (next :: rest) false (rem ++ [(k, dp)]) inv
      have hc : prunedCount to_ ((k, dp) :: next :: rest)
          = prunedCount to_ (next :: rest) + 1 := by
        simp only [prunedCount, List.takeWhile_cons, h, decide_True, if_true, List.length_cons]
        omega
      rw [hc]
      cases rv <;> simp [h, ih1, ih2]
    · have hc : prunedCount to_ ((k, dp) :: next :: rest) = 0 := by
        simp [prunedCount, List.takeWhile_cons, h]
      simp [h, hc]

theorem prunedCount_lt (to_ : SerialNum) (parts : DomainPartList) (h : parts ≠ []) :
    prunedCount to_ parts < parts.length := by
  have : 0 < parts.length := List.length_pos.mpr h
  unfold prunedCount
  omega

theorem prunedCount_removed (to_ : SerialNum) (parts : DomainPartList) :
    ∀ e ∈ parts.take (prunedCount to_ parts), e.2.range.to_ < to_ := by
  intro e he
  have hsub : e ∈ parts.takeWhile (fun e => decide (e.2.range.to_ < to_)) := by
    have hle : prunedCount to_ parts
        ≤ (parts.takeWhile (fun e => decide (e.2.range.to_ < to_))).length := by
      unfold prunedCount; omega
    have hpre : parts.take (prunedCount to_ parts)
        <+: parts.takeWhile (fun e => decide (e.2.range.to_ < to_)) := by
      have h1 : parts.take (prunedCount to_ parts) <+: parts := List.take_prefix _ _
      have h2 : parts.takeWhile (fun e => decide (e.2.range.to_ < to_)) <+: parts :=
        List.takeWhile_prefix _
      refine List.prefix_of_prefix_length_le h1 h2 ?_
      rw [List.length_take]
      omega
    exact hpre.subset he
  simpa using List.mem_takeWhile_imp hsub

theorem eraseBoundary_keys (ops : PartOps) (to_ : SerialNum) (parts parts' : DomainPartList)
    (h : eraseBoundary ops to_ parts = some parts') :
    keys parts' = keys parts ∧ parts'.tail = parts.tail := by
  cases parts with
  | nil => simp [eraseBoundary] at h
  | cons e rest =>
    obtain ⟨k, dp⟩ := e
    simp only [eraseBoundary] at h
    by_cases hc : dp.range.to_ ≥ to_
    · rw [if_pos hc] at h
      cases h
      simp [keys]
    · rw [if_neg hc] at h
      cases h
      simp [keys]

theorem eraseBoundary_isSome (ops : PartOps) (to_ : SerialNum) (parts : DomainPartList)
    (h : parts ≠ []) : ∃ parts', eraseBoundary ops to_ parts = some parts' := by
  cases parts with
  | nil => exact absurd rfl h
  | cons e rest =>
    obtain ⟨k, dp⟩ := e
    simp only [eraseBoundary]
    by_cases hc : dp.range.to_ ≥ to_
    · exact ⟨_, if_pos hc⟩
    · exact ⟨_, if_neg hc⟩

/-- What `Domain::erase` leaves in the map: the first `prunedCount` keys are gone, the
others stay in order, and only the first remaining segment may have been touched. -/
theorem erase_shape (ops : PartOps) (d : Domain) (to_ : SerialNum) (h : d.parts ≠ []) :
    ∃ r d', d.erase ops to_ = some (r, d') ∧
      keys d'.parts = (keys d.parts).drop (prunedCount to_ d.parts) ∧
      d'.parts.tail = (d.parts.drop (prunedCount to_ d.parts)).tail ∧
      d'.sessions = d.sessions ∧ d'.sessionId = d.sessionId := by
  have hlt := prunedCount_lt to_ d.parts h
  have hne : d.parts.drop (prunedCount to_ d.parts) ≠ [] := by
    intro hnil
    have := congrArg List.length hnil
    simp at this
    omega
  obtain ⟨parts', hb⟩ := eraseBoundary_isSome ops to_ _ hne
  have hk := eraseBoundary_keys ops to_ _ _ hb
  refine ⟨(eraseLoop ops to_ d.parts true [] []).retval, { d with parts := parts' }, ?_, ?_, ?_,
    rfl, rfl⟩
  · simp [Domain.erase, eraseLoop_parts, hb]
  · have h1 := hk.1
    simp only [keys] at h1 ⊢
    rw [h1, List.map_drop]
  · simp [hk.2]

theorem mem_keys_of_mem {K V : Type} (m : List (K × V)) (e : K × V) (h : e ∈ m) :
    e.1 ∈ m.map Prod.fst := List.mem_map_of_mem Prod.fst h

/-- In a map with ascending keys the greatest key is the last one. -/
theorem greatest_key_is_last (ks : List SerialNum) (hasc : ks.Pairwise (· < ·))
    (kmax : SerialNum) (hmem : kmax ∈ ks) (hmax : ∀ k ∈ ks, k ≤ kmax) :
    ks.getLast? = some kmax := by
  induction ks using List.reverseRecOn with
  | nil => simp at hmem
  | append_singleton init last _ =>
    rw [List.getLast?_concat]
    simp only [Option.some.injEq]
    rw [List.pairwise_append] at hasc
    have hlast : last ≤ kmax := hmax last (by simp)
    rcases List.mem_append.mp hmem with hin | hin
    · have hlt : kmax < last := hasc.2.2 kmax hin last (by simp)
      exact absurd hlast (Nat.not_le.mpr hlt)
    · exact (List.mem_singleton.mp hin).symm

/-- C1: on a non-empty segment map `Domain::erase(to)` returns, and for every `to` the map
is afterwards still non-empty and still holds the segment with the greatest starting
serial, which is the last key of the map before and after. -/
theorem erase_never_removes_last_segment (ops : PartOps) (d : Domain) (to_ : SerialNum)
    (hne : d.parts ≠ []) (hasc : KeysAscending d.parts) :
    ∃ r d', d.erase ops to_ = some (r, d') ∧ d'.parts ≠ [] ∧
      (keys d'.parts).getLast? = (keys d.parts).getLast? ∧
      ∀ kmax ∈ keys d.parts, (∀ k ∈ keys d.parts, k ≤ kmax) → kmax ∈ keys d'.parts := by
  obtain ⟨r, d', he, hk, -, -, -⟩ := erase_shape ops d to_ hne
  have hlt := prunedCount_lt to_ d.parts hne
  have hlast : (keys d'.parts).getLast? = (keys d.parts).getLast? := by
    rw [hk, List.getLast?_drop, if_neg]
    simp only [keys, List.length_map]
    omega
  refine ⟨r, d', he, ?_, hlast, ?_⟩
  · intro hnil
    have := congrArg List.length hk
    simp [keys, hnil] at this
    omega
  · intro kmax hmem hmax
    have h1 := greatest_key_is_last (keys d.parts) hasc kmax hmem hmax
    rw [← hlast] at h1
    exact List.mem_of_getLast?_eq_some h1

/-- C1, at a concrete input: two segments ending at 10 and 20, pruned with `to = 100`. -/
theorem erase_never_removes_last_segment_witness :
    ∃ r d', visitedDomain.erase sampleOps 100 = some (r, d') ∧ d'.parts ≠ [] ∧
      (keys d'.parts).getLast? = (keys visitedDomain.parts).getLast? ∧
      ∀ kmax ∈ keys visitedDomain.parts,
        (∀ k ∈ keys visitedDomain.parts, k ≤ kmax) → kmax ∈ keys d'.parts :=
  erase_never_removes_last_segment sampleOps visitedDomain 100 (by decide) (by decide)

/-- C2, as stated, fails: with a session over `[5,30]` that is not in sync,
`findOldestActiveVisit()` is 5, yet `erase(11)` unlinks the segment `[1,10]`, which holds
the serials 5 to 10. -/
theorem erase_ignores_active_visit :
    (∃ pair ∈ visitedDomain.sessions, pair.2.inSync = false) ∧
    findOldestActiveVisit visitedDomain.sessions = 5 ∧
    (1, (⟨⟨1, 10⟩, 10, 40, 10, true⟩ : DomainPart)) ∈ visitedDomain.parts ∧
    (visitedDomain.erase sampleOps 11).map (fun res => keys res.2.parts) = some [11] := by
  decide

/-- C2, amended: `Domain::erase(to)` does not look at the session table; it unlinks no
segment with `range().to() >= to`.  So when the caller passes a `to` that is at most
`findOldestActiveVisit()`, no segment holding serials at or above
`findOldestActiveVisit()` is removed from the map. -/
theorem erase_keeps_segments_from_floor (ops : PartOps) (d : Domain) (to_ : SerialNum)
    (hne : d.parts ≠ []) (hfloor : to_ ≤ findOldestActiveVisit d.sessions) :
    ∃ r d', d.erase ops to_ = some (r, d') ∧
      (∀ e ∈ d.parts, to_ ≤ e.2.range.to_ → e.1 ∈ keys d'.parts) ∧
      (∀ e ∈ d.parts, findOldestActiveVisit d.sessions ≤ e.2.range.to_ →
        e.1 ∈ keys d'.parts) := by
  obtain ⟨r, d', he, hk, -, -, -⟩ := erase_shape ops d to_ hne
  have key : ∀ e ∈ d.parts, to_ ≤ e.2.range.to_ → e.1 ∈ keys d'.parts := by
    intro e hmem hto
    rw [← List.take_append_drop (prunedCount to_ d.parts) d.parts] at hmem
    rcases List.mem_append.mp hmem with hin | hin
    · have hlt : e.2.range.to_ < to_ := prunedCount_removed to_ d.parts e hin
      exact absurd hto (Nat.not_le.mpr hlt)
    · rw [hk, keys, ← List.map_drop]
      exact mem_keys_of_mem _ e hin
  exact ⟨r, d', he, key, fun e hmem hto => key e hmem (le_trans hfloor hto)⟩

/-- C2 amended, at a concrete input: the session needs serial 5 onwards, the caller
prunes with `to = 5` and both segments stay. -/
theorem erase_keeps_segments_from_floor_witness :
    ∃ r d', visitedDomain.erase sampleOps 5 = some (r, d') ∧
      (∀ e ∈ visitedDomain.parts, 5 ≤ e.2.range.to_ → e.1 ∈ keys d'.parts) ∧
      (∀ e ∈ visitedDomain.parts,
        findOldestActiveVisit visitedDomain.sessions ≤ e.2.range.to_ →
          e.1 ∈ keys d'.parts) :=
  erase_keeps_segments_from_floor sampleOps visitedDomain 5 (by decide) (by decide)

theorem prunedCount_boundary (to_ : SerialNum) :
    ∀ parts : DomainPartList, parts ≠ [] →
      (parts.drop (prunedCount to_ parts)).length = 1 ∨
      ∃ e, (parts.drop (prunedCount to_ parts)).head? = some e ∧ to_ ≤ e.2.range.to_
  | [], h => absurd rfl h
  | [e], _ => by simp [prunedCount]
  | (k, dp) :: next :: rest, _ => by
    by_cases h : dp.range.to_ < to_
    · have hc : prunedCount to_ ((k, dp) :: next :: rest)
          = prunedCount to_ (next :: rest) + 1 := by
        simp only [prunedCount, List.takeWhile_cons, h, decide_True, if_true, List.length_cons]
        omega
      rw [hc, List.drop_succ_cons]
      exact prunedCount_boundary to_ (next :: rest) (by simp)
    · have hc : prunedCount to_ ((k, dp) :: next :: rest) = 0 := by
        simp [prunedCount, List.takeWhile_cons, h]
      rw [hc]
      exact Or.inr ⟨(k, dp), by simp, Nat.not_lt.mp h⟩

/-- C10: on a non-empty map `Domain::erase(to)` unlinks exactly the first
`prunedCount to parts` segments, that is the longest leading run of segments with
`range().to() < to`, cut short so that one segment remains.  Every unlinked segment ends
below `to` (so none with `range().to() >= to` is unlinked), the remaining keys keep their
order, every remaining segment but the first is untouched, and afterwards either exactly
one segment remains or the first remaining segment has `range().to() >= to`. -/
theorem erase_removes_leading_run (ops : PartOps) (d : Domain) (to_ : SerialNum)
    (hne : d.parts ≠ []) :
    ∃ r d', d.erase ops to_ = some (r, d') ∧
      prunedCount to_ d.parts =
        min (d.parts.takeWhile (fun e => decide (e.2.range.to_ < to_))).length
          (d.parts.length - 1) ∧
      keys d'.parts = (keys d.parts).drop (prunedCount to_ d.parts) ∧
      d'.parts.tail = (d.parts.drop (prunedCount to_ d.parts)).tail ∧
      (∀ e ∈ d.parts.take (prunedCount to_ d.parts), e.2.range.to_ < to_) ∧
      (∀ e ∈ d.parts, to_ ≤ e.2.range.to_ → e ∈ d.parts.drop (prunedCount to_ d.parts)) ∧
      (d'.parts.length = 1 ∨
        ∃ e, (d.parts.drop (prunedCount to_ d.parts)).head? = some e ∧
          to_ ≤ e.2.range.to_) := by
  obtain ⟨r, d', he, hk, ht, -, -⟩ := erase_shape ops d to_ hne
  refine ⟨r, d', he, rfl, hk, ht, prunedCount_removed to_ d.parts, ?_, ?_⟩
  · intro e hmem hto
    rw [← List.take_append_drop (prunedCount to_ d.parts) d.parts] at hmem
    rcases List.mem_append.mp hmem with hin | hin
    · have hlt : e.2.range.to_ < to_ := prunedCount_removed to_ d.parts e hin
      exact absurd hto (Nat.not_le.mpr hlt)
    · exact hin
  · rcases prunedCount_boundary to_ d.parts hne with h1 | h2
    · left
      have := congrArg List.length hk
      simp only [keys, List.length_map, List.length_drop] at this
      rw [List.length_drop] at h1
      omega
    · exact Or.inr h2

/-- C10, at a concrete input: segments ending at 10 and 20, pruned with `to = 15`. -/
theorem erase_removes_leading_run_witness :
    ∃ r d', visitedDomain.erase sampleOps 15 = some (r, d') ∧
      prunedCount 15 visitedDomain.parts =
        min (visitedDomain.parts.takeWhile (fun e => decide (e.2.range.to_ < 15))).length
          (visitedDomain.parts.length - 1) ∧
      keys d'.parts = (keys visitedDomain.parts).drop (prunedCount 15 visitedDomain.parts) ∧
      d'.parts.tail = (visitedDomain.parts.drop (prunedCount 15 visitedDomain.parts)).tail ∧
      (∀ e ∈ visitedDomain.parts.take (prunedCount 15 visitedDomain.parts),
        e.2.range.to_ < 15) ∧
      (∀ e ∈ visitedDomain.parts, 15 ≤ e.2.range.to_ →
        e ∈ visitedDomain.parts.drop (prunedCount 15 visitedDomain.parts)) ∧
      (d'.parts.length = 1 ∨
        ∃ e, (visitedDomain.parts.drop (prunedCount 15 visitedDomain.parts)).head? = some e ∧
          15 ≤ e.2.range.to_) :=
  erase_removes_leading_run sampleOps visitedDomain 15 (by decide)

/-! ## Lemmas on Domain::findPart -/

theorem upperBound_before (s : SerialNum) (parts : DomainPartList) (j : Nat)
    (hj : j < upperBound s parts) (hlen : j < parts.length) : parts[j].1 ≤ s := by
  have h := List.not_of_lt_findIdx hj
  simpa using h

theorem upperBound_at (s : SerialNum) (parts : DomainPartList)
    (h : upperBound s parts < parts.length) : s < parts[upperBound s parts].1 := by
  have := List.findIdx_getElem (w := h)
  simpa using this

theorem keysAscending_getElem (parts : DomainPartList) (hasc : KeysAscending parts)
    (i j : Nat) (hij : i < j) (hj : j < parts.length) :
    (parts[i]).1 < (parts[j]).1 := by
  have h := List.pairwise_iff_getElem.mp hasc i j (by simp [keys]; omega) (by simpa [keys] using hj)
    hij
  simpa [keys] using h

theorem mapInsert_ne_nil {K V : Type} [LinearOrder K] (k : K) (v : V) (m : List (K × V)) :
    mapInsert k v m ≠ [] := by
  cases m with
  | nil => simp [mapInsert]
  | cons e rest =>
    obtain ⟨k', v'⟩ := e
    simp only [mapInsert]
    split_ifs <;> simp

/-- C4: whenever the constructor returns normally, whatever list of starting serials the
directory scan produced (the empty list, a list whose last part loads empty, a list with
the reserved maximum serial), the segment map holds at least one segment. -/
theorem init_has_segment (ops : PartOps) (cfg : DomainConfig) (mkBaseDir mkDomainDir : Int)
    (partIdVector : List SerialNum) (d : Domain)
    (h : Domain.initFrom ops cfg mkBaseDir mkDomainDir partIdVector = some d) :
    d.parts ≠ [] := by
  unfold Domain.initFrom at h
  split_ifs at h
  simp only at h
  split at h
  · exact absurd h (by simp)
  · rename_i parts log hload
    split at h
    · split at h
      · exact absurd h (by simp)
      · cases h
        exact mapInsert_ne_nil _ _ _
    · rename_i hnew
      cases h
      simp only
      intro hnil
      apply hnew
      simp [hnil]

/-- C4, at a concrete input: a directory whose only segment file, of starting serial 5,
loads with no entries; the constructor returns with one segment under key 5. -/
theorem init_has_segment_witness :
    ∃ d, Domain.initFrom sampleOps ⟨100⟩ 0 0 [5] = some d ∧ keys d.parts = [5] ∧
      d.parts ≠ [] :=
  match h : Domain.initFrom sampleOps ⟨100⟩ 0 0 [5] with
  | some d =>
    ⟨d, rfl, by
      have h2 : (Domain.initFrom sampleOps ⟨100⟩ 0 0 [5]).map (fun x => keys x.parts)
          = some [5] := by decide
      rw [h] at h2
      simpa using h2,
      init_has_segment sampleOps ⟨100⟩ 0 0 [5] d h⟩
  | none => absurd h (by decide)

/-! ## Lemmas on rotation and append -/

theorem mapInsert_append_of_lt {V : Type} (k : SerialNum) (v : V) :
    ∀ m : List (SerialNum × V), (∀ e ∈ m, e.1 < k) → mapInsert k v m = m ++ [(k, v)]
  | [], _ => rfl
  | (k', v') :: rest, h => by
    have hk : k' < k := h (k', v') (by simp)
    have ih := mapInsert_append_of_lt k v rest (fun e he => h e (by simp [he]))
    have h1 : ¬ k < k' := Nat.not_lt.mpr (Nat.le_of_lt hk)
    have h2 : ¬ k = k' := fun heq => Nat.lt_irrefl k (heq ▸ hk)
    simp [mapInsert, h1, h2, ih]

theorem mapUpdate_of_ne {K V : Type} [LinearOrder K] (k : K) (f : V → V) (m : List (K × V))
    (h : ∀ e ∈ m, e.1 ≠ k) : mapUpdate k f m = m := by
  unfold mapUpdate
  conv_rhs => rw [← List.map_id m]
  apply List.map_congr_left
  intro e he
  simp [h e he]

theorem mapUpdate_append_last {K V : Type} [LinearOrder K] (k : K) (f : V → V)
    (m : List (K × V)) (v : V) (h : ∀ e ∈ m, e.1 ≠ k) :
    mapUpdate k f (m ++ [(k, v)]) = m ++ [(k, f v)] := by
  have h1 := mapUpdate_of_ne k f m h
  unfold mapUpdate at h1 ⊢
  rw [List.map_append, h1]
  simp

theorem mapFind_append_last {K V : Type} [LinearOrder K] (k : K) (m : List (K × V)) (v : V)
    (h : ∀ e ∈ m, e.1 ≠ k) : mapFind k (m ++ [(k, v)]) = some v := by
  unfold mapFind
  rw [List.find?_append]
  have : m.find? (fun kv => decide (kv.1 = k)) = none := by
    rw [List.find?_eq_none]
    intro e he
    simpa using h e he
  simp [this]

theorem waitPendingSync_shape (ops : PartOps) (d : Domain)
    (hsync : d.pendingSync = true → d.syncTasks ≠ []) :
    ∃ d1 g, d.waitPendingSync ops = some d1 ∧
      (∀ e : SerialNum × DomainPart, (g e).1 = e.1 ∧ ((g e).2 = e.2 ∨ (g e).2 = ops.sync e.2)) ∧
      d1.parts = d.parts.map g ∧ d1.sessions = d.sessions ∧ d1.config = d.config ∧
      d1.sessionId = d.sessionId := by
  unfold Domain.waitPendingSync
  cases hp : d.pendingSync with
  | false => exact ⟨d, id, by simp, by simp, by simp, rfl, rfl, rfl⟩
  | true =>
    cases ht : d.syncTasks with
    | nil => exact absurd ht (hsync hp)
    | cons t rest =>
      refine ⟨d.syncTaskDone ops, fun e => if e.1 = t then (e.1, ops.sync e.2) else e,
        by simp, ?_, ?_, ?_, ?_, ?_⟩
      · intro e
        by_cases h : e.1 = t <;> simp [h]
      all_goals simp [Domain.syncTaskDone, ht, mapUpdate]

theorem triggerSyncNow_shape (d : Domain) (hne : d.parts ≠ [])
    (hsync : d.pendingSync = true → d.syncTasks ≠ []) :
    ∃ d2, d.triggerSyncNow = some d2 ∧ (d2.pendingSync = true → d2.syncTasks ≠ []) ∧
      d2.parts = d.parts ∧ d2.sessions = d.sessions ∧ d2.config = d.config ∧
      d2.sessionId = d.sessionId := by
  unfold Domain.triggerSyncNow
  cases hp : d.pendingSync with
  | true => exact ⟨d, by simp, hsync, rfl, rfl, rfl, rfl⟩
  | false =>
    cases hl : d.parts.getLast? with
    | none => exact absurd (List.getLast?_eq_none_iff.mp hl) hne
    | some entry =>
      exact ⟨{ d with pendingSync := true, syncTasks := d.syncTasks ++ [entry.1],
                      executeLog := d.executeLog ++ [(Task.sync entry.1, true)] },
        by simp, by simp, rfl, rfl, rfl, rfl⟩

/-- The three sync statements of `optionallyRotateFile` go through and leave every
segment of the map either untouched or synced once or twice. -/
theorem rotate_sync_phase (ops : PartOps) (d : Domain) (hne : d.parts ≠ [])
    (hsync : d.pendingSync = true → d.syncTasks ≠ []) :
    ∃ d1 d2 d3 G, d.waitPendingSync ops = some d1 ∧ d1.triggerSyncNow = some d2 ∧
      d2.waitPendingSync ops = some d3 ∧
      (∀ e : SerialNum × DomainPart, (G e).1 = e.1 ∧
        ((G e).2 = e.2 ∨ (G e).2 = ops.sync e.2 ∨ (G e).2 = ops.sync (ops.sync e.2))) ∧
      d3.parts = d.parts.map G ∧ d3.sessions = d.sessions ∧ d3.config = d.config ∧
      d3.sessionId = d.sessionId := by
  obtain ⟨d1, g1, h1, hg1, hp1, hs1, hc1, hi1⟩ := waitPendingSync_shape ops d hsync
  have hne1 : d1.parts ≠ [] := by
    rw [hp1]
    simpa using hne
  have hsync1 : d1.pendingSync = true → d1.syncTasks ≠ [] := by
    intro hp
    unfold Domain.waitPendingSync at h1
    cases hpd : d.pendingSync with
    | false =>
      simp [hpd] at h1
      subst h1
      exact hsync hp
    | true =>
      cases ht : d.syncTasks with
      | nil => exact absurd ht (hsync hpd)
      | cons t rest =>
        simp [hpd, ht, Domain.syncTaskDone] at h1
        subst h1
        simp at hp
  obtain ⟨d2, h2, hsync2, hp2, hs2, hc2, hi2⟩ := triggerSyncNow_shape d1 hne1 hsync1
  obtain ⟨d3, g3, h3, hg3, hp3, hs3, hc3, hi3⟩ := waitPendingSync_shape ops d2 hsync2
  refine ⟨d1, d2, d3, g3 ∘ g1, h1, h2, h3, ?_, ?_, ?_, ?_, ?_⟩
  · intro e
    have a1 := hg1 e
    have a3 := hg3 (g1 e)
    refine ⟨by simp [a1.1, a3.1], ?_⟩
    simp only [Function.comp]
    rcases a1.2 with b1 | b1 <;> rcases a3.2 with b3 | b3 <;> simp [b1, b3]
  · rw [hp3, hp2, hp1, List.map_map]
  · rw [hs3, hs2, hs1]
  · rw [hc3, hc2, hc1]
  · rw [hi3, hi2, hi1]

/-- The rotating branch of `optionallyRotateFile`, on a map `init ++ [(k, dp)]`. -/
theorem optionallyRotateFile_rotates (ops : PartOps) (d : Domain) (serialNum : SerialNum)
    (init : DomainPartList) (k : SerialNum) (dp fresh : DomainPart)
    (hparts : d.parts = init ++ [(k, dp)]) (hasc : KeysAscending d.parts)
    (hnew : ∀ e ∈ d.parts, e.1 < serialNum)
    (hsync : d.pendingSync = true → d.syncTasks ≠ [])
    (hbig : d.config.partSizeLimit < dp.byteSize)
    (hcreate : ops.create serialNum false = some fresh) :
    ∃ G d1, (∀ e : SerialNum × DomainPart, (G e).1 = e.1 ∧
        ((G e).2 = e.2 ∨ (G e).2 = ops.sync e.2 ∨ (G e).2 = ops.sync (ops.sync e.2))) ∧
      d.optionallyRotateFile ops serialNum = some (serialNum, d1) ∧
      d1.parts = (init.map G ++ [(k, ops.close (G (k, dp)).2)]) ++ [(serialNum, fresh)] ∧
      d1.sessions = d.sessions ∧ d1.sessionId = d.sessionId := by
  have hne : d.parts ≠ [] := by rw [hparts]; simp
  obtain ⟨d1, d2, d3, G, h1, h2, h3, hG, hp3, hs3, -, hi3⟩ := rotate_sync_phase ops d hne hsync
  have hlast : d.parts.getLast? = some (k, dp) := by rw [hparts]; simp
  have hinit_lt : ∀ e ∈ init, e.1 < k := by
    intro e he
    have hp : (keys (init ++ [(k, dp)])).Pairwise (· < ·) := hparts ▸ hasc
    simp only [keys, List.map_append, List.map_cons, List.map_nil] at hp
    exact (List.pairwise_append.mp hp).2.2 e.1 (List.mem_map_of_mem Prod.fst he) k (by simp)
  have hGk : G (k, dp) = (k, (G (k, dp)).2) := Prod.ext (hG (k, dp)).1 rfl
  have hd3 : d3.parts = init.map G ++ [(k, (G (k, dp)).2)] := by
    rw [hp3, hparts, List.map_append, List.map_cons, List.map_nil, ← hGk]
  have hmapne : ∀ e ∈ init.map G, e.1 ≠ k := by
    intro e he
    obtain ⟨e0, he0, rfl⟩ := List.mem_map.mp he
    rw [(hG e0).1]
    exact Nat.ne_of_lt (hinit_lt e0 he0)
  have hclosed : mapUpdate k ops.close d3.parts
      = init.map G ++ [(k, ops.close (G (k, dp)).2)] := by
    rw [hd3]
    exact mapUpdate_append_last k ops.close _ _ hmapne
  have hall : ∀ e ∈ init.map G ++ [(k, ops.close (G (k, dp)).2)], e.1 < serialNum := by
    intro e he
    rcases List.mem_append.mp he with hin | hin
    · obtain ⟨e0, he0, rfl⟩ := List.mem_map.mp hin
      rw [(hG e0).1]
      exact hnew e0 (by rw [hparts]; simp [he0])
    · rw [List.mem_singleton.mp hin]
      exact hnew (k, dp) (by rw [hparts]; simp)
  have hins := mapInsert_append_of_lt serialNum fresh _ hall
  refine ⟨G, { d3 with parts := (init.map G ++ [(k, ops.close (G (k, dp)).2)])
    ++ [(serialNum, fresh)] }, hG, ?_, rfl, hs3, hi3⟩
  unfold Domain.optionallyRotateFile
  rw [hlast]
  simp only [gt_iff_lt, hbig, if_true, h1, h2, h3, hcreate, hclosed, hins]
  simp

/-- C5: on a map with ascending keys whose newest segment is `(k, dp)`, for an appended
serial above every starting serial: when `dp.byteSize() > partSizeLimit`, `append` closes
the segment under `k`, inserts the freshly created segment under the appended serial as
the last entry of the map and commits the packet to that new segment; when
`dp.byteSize() <= partSizeLimit` (equality included) `optionallyRotateFile` changes
nothing and the packet is committed to the segment under `k`. -/
theorem append_rotates_above_limit (ops : PartOps) (d : Domain) (packet : Packet)
    (init : DomainPartList) (k : SerialNum) (dp : DomainPart)
    (hparts : d.parts = init ++ [(k, dp)]) (hasc : KeysAscending d.parts)
    (hnew : ∀ e ∈ d.parts, e.1 < packet.serial)
    (hsync : d.pendingSync = true → d.syncTasks ≠ []) :
    (d.config.partSizeLimit < dp.byteSize →
      ∀ fresh fresh', ops.create packet.serial false = some fresh →
        ops.commit fresh packet.serial packet = some fresh' →
        ∃ G d', (∀ e : SerialNum × DomainPart, (G e).1 = e.1 ∧
            ((G e).2 = e.2 ∨ (G e).2 = ops.sync e.2 ∨ (G e).2 = ops.sync (ops.sync e.2))) ∧
          d.append ops packet = some d' ∧
          d'.parts = init.map G ++ [(k, ops.close (G (k, dp)).2), (packet.serial, fresh')] ∧
          d'.parts.getLast? = some (packet.serial, fresh') ∧
          d'.sessions = cleanSessions d.sessions) ∧
    (dp.byteSize ≤ d.config.partSizeLimit →
      d.optionallyRotateFile ops packet.serial = some (k, d) ∧
      ∀ dp', ops.commit dp packet.serial packet = some dp' →
        d.append ops packet =
          some { d with parts := init ++ [(k, dp')], sessions := cleanSessions d.sessions }) := by
  have hlast : d.parts.getLast? = some (k, dp) := by rw [hparts]; simp
  have hinit_ne : ∀ e ∈ init, e.1 ≠ k := by
    intro e he
    have hp : (keys (init ++ [(k, dp)])).Pairwise (· < ·) := hparts ▸ hasc
    simp only [keys, List.map_append, List.map_cons, List.map_nil] at hp
    exact Nat.ne_of_lt
      ((List.pairwise_append.mp hp).2.2 e.1 (List.mem_map_of_mem Prod.fst he) k (by simp))
  constructor
  · intro hbig fresh fresh' hcreate hcommit
    obtain ⟨G, d1, hG, hrot, hp1, hs1, -⟩ := optionallyRotateFile_rotates ops d packet.serial
      init k dp fresh hparts hasc hnew hsync hbig hcreate
    have hne : ∀ e ∈ init.map G ++ [(k, ops.close (G (k, dp)).2)], e.1 ≠ packet.serial := by
      intro e he
      rcases List.mem_append.mp he with hin | hin
      · obtain ⟨e0, he0, rfl⟩ := List.mem_map.mp hin
        rw [(hG e0).1]
        exact Nat.ne_of_lt (hnew e0 (by rw [hparts]; simp [he0]))
      · rw [List.mem_singleton.mp hin]
        exact Nat.ne_of_lt (hnew (k, dp) (by rw [hparts]; simp))
    have hfind : mapFind packet.serial d1.parts = some fresh := by
      rw [hp1]
      exact mapFind_append_last _ _ _ hne
    have hupd : mapUpdate packet.serial (fun _ => fresh') d1.parts
        = init.map G ++ [(k, ops.close (G (k, dp)).2), (packet.serial, fresh')] := by
      rw [hp1, mapUpdate_append_last _ _ _ _ hne]
      simp
    have happ : d.append ops packet = some
        { d1 with parts := mapUpdate packet.serial (fun _ => fresh') d1.parts,
                  sessions := cleanSessions d1.sessions } := by
      unfold Domain.append
      rw [hrot]
      simp only [hfind, hcommit]
    refine ⟨G, _, hG, happ, hupd, ?_, ?_⟩
    · simp only [hupd]
      simp [List.getLast?_append]
    · simp only [hs1]
  · intro hsmall
    have hrot : d.optionallyRotateFile ops packet.serial = some (k, d) := by
      unfold Domain.optionallyRotateFile
      rw [hlast]
      simp only [gt_iff_lt, Nat.not_lt.mpr hsmall, if_false]
    refine ⟨hrot, ?_⟩
    intro dp' hcommit
    have hfind : mapFind k d.parts = some dp := by
      rw [hparts]
      exact mapFind_append_last _ _ _ hinit_ne
    have hupd : mapUpdate k (fun _ => dp') d.parts = init ++ [(k, dp')] := by
      rw [hparts]
      exact mapUpdate_append_last _ _ _ _ hinit_ne
    unfold Domain.append
    rw [hrot]
    simp only [hfind, hcommit, hupd]

/-- C5, at concrete inputs with `partSizeLimit = 10` and one open segment `[1,10]`:
holding 11 bytes it is closed and the packet of serial 11 goes to a new segment under
key 11; holding exactly 10 bytes it takes the packet itself. -/
theorem append_rotates_above_limit_witness :
    (∃ d', (sampleDomain 10 [(1, samplePart 1 10 11 false)] []).append sampleOps ⟨11, [7, 7], []⟩
        = some d' ∧
      d'.parts = [(1, ⟨⟨1, 10⟩, 9, 11, 10, true⟩), (11, ⟨⟨11, 11⟩, 1, 2, 0, false⟩)]) ∧
    (∃ d', (sampleDomain 10 [(1, samplePart 1 10 10 false)] []).append sampleOps ⟨11, [7, 7], []⟩
        = some d' ∧
      d'.parts = [(1, ⟨⟨1, 11⟩, 10, 12, 10, false⟩)]) := by
  constructor
  · obtain ⟨G, d', -, happ, hparts, -, -⟩ :=
      (append_rotates_above_limit sampleOps (sampleDomain 10 [(1, samplePart 1 10 11 false)] [])
        ⟨11, [7, 7], []⟩ [] 1 (samplePart 1 10 11 false) rfl (by decide) (by decide)
        (by decide)).1 (by decide) ⟨⟨11, 10⟩, 0, 0, 0, false⟩ ⟨⟨11, 11⟩, 1, 2, 0, false⟩ rfl rfl
    refine ⟨d', happ, ?_⟩
    have hd : (sampleDomain 10 [(1, samplePart 1 10 11 false)] []).append sampleOps ⟨11, [7, 7], []⟩
        = some { sampleDomain 10
          [(1, ⟨⟨1, 10⟩, 9, 11, 10, true⟩), (11, ⟨⟨11, 11⟩, 1, 2, 0, false⟩)] [] with
          lastSerial := 10, executeLog := [(Task.sync 1, true)] } := by decide
    rw [hd] at happ
    cases happ
    rfl
  · exact ⟨_, ((append_rotates_above_limit sampleOps
      (sampleDomain 10 [(1, samplePart 1 10 10 false)] []) ⟨11, [7, 7], []⟩ [] 1
      (samplePart 1 10 10 false) rfl (by decide) (by decide) (by decide)).2 (by decide)).2
      ⟨⟨1, 11⟩, 10, 12, 10, false⟩ rfl, rfl⟩

/-! ## Lemmas on the session id counter -/

theorem waitPendingSync_sessionId (ops : PartOps) (d d1 : Domain)
    (h : d.waitPendingSync ops = some d1) : d1.sessionId = d.sessionId := by
  unfold Domain.waitPendingSync at h
  split_ifs at h
  · cases h; rfl
  · split at h
    · exact absurd h (by simp)
    · cases h
      unfold Domain.syncTaskDone
      split <;> rfl

theorem triggerSyncNow_sessionId (d d2 : Domain) (h : d.triggerSyncNow = some d2) :
    d2.sessionId = d.sessionId := by
  unfold Domain.triggerSyncNow at h
  split_ifs at h
  · split at h
    · exact absurd h (by simp)
    · cases h; rfl
  · cases h; rfl

theorem optionallyRotateFile_sessionId (ops : PartOps) (d d1 : Domain) (s k : SerialNum)
    (h : d.optionallyRotateFile ops s = some (k, d1)) : d1.sessionId = d.sessionId := by
  unfold Domain.optionallyRotateFile at h
  split at h
  · exact absurd h (by simp)
  · split_ifs at h
    · split at h
      · exact absurd h (by simp)
      · rename_i da h1
        split at h
        · exact absurd h (by simp)
        · rename_i db h2
          split at h
          · exact absurd h (by simp)
          · rename_i dc h3
            simp only at h
            split at h
            · exact absurd h (by simp)
            · split_ifs at h
              cases h
              simp only
              rw [waitPendingSync_sessionId ops _ _ h3, triggerSyncNow_sessionId _ _ h2,
                waitPendingSync_sessionId ops _ _ h1]
    · cases h; rfl

theorem append_sessionId (ops : PartOps) (d d' : Domain) (packet : Packet)
    (h : d.append ops packet = some d') : d'.sessionId = d.sessionId := by
  unfold Domain.append at h
  split at h
  · exact absurd h (by simp)
  · rename_i k d1 hrot
    split at h
    · exact absurd h (by simp)
    · split at h
      · exact absurd h (by simp)
      · cases h
        exact optionallyRotateFile_sessionId ops d d1 _ k hrot

theorem erase_sessionId (ops : PartOps) (d d' : Domain) (to_ : SerialNum) (r : Bool)
    (h : d.erase ops to_ = some (r, d')) : d'.sessionId = d.sessionId := by
  unfold Domain.erase at h
  simp only [Option.map_eq_some'] at h
  obtain ⟨parts, -, hp⟩ := h
  cases hp
  rfl

theorem startSession_sessionId (d : Domain) (sessionId : Int) (now : Nat) (accepted : Bool) :
    (d.startSession sessionId now accepted).2.sessionId = d.sessionId := by
  unfold Domain.startSession
  split
  · rfl
  · split_ifs <;> rfl

theorem closeSession_sessionId (d d' : Domain) (sessionId : Int) (runTime : Nat)
    (env : Nat → SessionList → SessionList) (fuel : Nat) (r : Int)
    (h : d.closeSession sessionId runTime env fuel = some (r, d')) :
    d'.sessionId = d.sessionId := by
  unfold Domain.closeSession at h
  simp only at h
  split at h
  · exact absurd h (by simp)
  · cases h; rfl

theorem toInt32_succ (x : Int) : toInt32 (toInt32 x + 1) = toInt32 (x + 1) := by
  unfold toInt32
  omega

theorem toInt32_of_small (x : Int) (h0 : 0 ≤ x) (h1 : x < 2147483648) : toInt32 x = x := by
  unfold toInt32
  omega

theorem initFrom_sessionId (ops : PartOps) (cfg : DomainConfig) (a b : Int)
    (ids : List SerialNum) (d : Domain) (h : Domain.initFrom ops cfg a b ids = some d) :
    d.sessionId = 1 := by
  unfold Domain.initFrom at h
  split_ifs at h
  simp only at h
  split at h
  · exact absurd h (by simp)
  · split at h
    · split at h
      · exact absurd h (by simp)
      · cases h; rfl
    · cases h; rfl

/-- After `k` calls of `visit` the counter holds `k + 1`, as a 32-bit `int`. -/
theorem reached_sessionId (ops : PartOps) (d : Domain) (k : Nat) (h : Reached ops d k) :
    d.sessionId = toInt32 ((k : Int) + 1) := by
  induction h with
  | init h0 => rw [initFrom_sessionId _ _ _ _ _ _ h0]; rfl
  | visit f t _ hv ih =>
    unfold Domain.visit at hv
    simp only [Bool.not_true, Bool.false_eq_true, if_false, Option.some.injEq,
      Prod.mk.injEq] at hv
    obtain ⟨-, hd⟩ := hv
    subst hd
    simp only [ih, Nat.cast_add, Nat.cast_one]
    exact toInt32_succ _
  | append p _ ha ih => rw [append_sessionId ops _ _ p ha, ih]
  | erase t _ he ih => rw [erase_sessionId ops _ _ t _ he, ih]
  | startSession i n a _ ih => rw [startSession_sessionId, ih]
  | closeSession i rt env fuel _ hc ih => rw [closeSession_sessionId _ _ i rt env fuel _ hc, ih]
  | triggerSyncNow _ ht ih => rw [triggerSyncNow_sessionId _ _ ht, ih]
  | syncTaskDone _ ih =>
    rw [← ih]
    unfold Domain.syncTaskDone
    split <;> rfl
  | sessionProgress _ _ _ _ ih => exact ih
  | setConfig _ _ ih => exact ih

theorem mapFind_mapInsert_self {K V : Type} [LinearOrder K] (k : K) (v : V) :
    ∀ m : List (K × V), mapFind k (mapInsert k v m) = some v
  | [] => by simp [mapInsert, mapFind]
  | (k', v') :: rest => by
    have ih := mapFind_mapInsert_self k v rest
    unfold mapInsert
    by_cases h1 : k < k'
    · simp [h1, mapFind]
    · by_cases h2 : k = k'
      · simp [h1, h2, mapFind]
      · have h3 : ¬ k' = k := fun h => h2 h.symm
        simp only [h1, h2, if_false]
        unfold mapFind at ih ⊢
        simp only [List.find?_cons, h3, decide_False]
        exact ih

theorem kthVisitId_eq : ∀ (n : Nat) (d : Domain),
    kthVisitId d (n + 2) = some (toInt32 (d.sessionId + ((n : Int) + 1)))
  | 0, d => by
    simp [kthVisitId, Domain.visit, Session.create]
  | n + 1, d => by
    have ih := kthVisitId_eq n
    rw [kthVisitId]
    simp only [Domain.visit, Bool.not_true, Bool.false_eq_true, if_false]
    rw [ih]
    simp only [Nat.cast_add, Nat.cast_one, Option.some.injEq]
    unfold toInt32
    omega

/-- C6, as stated, fails at `k = 2^31`: on a freshly constructed Domain the 2147483648th
call of `visit` returns the `int` -2147483648, not 2147483648, so the ids do not keep
increasing. -/
theorem visit_id_wraps_after_int_max :
    Domain.initFrom sampleOps ⟨100⟩ 0 0 [] = some freshDomain ∧
    kthVisitId freshDomain 2147483648 = some (-2147483648) := by
  refine ⟨by decide, ?_⟩
  have h := kthVisitId_eq 2147483646 freshDomain
  have h2 : toInt32 (freshDomain.sessionId + (((2147483646 : Nat) : Int) + 1)) = -2147483648 := by
    simp only [freshDomain, toInt32]
    norm_num
  rw [h2] at h
  exact h

/-- C6, amended: for every `k` with `1 <= k <= 2^31 - 1`, the `k`-th call of
`Domain::visit` on a Domain (here: the call made in a state reached after `k - 1` earlier
calls, with any other operations in between) returns the id `k`, and right after the call
the session table holds under that id a session with that id and the range `[from, to]`
that was passed in. -/
theorem visit_returns_kth_id (ops : PartOps) (d : Domain) (n : Nat) (from_ to_ : SerialNum)
    (h : Reached ops d n) (hk : n + 1 < 2 ^ 31) :
    ∃ d', d.visit true from_ to_ = some (((n + 1 : Nat) : Int), d') ∧
      Reached ops d' (n + 1) ∧
      ∃ s, mapFind (((n + 1 : Nat) : Int)) d'.sessions = some s ∧
        s.id = ((n + 1 : Nat) : Int) ∧ s.range = ⟨from_, to_⟩ := by
  have hid : d.sessionId = ((n + 1 : Nat) : Int) := by
    rw [reached_sessionId ops d n h]
    push_cast
    apply toInt32_of_small
    · omega
    · have : (n : Int) + 1 < 2 ^ 31 := by exact_mod_cast hk
      norm_num at this
      omega
  have hv : d.visit true from_ to_ = some (((n + 1 : Nat) : Int),
      { d with sessionId := toInt32 (d.sessionId + 1),
               sessions := mapInsert d.sessionId (Session.create d.sessionId ⟨from_, to_⟩)
                 (cleanSessions d.sessions) }) := by
    simp [Domain.visit, Session.create, hid]
  refine ⟨_, hv, Reached.visit from_ to_ h hv, Session.create d.sessionId ⟨from_, to_⟩, ?_, ?_, rfl⟩
  · simp only
    rw [← hid]
    exact mapFind_mapInsert_self _ _ _
  · simp [Session.create, hid]

/-- C6 amended, at a concrete input: the first `visit` on a freshly constructed Domain,
over `[5,10]`, returns id 1. -/
theorem visit_returns_kth_id_witness :
    Reached sampleOps freshDomain 0 ∧
    ∃ d', freshDomain.visit true 5 10 = some (((0 + 1 : Nat) : Int), d') ∧
      Reached sampleOps d' (0 + 1) ∧
      ∃ s, mapFind (((0 + 1 : Nat) : Int)) d'.sessions = some s ∧
        s.id = ((0 + 1 : Nat) : Int) ∧ s.range = ⟨5, 10⟩ :=
  ⟨@Reached.init sampleOps ⟨100⟩ [] freshDomain (by decide),
   visit_returns_kth_id sampleOps freshDomain 0 5 10
     (@Reached.init sampleOps ⟨100⟩ [] freshDomain (by decide)) (by norm_num)⟩

/-! ## Lemmas on closeSession and startSession -/

theorem mapFind_mapErase_self {K V : Type} [LinearOrder K] (k : K) (m : List (K × V)) :
    mapFind k (mapErase k m) = none := by
  unfold mapFind mapErase
  simp only [Option.map_eq_none', List.find?_eq_none]
  intro e he
  have := (List.mem_filter.mp he).2
  simpa using this

theorem closeLoop_done (sessionId : Int) (env : Nat → SessionList → SessionList)
    (fuel i : Nat) (retval : Int) (sessions : SessionList) (h : retval ≠ 1) :
    closeLoop sessionId env fuel i retval sessions = some (retval, sessions) := by
  cases fuel <;> simp [closeLoop, h]

theorem closeLoop_result (sessionId : Int) (env : Nat → SessionList → SessionList) :
    ∀ (fuel i : Nat) (sessions : SessionList) (r : Int) (s' : SessionList),
      closeLoop sessionId env fuel i 1 sessions = some (r, s') →
        r = 0 ∧ mapFind sessionId s' = none
  | 0, i, sessions, r, s', h => by simp [closeLoop] at h
  | fuel + 1, i, sessions, r, s', h => by
    unfold closeLoop at h
    simp only [if_true] at h
    split at h
    · rename_i found hfound
      by_cases hrun : found.visitRunning = true
      · simp only [hrun, Bool.not_true, Bool.false_eq_true, if_false] at h
        exact closeLoop_result sessionId env fuel (i + 1) _ r s' h
      · simp only [hrun, Bool.not_false, if_true] at h
        rw [closeLoop_done _ _ _ _ _ _ (by decide)] at h
        cases h
        exact ⟨rfl, mapFind_mapErase_self _ _⟩
    · rename_i hnone
      rw [closeLoop_done _ _ _ _ _ _ (by decide)] at h
      cases h
      exact ⟨rfl, hnone⟩

theorem closeLoop_returns (sessionId : Int) (env : Nat → SessionList → SessionList) :
    ∀ (n fuel i : Nat) (sessions : SessionList), n < fuel →
      (∀ s, mapFind sessionId (polled env i sessions n) = some s → s.visitRunning = false) →
      (closeLoop sessionId env fuel i 1 sessions).isSome = true
  | n, 0, i, sessions, hlt, _ => absurd hlt (Nat.not_lt_zero n)
  | 0, fuel + 1, i, sessions, _, hstop => by
    unfold closeLoop
    simp only [if_true]
    simp only [polled] at hstop
    split
    · rename_i found hfound
      simp [hstop found hfound, closeLoop_done]
    · simp [closeLoop_done]
  | n + 1, fuel + 1, i, sessions, hlt, hstop => by
    unfold closeLoop
    simp only [if_true]
    simp only [polled] at hstop
    split
    · rename_i found hfound
      by_cases hrun : found.visitRunning = true
      · simp only [hrun, Bool.not_true, Bool.false_eq_true, if_false]
        exact closeLoop_returns sessionId env n fuel (i + 1) _ (Nat.lt_of_succ_lt_succ hlt) hstop
      · simp [hrun, closeLoop_done]
    · simp [closeLoop_done]

/-- C7: `closeSession(id)` returns -1 exactly when its first lookup finds no session
under the id, and then the session table is as before; otherwise, whenever it returns,
it returns 0 and no session is left under the id; it never returns 1.  It does return
once some poll finds the session gone or its visit no longer running. -/
theorem closeSession_status (d : Domain) (sessionId : Int) (runTime : Nat)
    (env : Nat → SessionList → SessionList) :
    (mapFind sessionId d.sessions = none →
      ∀ fuel, d.closeSession sessionId runTime env fuel = some (-1, d)) ∧
    (∀ fuel r d', d.closeSession sessionId runTime env fuel = some (r, d') →
      (r = -1 ↔ mapFind sessionId d.sessions = none) ∧ r ≠ 1 ∧
      (r = -1 → d'.sessions = d.sessions) ∧
      (r ≠ -1 → r = 0 ∧ mapFind sessionId d'.sessions = none)) ∧
    (∀ n fuel, n < fuel →
      (∀ s, mapFind sessionId (polled env 0 d.sessions n) = some s → s.visitRunning = false) →
      (d.closeSession sessionId runTime env fuel).isSome = true) := by
  have hnone : mapFind sessionId d.sessions = none →
      ∀ fuel, d.closeSession sessionId runTime env fuel = some (-1, d) := by
    intro h fuel
    unfold Domain.closeSession
    simp only [h]
    rw [closeLoop_done _ _ _ _ _ _ (by decide)]
    simp
  refine ⟨hnone, ?_, ?_⟩
  · intro fuel r d' h
    cases hf : mapFind sessionId d.sessions with
    | none =>
      rw [hnone hf fuel] at h
      cases h
      simp
    | some found =>
      unfold Domain.closeSession at h
      simp only [hf] at h
      split at h
      · exact absurd h (by simp)
      · rename_i rv ss hloop
        obtain ⟨hr, hgone⟩ := closeLoop_result sessionId env fuel 0 d.sessions rv ss hloop
        cases h
        subst hr
        simp [hgone]
  · intro n fuel hlt hstop
    unfold Domain.closeSession
    cases hf : mapFind sessionId d.sessions with
    | none =>
      simp only
      rw [closeLoop_done _ _ _ _ _ _ (by decide)]
      simp
    | some found =>
      simp only
      have := closeLoop_returns sessionId env n fuel 0 d.sessions hlt hstop
      obtain ⟨res, hres⟩ := Option.isSome_iff_exists.mp this
      rw [hres]
      simp

/-- C7, at concrete inputs: session 1 of `visitedDomain` is running and stops during the
second sleep, so `closeSession(1)` returns 0 with the session gone; no session 9 is
registered, so `closeSession(9)` returns -1 and changes nothing. -/
theorem closeSession_status_witness :
    (visitedDomain.closeSession 1 7
        (fun i ss => if i = 1 then ss.map (fun p => (p.1, { p.2 with visitRunning := false }))
          else ss) 5).map (fun res => (res.1, res.2.sessions)) = some (0, []) ∧
    visitedDomain.closeSession 9 7 (fun _ ss => ss) 0 = some (-1, visitedDomain) :=
  ⟨by decide, (closeSession_status visitedDomain 9 7 (fun _ ss => ss)).1 (by decide) 0⟩

theorem mapFind_mapUpdate_self {K V : Type} [LinearOrder K] (k : K) (f : V → V) :
    ∀ m : List (K × V), mapFind k (mapUpdate k f m) = (mapFind k m).map f
  | [] => by simp [mapFind, mapUpdate]
  | (k', v') :: rest => by
    have ih := mapFind_mapUpdate_self k f rest
    unfold mapFind mapUpdate at ih ⊢
    by_cases h : k' = k
    · simp [h]
    · simp only [List.map_cons, h, if_false, List.find?_cons, decide_False]
      exact ih

/-- C8: `startSession(id)` returns -1 and changes nothing (no task is handed to the
executor) when the id is not registered.  When it is registered, exactly one task, the
replay task of that session, is handed to the executor; if the executor takes it the
result is 0 and the session stays registered (with its start time set), if the executor
hands it back the session is removed and the result is -1. -/
theorem startSession_status (d : Domain) (sessionId : Int) (now : Nat) (accepted : Bool) :
    (mapFind sessionId d.sessions = none → d.startSession sessionId now accepted = (-1, d)) ∧
    (∀ s, mapFind sessionId d.sessions = some s →
      (d.startSession sessionId now accepted).2.executeLog
        = d.executeLog ++ [(Task.session sessionId, accepted)] ∧
      (accepted = true →
        (d.startSession sessionId now accepted).1 = 0 ∧
        mapFind sessionId (d.startSession sessionId now accepted).2.sessions
          = some { s with startTime := now } ∧
        keys (d.startSession sessionId now accepted).2.sessions = keys d.sessions) ∧
      (accepted = false →
        (d.startSession sessionId now accepted).1 = -1 ∧
        mapFind sessionId (d.startSession sessionId now accepted).2.sessions = none)) := by
  constructor
  · intro h
    simp [Domain.startSession, h]
  · intro s hs
    refine ⟨?_, ?_, ?_⟩
    · cases accepted <;> simp [Domain.startSession, hs]
    · intro ha
      subst ha
      refine ⟨by simp [Domain.startSession, hs], ?_, ?_⟩
      · simp only [Domain.startSession, hs, if_true]
        rw [mapFind_mapUpdate_self, hs]
        rfl
      · simp only [Domain.startSession, hs, if_true, keys, mapUpdate, List.map_map]
        apply List.map_congr_left
        intro e _
        by_cases h : e.1 = sessionId <;> simp [h]
    · intro ha
      subst ha
      refine ⟨by simp [Domain.startSession, hs], ?_⟩
      simp only [Domain.startSession, hs, Bool.false_eq_true, if_false]
      exact mapFind_mapErase_self _ _

/-- C8, at concrete inputs: on `visitedDomain`, whose session 1 is registered, an
accepted `startSession(1)` returns 0 and a rejected one returns -1 with the table empty;
`startSession(9)` returns -1. -/
theorem startSession_status_witness :
    visitedDomain.startSession 9 3 true = (-1, visitedDomain) ∧
    (visitedDomain.startSession 1 3 true).1 = 0 ∧
    (visitedDomain.startSession 1 3 false).1 = -1 ∧
    mapFind 1 (visitedDomain.startSession 1 3 false).2.sessions = none :=
  ⟨(startSession_status visitedDomain 9 3 true).1 (by decide),
   (((startSession_status visitedDomain 1 3 true).2 ⟨1, ⟨5, 30⟩, false, false, true, 0⟩ (by decide)).2.1 rfl).1,
   (((startSession_status visitedDomain 1 3 false).2 ⟨1, ⟨5, 30⟩, false, false, true, 0⟩ (by decide)).2.2 rfl).1,
   (((startSession_status visitedDomain 1 3 false).2 ⟨1, ⟨5, 30⟩, false, false, true, 0⟩ (by decide)).2.2 rfl).2⟩

/-! ## Lemmas on Domain::scanDir -/

theorem digitChar_props (d : Nat) (h : d < 10) :
    isdigit (Nat.digitChar d) = true ∧ (Nat.digitChar d).toNat - 48 = d ∧
    isspace (Nat.digitChar d) = false ∧ Nat.digitChar d ≠ '-' ∧ Nat.digitChar d ≠ '+' := by
  interval_cases d <;> decide

theorem length_padDigits : ∀ (w n : Nat), (padDigits w n).length = w
  | 0, _ => rfl
  | w + 1, n => by simp [padDigits, length_padDigits w (n / 10)]

theorem digitsValue_padDigits : ∀ (w n : Nat) (rest : List Char) (acc : Nat),
    digitsValue (padDigits w n ++ rest) acc = digitsValue rest (acc * 10 ^ w + n % 10 ^ w)
  | 0, n, rest, acc => by simp [padDigits, Nat.mod_one]
  | w + 1, n, rest, acc => by
    have hd := digitChar_props (n % 10) (Nat.mod_lt n (by decide))
    rw [padDigits, List.append_assoc, digitsValue_padDigits w (n / 10)]
    simp only [List.singleton_append, digitsValue, hd.1, if_true, hd.2.1]
    congr 1
    have h1 : n % 10 ^ (w + 1) = n % 10 + 10 * (n / 10 % 10 ^ w) := by
      rw [pow_succ, Nat.mul_comm (10 ^ w) 10, Nat.mod_mul]
    rw [h1, pow_succ]
    ring

theorem padDigits_head : ∀ (w n : Nat), 0 < w →
    ∃ d tl, d < 10 ∧ padDigits w n = Nat.digitChar d :: tl
  | 0, _, h => absurd h (Nat.lt_irrefl 0)
  | 1, n, _ => ⟨n % 10, [], Nat.mod_lt n (by decide), by simp [padDigits]⟩
  | w + 2, n, _ => by
    obtain ⟨d, tl, hd, htl⟩ := padDigits_head (w + 1) (n / 10) (Nat.succ_pos w)
    refine ⟨d, tl ++ [Nat.digitChar (n % 10)], hd, ?_⟩
    rw [padDigits, htl]
    rfl

theorem strtoull_padDigits (w n : Nat) (hw : 0 < w) (hn : n < 10 ^ w)
    (hmax : n ≤ maxSerialNum) : strtoull (padDigits w n) = n := by
  obtain ⟨d, tl, hd, htl⟩ := padDigits_head w n hw
  have hp := digitChar_props d hd
  have hval : digitsValue (padDigits w n) 0 = n := by
    have := digitsValue_padDigits w n [] 0
    simp only [List.append_nil, digitsValue, Nat.zero_mul, Nat.zero_add] at this
    rw [this, Nat.mod_eq_of_lt hn]
  unfold strtoull
  rw [htl, List.dropWhile_cons_of_neg (by simp [hp.2.2.1])]
  simp only [hp.2.2.2.1, hp.2.2.2.2, if_false]
  rw [← htl, hval]
  simp [Nat.not_lt.mpr hmax]

theorem lt_pow_decimalWidth (n : Nat) (h : n ≤ maxSerialNum) : n < 10 ^ decimalWidth n := by
  unfold decimalWidth
  unfold maxSerialNum at h
  split_ifs <;> omega

theorem decimalWidth_ge (n : Nat) : 16 ≤ decimalWidth n := by
  unfold decimalWidth
  split_ifs <;> omega

theorem strtoull_fmt016 (n : Nat) (h : n ≤ maxSerialNum) : strtoull (fmt016 n) = n :=
  strtoull_padDigits _ n (Nat.lt_of_lt_of_le (by decide) (decimalWidth_ge n))
    (lt_pow_decimalWidth n h) h

theorem strtoull_le (p : List Char) : strtoull p ≤ maxSerialNum := by
  unfold strtoull
  simp only
  split
  · exact Nat.zero_le _
  · unfold maxSerialNum
    split_ifs <;> first | contradiction | omega

theorem scanDirEntry_partFileName (name : List Char) (n : Nat) (h : n ≤ maxSerialNum) :
    scanDirEntry name (partFileName name n) = some n := by
  have hlen : 16 ≤ (fmt016 n).length := by
    unfold fmt016
    rw [length_padDigits]
    exact decimalWidth_ge n
  have h1 : ¬ partFileName name n = ['.'] := by
    intro hc
    have := congrArg List.length hc
    simp [partFileName] at this
    omega
  have h2 : ¬ partFileName name n = ['.', '.'] := by
    intro hc
    have := congrArg List.length hc
    simp [partFileName] at this
    omega
  have h3 : (partFileName name n).take name.length = name := by
    simp [partFileName]
  have h4 : (partFileName name n)[name.length]? = some '-' := by
    unfold partFileName
    rw [List.getElem?_append_right (Nat.le_refl _)]
    simp
  have h5 : (partFileName name n).drop (name.length + 1) = fmt016 n := by
    unfold partFileName
    rw [List.drop_append_eq_append_drop]
    simp
  unfold scanDirEntry
  simp only [h1, h2, h3, h4, h5, strtoull_fmt016 n h, decide_False, Bool.or_self,
    Bool.false_eq_true, if_false, ne_eq, not_true_eq_false]

theorem scanDirEntry_eq_some (name ename : List Char) (n : Nat) :
    scanDirEntry name ename = some n ↔ n ≤ maxSerialNum ∧ ename = partFileName name n := by
  constructor
  · intro h
    unfold scanDirEntry at h
    split_ifs at h
    simp only at h
    split_ifs at h with hcheck
    simp only [Option.some.injEq] at h
    subst h
    exact ⟨strtoull_le _, (not_not.mp hcheck).symm⟩
  · rintro ⟨hn, rfl⟩
    exact scanDirEntry_partFileName name n hn

theorem count_filterMap_scanDirEntry (name : List Char) (n : Nat) (h : n ≤ maxSerialNum) :
    ∀ entries : List (List Char),
      (entries.filterMap (scanDirEntry name)).count n = entries.count (partFileName name n)
  | [] => rfl
  | e :: rest => by
    have ih := count_filterMap_scanDirEntry name n h rest
    rw [List.filterMap_cons]
    by_cases he : e = partFileName name n
    · subst he
      rw [scanDirEntry_partFileName name n h]
      simp [ih]
    · have hne : scanDirEntry name e ≠ some n := fun hc =>
        he ((scanDirEntry_eq_some name e n).mp hc).2
      rw [List.count_cons_of_ne (fun hc => he hc.symm)]
      cases hs : scanDirEntry name e with
      | none => simpa using ih
      | some m =>
        have hmn : m ≠ n := fun hc => hne (hc ▸ hs)
        simp only
        rw [List.count_cons_of_ne (fun hc => hmn hc.symm)]
        exact ih

/-- C9: `Domain::scanDir` returns, in ascending order, exactly the 64-bit serials `n` for
which the directory has an entry named `name-` followed by `n` in decimal, zero-padded to
16 digits, each as often as the directory lists that name; such a name parses back to its
`n`, and an entry with any other name is skipped. -/
theorem scanDir_spec (name : List Char) (entries : List (List Char)) :
    (scanDir name entries).Sorted (· ≤ ·) ∧
    (∀ n, n ∈ scanDir name entries ↔ n ≤ maxSerialNum ∧ partFileName name n ∈ entries) ∧
    (∀ n, n ≤ maxSerialNum →
      (scanDir name entries).count n = entries.count (partFileName name n)) ∧
    (∀ n, n ≤ maxSerialNum →
      strtoull (fmt016 n) = n ∧ scanDirEntry name (partFileName name n) = some n) ∧
    (∀ ename, (∀ n, n ≤ maxSerialNum → ename ≠ partFileName name n) →
      scanDirEntry name ename = none) := by
  have hperm : (scanDir name entries).Perm (entries.filterMap (scanDirEntry name)) :=
    List.perm_insertionSort _ _
  refine ⟨List.sorted_insertionSort _ _, ?_, ?_, ?_, ?_⟩
  · intro n
    rw [hperm.mem_iff, List.mem_filterMap]
    constructor
    · rintro ⟨e, he, hs⟩
      obtain ⟨hn, rfl⟩ := (scanDirEntry_eq_some name e n).mp hs
      exact ⟨hn, he⟩
    · rintro ⟨hn, he⟩
      exact ⟨_, he, scanDirEntry_partFileName name n hn⟩
  · intro n hn
    rw [hperm.count_eq, count_filterMap_scanDirEntry name n hn]
  · intro n hn
    exact ⟨strtoull_fmt016 n hn, scanDirEntry_partFileName name n hn⟩
  · intro ename hother
    cases hs : scanDirEntry name ename with
    | none => rfl
    | some m =>
      obtain ⟨hm, he⟩ := (scanDirEntry_eq_some name ename m).mp hs
      exact absurd he (hother m hm)

/-- C9, at a concrete directory: of eleven entries only the three well-formed names
count, among them the one of the greatest 64-bit serial. -/
theorem scanDir_spec_witness :
    scanDir "dom".toList
      ["dom-0000000000000005".toList, ".".toList, "..".toList, "dom-0000000000000003".toList,
       "dom-5".toList, "dom-18446744073709551615".toList, "dom-18446744073709551616".toList,
       "dom- 000000000000005".toList, "dom-+000000000000005".toList,
       "dom-00000000000000050".toList, "do-0000000000000005".toList,
       "dom-0000000000000005x".toList, "dom0000000000000005".toList,
       "dom-000000000000000a".toList]
      = [3, 5, 18446744073709551615] ∧
    (3 ∈ scanDir "dom".toList ["dom-0000000000000003".toList] ↔
      3 ≤ maxSerialNum ∧ partFileName "dom".toList 3 ∈ ["dom-0000000000000003".toList]) :=
  ⟨by decide, (scanDir_spec "dom".toList ["dom-0000000000000003".toList]).2.1 3⟩

/-! ## Lemmas on cleanSessions and findOldestActiveVisit -/

theorem waitPendingSync_sessions (ops : PartOps) (d d1 : Domain)
    (h : d.waitPendingSync ops = some d1) : d1.sessions = d.sessions := by
  unfold Domain.waitPendingSync at h
  split_ifs at h
  · cases h; rfl
  · split at h
    · exact absurd h (by simp)
    · cases h
      unfold Domain.syncTaskDone
      split <;> rfl

theorem triggerSyncNow_sessions (d d2 : Domain) (h : d.triggerSyncNow = some d2) :
    d2.sessions = d.sessions := by
  unfold Domain.triggerSyncNow at h
  split_ifs at h
  · split at h
    · exact absurd h (by simp)
    · cases h; rfl
  · cases h; rfl

theorem optionallyRotateFile_sessions (ops : PartOps) (d d1 : Domain) (s k : SerialNum)
    (h : d.optionallyRotateFile ops s = some (k, d1)) : d1.sessions = d.sessions := by
  unfold Domain.optionallyRotateFile at h
  split at h
  · exact absurd h (by simp)
  · split_ifs at h
    · split at h
      · exact absurd h (by simp)
      · rename_i da h1
        split at h
        · exact absurd h (by simp)
        · rename_i db h2
          split at h
          · exact absurd h (by simp)
          · rename_i dc h3
            simp only at h
            split at h
            · exact absurd h (by simp)
            · split_ifs at h
              cases h
              simp only
              rw [waitPendingSync_sessions ops _ _ h3, triggerSyncNow_sessions _ _ h2,
                waitPendingSync_sessions ops _ _ h1]
    · cases h; rfl

theorem append_sessions (ops : PartOps) (d d' : Domain) (packet : Packet)
    (h : d.append ops packet = some d') : d'.sessions = cleanSessions d.sessions := by
  unfold Domain.append at h
  split at h
  · exact absurd h (by simp)
  · rename_i k d1 hrot
    split at h
    · exact absurd h (by simp)
    · split at h
      · exact absurd h (by simp)
      · cases h
        simp only
        rw [optionallyRotateFile_sessions ops d d1 _ k hrot]

theorem mem_cleanSessions (ss : SessionList) (e : Int × Session) :
    e ∈ cleanSessions ss ↔ e ∈ ss ∧ e.2.finished = false ∧ e.2.inSync = false := by
  unfold cleanSessions
  cases ss with
  | nil => simp
  | cons a rest =>
    simp only [List.isEmpty_cons, Bool.false_eq_true, if_false, List.mem_filter]
    constructor
    · rintro ⟨hm, hk⟩
      refine ⟨hm, ?_, ?_⟩
      · cases hf : e.2.finished <;> simp_all
      · cases hi : e.2.inSync <;> simp_all
    · rintro ⟨hm, hf, hi⟩
      exact ⟨hm, by simp [hf, hi]⟩

/-- C13: after `Domain::cleanSessions` the session table holds exactly the sessions
registered before that are neither `finished()` nor `inSync()`, in their order; `append`
ends with this table (so no finished session survives an append and none that is neither
finished nor in sync is removed by it), and `visit` registers its session in this table. -/
theorem cleanSessions_keeps_exactly_active (ss : SessionList) :
    (∀ e, e ∈ cleanSessions ss ↔ e ∈ ss ∧ e.2.finished = false ∧ e.2.inSync = false) ∧
    (cleanSessions ss).Sublist ss ∧
    cleanSessions ss
      = ss.filter (fun e => decide (e.2.finished = false ∧ e.2.inSync = false)) ∧
    (∀ (ops : PartOps) (d d' : Domain) (packet : Packet), d.sessions = ss →
      d.append ops packet = some d' → d'.sessions = cleanSessions ss) ∧
    (∀ (d d' : Domain) (from_ to_ : SerialNum) (id : Int), d.sessions = ss →
      d.visit true from_ to_ = some (id, d') →
      d'.sessions = mapInsert id (Session.create id ⟨from_, to_⟩) (cleanSessions ss)) := by
  refine ⟨mem_cleanSessions ss, ?_, ?_, ?_, ?_⟩
  · unfold cleanSessions
    split_ifs
    · exact List.Sublist.refl _
    · exact List.filter_sublist _
  · unfold cleanSessions
    cases ss with
    | nil => simp
    | cons a rest =>
      simp only [List.isEmpty_cons, Bool.false_eq_true, if_false]
      apply List.filter_congr
      intro e _
      cases e.2.finished <;> cases e.2.inSync <;> simp
  · intro ops d d' packet hs h
    rw [← hs]
    exact append_sessions ops d d' packet h
  · intro d d' f t id hs h
    unfold Domain.visit at h
    simp only [Bool.not_true, Bool.false_eq_true, if_false, Option.some.injEq,
      Prod.mk.injEq] at h
    obtain ⟨hid, hd⟩ := h
    subst hd
    subst hs
    simp only [Session.create] at hid ⊢
    rw [hid]

/-- C13, at a concrete table: of three sessions, one in sync and one finished, only the
third stays. -/
theorem cleanSessions_keeps_exactly_active_witness :
    cleanSessions
      [(1, ⟨1, ⟨5, 30⟩, true, false, false, 0⟩), (2, ⟨2, ⟨3, 30⟩, false, true, false, 0⟩),
       (3, ⟨3, ⟨9, 30⟩, false, false, true, 0⟩)]
      = [(3, ⟨3, ⟨9, 30⟩, false, false, true, 0⟩)] ∧
    (cleanSessions visitedDomain.sessions).Sublist visitedDomain.sessions :=
  ⟨by decide, (cleanSessions_keeps_exactly_active visitedDomain.sessions).2.1⟩

theorem foldl_oldest_le (ss : SessionList) : ∀ (acc : Nat),
    ss.foldl (fun oldestActive pair =>
      if !pair.2.inSync then min oldestActive pair.2.range.from_ else oldestActive) acc ≤ acc := by
  induction ss with
  | nil => intro acc; exact Nat.le_refl _
  | cons a rest ih =>
    intro acc
    simp only [List.foldl_cons]
    refine Nat.le_trans (ih _) ?_
    split_ifs
    · exact Nat.min_le_left _ _
    · exact Nat.le_refl _

theorem foldl_oldest_le_active (ss : SessionList) : ∀ (acc : Nat) (e : Int × Session),
    e ∈ ss → e.2.inSync = false →
    ss.foldl (fun oldestActive pair =>
      if !pair.2.inSync then min oldestActive pair.2.range.from_ else oldestActive) acc
      ≤ e.2.range.from_ := by
  induction ss with
  | nil => intro acc e he; simp at he
  | cons a rest ih =>
    intro acc e he hact
    simp only [List.foldl_cons]
    rcases List.mem_cons.mp he with rfl | hin
    · refine Nat.le_trans (foldl_oldest_le rest _) ?_
      simp only [hact, Bool.not_false, if_true]
      exact Nat.min_le_right _ _
    · exact ih _ e hin hact

theorem foldl_oldest_attained (ss : SessionList) : ∀ (acc : Nat),
    ss.foldl (fun oldestActive pair =>
      if !pair.2.inSync then min oldestActive pair.2.range.from_ else oldestActive) acc = acc ∨
    ∃ e ∈ ss, e.2.inSync = false ∧
      ss.foldl (fun oldestActive pair =>
        if !pair.2.inSync then min oldestActive pair.2.range.from_ else oldestActive) acc
        = e.2.range.from_ := by
  induction ss with
  | nil => intro acc; exact Or.inl rfl
  | cons a rest ih =>
    intro acc
    simp only [List.foldl_cons]
    cases hact : a.2.inSync with
    | true =>
      simp only [Bool.not_true, Bool.false_eq_true, if_false]
      rcases ih acc with h | ⟨e, he, h1, h2⟩
      · exact Or.inl h
      · exact Or.inr ⟨e, List.mem_cons_of_mem _ he, h1, h2⟩
    | false =>
      simp only [Bool.not_false, if_true]
      rcases ih (min acc a.2.range.from_) with h | ⟨e, he, h1, h2⟩
      · rcases Nat.le_total acc a.2.range.from_ with hle | hle
        · left
          rw [h, Nat.min_eq_left hle]
        · right
          exact ⟨a, List.mem_cons_self _ _, hact, by rw [h, Nat.min_eq_right hle]⟩
      · exact Or.inr ⟨e, List.mem_cons_of_mem _ he, h1, h2⟩

/-- C14: `Domain::findOldestActiveVisit` is at most the `range().from()` of every
registered session that is not in sync (a safe floor) and never above the maximum 64-bit
serial; it is the maximum 64-bit serial when no registered session is out of sync, the
empty table included; and when some session is out of sync (serials being 64-bit values)
it is the `range().from()` of one of them, hence their minimum. -/
theorem findOldestActiveVisit_is_min (ss : SessionList) :
    (∀ e ∈ ss, e.2.inSync = false → findOldestActiveVisit ss ≤ e.2.range.from_) ∧
    findOldestActiveVisit ss ≤ maxSerialNum ∧
    ((∀ e ∈ ss, e.2.inSync = true) → findOldestActiveVisit ss = maxSerialNum) ∧
    findOldestActiveVisit [] = maxSerialNum ∧
    ((∃ e ∈ ss, e.2.inSync = false) → (∀ e ∈ ss, e.2.range.from_ ≤ maxSerialNum) →
      ∃ e ∈ ss, e.2.inSync = false ∧ findOldestActiveVisit ss = e.2.range.from_) := by
  refine ⟨fun e he hact => foldl_oldest_le_active ss _ e he hact, foldl_oldest_le ss _, ?_,
    rfl, ?_⟩
  · intro hall
    rcases foldl_oldest_attained ss maxSerialNum with h | ⟨e, he, h1, -⟩
    · exact h
    · rw [hall e he] at h1
      exact absurd h1 (by simp)
  · rintro ⟨a, ha, hact⟩ hbound
    rcases foldl_oldest_attained ss maxSerialNum with h | ⟨e, he, h1, h2⟩
    · refine ⟨a, ha, hact, ?_⟩
      have h3 : findOldestActiveVisit ss ≤ a.2.range.from_ :=
        foldl_oldest_le_active ss _ a ha hact
      have h4 : findOldestActiveVisit ss = maxSerialNum := h
      exact Nat.le_antisymm h3 (h4 ▸ hbound a ha)
    · exact ⟨e, he, h1, h2⟩

/-- C14, at a concrete table: sessions from 5 (active), 3 (in sync) and 9 (active) give 5. -/
theorem findOldestActiveVisit_is_min_witness :
    findOldestActiveVisit
      [(1, ⟨1, ⟨5, 30⟩, false, false, true, 0⟩), (2, ⟨2, ⟨3, 30⟩, true, false, true, 0⟩),
       (3, ⟨3, ⟨9, 30⟩, false, true, true, 0⟩)] = 5 ∧
    ∃ e ∈ visitedDomain.sessions, e.2.inSync = false ∧
      findOldestActiveVisit visitedDomain.sessions = e.2.range.from_ :=
  ⟨by decide, (findOldestActiveVisit_is_min visitedDomain.sessions).2.2.2.2 (by decide)
    (by decide)⟩

/-! ## Domain::getSynced -/

/-- C18: `Domain::getSynced` returns 0 on an empty map; the synced serial of the newest
segment when that is not 0; and when that is 0 and an older segment exists, the synced
serial of the second-newest segment, whatever the segments before it hold; with a single
segment it returns the synced serial of that segment. -/
theorem getSynced_looks_back_once :
    getSynced [] = 0 ∧
    (∀ (init : DomainPartList) (newest : SerialNum × DomainPart),
      newest.2.getSynced ≠ 0 → getSynced (init ++ [newest]) = newest.2.getSynced) ∧
    (∀ (init : DomainPartList) (older newest : SerialNum × DomainPart),
      newest.2.getSynced = 0 → getSynced (init ++ [older, newest]) = older.2.getSynced) ∧
    (∀ newest : SerialNum × DomainPart, getSynced [newest] = newest.2.getSynced) := by
  refine ⟨rfl, ?_, ?_, ?_⟩
  · intro init newest hne
    unfold getSynced
    have hlen : (init ++ [newest]).length - 1 = init.length := by simp
    simp only [hlen]
    rw [List.getElem?_append_right (Nat.le_refl _)]
    simp [hne]
  · intro init older newest hz
    unfold getSynced
    have hlen : (init ++ [older, newest]).length - 1 = init.length + 1 := by simp
    have h1 : (init ++ [older, newest])[init.length + 1]? = some newest := by
      rw [List.getElem?_append_right (Nat.le_succ _)]
      simp
    have h2 : (init ++ [older, newest])[init.length + 1 - 1]? = some older := by
      rw [Nat.add_sub_cancel, List.getElem?_append_right (Nat.le_refl _)]
      simp
    simp only [hlen, h1, h2, hz]
    simp
  · intro newest
    unfold getSynced
    by_cases hz : newest.2.getSynced = 0 <;> simp [hz]

/-- C18, at concrete maps: the newest segment synced up to 30 gives 30; a newest segment
not synced yet gives the 10 of the segment before it, and a second-newest segment at 0
gives 0 although an older one holds 7. -/
theorem getSynced_looks_back_once_witness :
    getSynced threeParts = 30 ∧
    getSynced [(1, samplePart 1 10 40 true), (11, ⟨⟨11, 10⟩, 0, 0, 0, false⟩)] = 10 ∧
    getSynced [(1, ⟨⟨1, 4⟩, 4, 9, 7, true⟩), (5, ⟨⟨5, 10⟩, 5, 9, 0, true⟩),
      (11, ⟨⟨11, 10⟩, 0, 0, 0, false⟩)] = 0 :=
  ⟨by decide, by decide,
   getSynced_looks_back_once.2.2.1 [(1, ⟨⟨1, 4⟩, 4, 9, 7, true⟩)] (5, ⟨⟨5, 10⟩, 5, 9, 0, true⟩)
     (11, ⟨⟨11, 10⟩, 0, 0, 0, false⟩) rfl⟩

/-! ## The erase calls of Domain::erase -/

/-- C16 fails on the code: with a `DomainPart::erase` that reports failure, pruning three
segments with `to = 100` unlinks the segments under keys 1 and 11, but `DomainPart::erase`
is called on the first only, because `retval && dp->erase(to)` no longer evaluates its
right operand once `retval` is false. -/
theorem erase_skips_segments_after_failure :
    keys (eraseLoop refusingOps 100 threeParts true [] []).removed = [1, 11] ∧
    (eraseLoop refusingOps 100 threeParts true [] []).invoked = [1] ∧
    (eraseLoop refusingOps 100 threeParts true [] []).retval = false ∧
    (Domain.erase refusingOps (sampleDomain 100 threeParts []) 100).map
      (fun res => (res.1, keys res.2.parts)) = some (false, [21]) ∧
    (eraseLoop sampleOps 100 threeParts true [] []).invoked = [1, 11] := by
  decide

/-! ## SkipInfo comparisons -/

theorem toInt64_of_small (x : Int) (h0 : -9223372036854775808 ≤ x)
    (h1 : x < 9223372036854775808) : toInt64 x = x := by
  unfold toInt64
  omega

/-- The comparison of two skip-list entries is right whenever their serials are less than
2^63 apart. -/
theorem int_sub_sign (x y : Nat) :
    ((x : Int) - y < 0 ↔ x < y) ∧ ((x : Int) - y > 0 ↔ x > y) ∧
    ((x : Int) - y = 0 ↔ x = y) := by
  omega

theorem toInt64_sub_of_near (x y : Nat)
    (hnear : (x : Int) - y < 2 ^ 63 ∧ (y : Int) - x < 2 ^ 63) :
    toInt64 (((x : Int) - (y : Int)) % 2 ^ 64) = (x : Int) - y := by
  unfold toInt64
  omega

theorem skipInfo_cmp_of_near (a b : SkipInfo)
    (hnear : (a.id : Int) - b.id < 2 ^ 63 ∧ (b.id : Int) - a.id < 2 ^ 63) :
    (a.lt b = true ↔ a.id < b.id) ∧ (a.gt b = true ↔ a.id > b.id) ∧
    (a.eq b = true ↔ a.id = b.id) := by
  have hc : a.cmp b = ((a.id : Nat) : Int) - ((b.id : Nat) : Int) :=
    toInt64_sub_of_near a.id b.id hnear
  simp only [SkipInfo.lt, SkipInfo.gt, SkipInfo.eq, hc, decide_eq_true_eq]
  exact int_sub_sign a.id b.id

/-- C19 fails on the code: for the serials 2^63 + 1 and 1 the difference is 2^63, which as
`int64_t` is negative, so `operator <` holds in both directions and `operator >` in
neither, while 2^63 + 1 is the greater serial; `operator ==` is right. -/
theorem skipInfo_lt_wrong_when_far_apart :
    SkipInfo.cmp ⟨9223372036854775809, 0⟩ ⟨1, 0⟩ = -9223372036854775808 ∧
    SkipInfo.lt ⟨9223372036854775809, 0⟩ ⟨1, 0⟩ = true ∧
    SkipInfo.lt ⟨1, 0⟩ ⟨9223372036854775809, 0⟩ = true ∧
    SkipInfo.gt ⟨9223372036854775809, 0⟩ ⟨1, 0⟩ = false ∧
    SkipInfo.eq ⟨9223372036854775809, 0⟩ ⟨1, 0⟩ = false ∧
    ¬ ((9223372036854775809 : Nat) < 1) := by
  decide

/-! ## The full case analysis of Domain::findPart -/

theorem upperBound_le_length (s : SerialNum) (parts : DomainPartList) :
    upperBound s parts ≤ parts.length := List.findIdx_le_length _

theorem key_le_iff_lt_upperBound (parts : DomainPartList) (hasc : KeysAscending parts)
    (s : SerialNum) (j : Nat) (hj : j < parts.length) :
    (parts[j]).1 ≤ s ↔ j < upperBound s parts := by
  constructor
  · intro hle
    by_contra hcon
    have hge : upperBound s parts ≤ j := Nat.not_lt.mp hcon
    have hub : upperBound s parts < parts.length := Nat.lt_of_le_of_lt hge hj
    have h1 : s < (parts[upperBound s parts]).1 := upperBound_at s parts hub
    rcases Nat.eq_or_lt_of_le hge with heq | hlt
    · have h2 : s < (parts[j]).1 := by
        have := h1
        simp only [heq] at this
        exact this
      exact absurd hle (Nat.not_le.mpr h2)
    · have h2 := keysAscending_getElem parts hasc _ j hlt hj
      exact absurd hle (Nat.not_le.mpr (Nat.lt_trans h1 h2))
  · intro hlt
    exact upperBound_before s parts j hlt hj

theorem entry_unique_of_key (parts : DomainPartList) (hasc : KeysAscending parts)
    (e e' : SerialNum × DomainPart) (he : e ∈ parts) (he' : e' ∈ parts) (hk : e.1 = e'.1) :
    e = e' := by
  obtain ⟨i, hi, hie⟩ := List.getElem_of_mem he
  obtain ⟨j, hj, hje⟩ := List.getElem_of_mem he'
  rcases Nat.lt_trichotomy i j with hlt | heq | hgt
  · have h := keysAscending_getElem parts hasc i j hlt hj
    rw [hie, hje, hk] at h
    exact absurd h (Nat.lt_irrefl _)
  · subst heq
    rw [← hie, ← hje]
  · have h := keysAscending_getElem parts hasc j i hgt hi
    rw [hie, hje, hk] at h
    exact absurd h (Nat.lt_irrefl _)

/-- The segment just before the upper bound has the greatest starting serial `<= s`. -/
theorem prev_is_greatest (parts : DomainPartList) (hasc : KeysAscending parts)
    (s : SerialNum) (prev : SerialNum × DomainPart) (hpos : 0 < upperBound s parts)
    (hprev : parts[upperBound s parts - 1]? = some prev) :
    prev ∈ parts ∧ prev.1 ≤ s ∧ ∀ e ∈ parts, e.1 ≤ s → e.1 ≤ prev.1 := by
  obtain ⟨hlt, hget⟩ := List.getElem?_eq_some.mp hprev
  refine ⟨hget ▸ List.getElem_mem _, ?_, ?_⟩
  · have := upperBound_before s parts (upperBound s parts - 1) (by omega) hlt
    rw [hget] at this
    exact this
  · intro e he hes
    obtain ⟨j, hj, hje⟩ := List.getElem_of_mem he
    have hjlt : j < upperBound s parts :=
      (key_le_iff_lt_upperBound parts hasc s j hj).mp (by rw [hje]; exact hes)
    rcases Nat.eq_or_lt_of_le (Nat.le_sub_one_of_lt hjlt) with heq | hlt2
    · subst heq
      rw [hje] at hget
      rw [hget]
    · have h2 := keysAscending_getElem parts hasc j _ hlt2 hlt
      rw [hje, hget] at h2
      exact Nat.le_of_lt h2

/-- The segment at the upper bound has the smallest starting serial `> s`. -/
theorem next_is_smallest (parts : DomainPartList) (hasc : KeysAscending parts)
    (s : SerialNum) (nx : SerialNum × DomainPart)
    (hnx : parts[upperBound s parts]? = some nx) :
    nx ∈ parts ∧ s < nx.1 ∧ ∀ e ∈ parts, s < e.1 → nx.1 ≤ e.1 := by
  obtain ⟨hlt, hget⟩ := List.getElem?_eq_some.mp hnx
  have hk := upperBound_at s parts hlt
  rw [hget] at hk
  refine ⟨hget ▸ List.getElem_mem _, hk, ?_⟩
  intro e he hes
  obtain ⟨j, hj, hje⟩ := List.getElem_of_mem he
  have hjge : upperBound s parts ≤ j := by
    by_contra hcon
    have h1 := (key_le_iff_lt_upperBound parts hasc s j hj).mpr (Nat.not_le.mp hcon)
    rw [hje] at h1
    exact absurd hes (Nat.not_lt.mpr h1)
  rcases Nat.eq_or_lt_of_le hjge with heq | hlt2
  · subst heq
    rw [hje] at hget
    rw [hget]
  · have h2 := keysAscending_getElem parts hasc _ j hlt2 hj
    rw [hje, hget] at h2
    exact Nat.le_of_lt h2

/-- `findPart` evaluated: with no segment before the upper bound it returns the segment at
the upper bound (if any); otherwise it returns the segment `prev` before the upper bound
when that ends above `s`, and else the segment at the upper bound (if any). -/
theorem findPart_eval (parts : DomainPartList) (s : SerialNum) :
    (upperBound s parts = 0 → findPart parts s = parts[upperBound s parts]?) ∧
    (0 < upperBound s parts → ∃ prev, parts[upperBound s parts - 1]? = some prev ∧
      findPart parts s
        = if s < prev.2.range.to_ then some prev else parts[upperBound s parts]?) := by
  constructor
  · intro h0
    unfold findPart
    simp [h0]
  · intro hpos
    have hle := upperBound_le_length s parts
    have hlt : upperBound s parts - 1 < parts.length := by omega
    have hne : parts ≠ [] := by
      intro hnil
      rw [hnil] at hlt
      simp at hlt
    refine ⟨parts[upperBound s parts - 1], List.getElem?_eq_getElem hlt, ?_⟩
    unfold findPart
    have hcond : (!parts.isEmpty && upperBound s parts != 0) = true := by
      cases parts with
      | nil => exact absurd rfl hne
      | cons a rest =>
        simp only [List.isEmpty_cons, Bool.not_false, Bool.true_and, bne_iff_ne, ne_eq]
        omega
    simp only [hcond, if_true, List.getElem?_eq_getElem hlt, gt_iff_lt]

/-- C17: on a map with ascending keys `Domain::findPart(s)` returns the segment with the
greatest starting serial `<= s` when there is one and its `range().to()` is strictly
greater than `s`; otherwise the segment with the smallest starting serial `> s` when
there is one; otherwise no segment.  It returns no segment exactly when no starting
serial exceeds `s` and the segment with the greatest starting serial `<= s`, if any, has
`range().to() <= s`. -/
theorem findPart_cases (parts : DomainPartList) (s : SerialNum) (hasc : KeysAscending parts) :
    (∀ b ∈ parts, b.1 ≤ s → (∀ e ∈ parts, e.1 ≤ s → e.1 ≤ b.1) → s < b.2.range.to_ →
      findPart parts s = some b) ∧
    (∀ n ∈ parts, s < n.1 → (∀ e ∈ parts, s < e.1 → n.1 ≤ e.1) →
      (∀ b ∈ parts, b.1 ≤ s → (∀ e ∈ parts, e.1 ≤ s → e.1 ≤ b.1) → b.2.range.to_ ≤ s) →
      findPart parts s = some n) ∧
    (findPart parts s = none ↔
      (∀ e ∈ parts, e.1 ≤ s) ∧
      (∀ b ∈ parts, b.1 ≤ s → (∀ e ∈ parts, e.1 ≤ s → e.1 ≤ b.1) → b.2.range.to_ ≤ s)) := by
  have heval := findPart_eval parts s
  -- a segment starting at or before `s` lies before the upper bound
  have hbefore : ∀ b ∈ parts, b.1 ≤ s → 0 < upperBound s parts := by
    intro b hb hbs
    obtain ⟨j, hj, hjb⟩ := List.getElem_of_mem hb
    have := (key_le_iff_lt_upperBound parts hasc s j hj).mp (by rw [hjb]; exact hbs)
    omega
  -- the greatest segment starting at or before `s` is the one before the upper bound
  have hgreatest : ∀ b ∈ parts, b.1 ≤ s → (∀ e ∈ parts, e.1 ≤ s → e.1 ≤ b.1) →
      ∀ prev, parts[upperBound s parts - 1]? = some prev → 0 < upperBound s parts →
      prev = b := by
    intro b hb hbs hmax prev hprev hpos
    obtain ⟨hpm, hps, hpmax⟩ := prev_is_greatest parts hasc s prev hpos hprev
    exact entry_unique_of_key parts hasc prev b hpm hb
      (Nat.le_antisymm (hmax prev hpm hps) (hpmax b hb hbs))
  -- a segment starting after `s` lies at or after the upper bound
  have hafter : ∀ n ∈ parts, s < n.1 → ∃ nx, parts[upperBound s parts]? = some nx := by
    intro n hn hns
    obtain ⟨j, hj, hjn⟩ := List.getElem_of_mem hn
    have hge : upperBound s parts ≤ j := by
      by_contra hcon
      have h1 := (key_le_iff_lt_upperBound parts hasc s j hj).mpr (Nat.not_le.mp hcon)
      rw [hjn] at h1
      exact absurd hns (Nat.not_lt.mpr h1)
    exact ⟨_, List.getElem?_eq_getElem (Nat.lt_of_le_of_lt hge hj)⟩
  refine ⟨?_, ?_, ?_⟩
  · intro b hb hbs hmax hto
    have hpos := hbefore b hb hbs
    obtain ⟨prev, hprev, hfind⟩ := heval.2 hpos
    have hpb := hgreatest b hb hbs hmax prev hprev hpos
    subst hpb
    rw [hfind, if_pos hto]
  · intro n hn hns hmin hprevto
    obtain ⟨nx, hnx⟩ := hafter n hn hns
    obtain ⟨hxm, hxs, hxmin⟩ := next_is_smallest parts hasc s nx hnx
    have hnn : nx = n := entry_unique_of_key parts hasc nx n hxm hn
      (Nat.le_antisymm (hxmin n hn hns) (hmin nx hxm hxs))
    subst hnn
    rcases Nat.eq_zero_or_pos (upperBound s parts) with h0 | hpos
    · rw [heval.1 h0, hnx]
    · obtain ⟨prev, hprev, hfind⟩ := heval.2 hpos
      obtain ⟨hpm, hps, hpmax⟩ := prev_is_greatest parts hasc s prev hpos hprev
      have hle := hprevto prev hpm hps hpmax
      rw [hfind, if_neg (Nat.not_lt.mpr hle), hnx]
  · constructor
    · intro hnone
      have hall : ∀ e ∈ parts, e.1 ≤ s := by
        intro e he
        by_contra hcon
        obtain ⟨nx, hnx⟩ := hafter e he (Nat.not_le.mp hcon)
        rcases Nat.eq_zero_or_pos (upperBound s parts) with h0 | hpos
        · rw [heval.1 h0, hnx] at hnone
          exact absurd hnone (by simp)
        · obtain ⟨prev, hprev, hfind⟩ := heval.2 hpos
          rw [hfind, hnx] at hnone
          split_ifs at hnone
      refine ⟨hall, ?_⟩
      intro b hb hbs hmax
      have hpos := hbefore b hb hbs
      obtain ⟨prev, hprev, hfind⟩ := heval.2 hpos
      have hpb := hgreatest b hb hbs hmax prev hprev hpos
      subst hpb
      by_contra hcon
      rw [hfind, if_pos (Nat.not_le.mp hcon)] at hnone
      exact absurd hnone (by simp)
    · rintro ⟨hall, hprevto⟩
      have hend : parts[upperBound s parts]? = none := by
        cases hx : parts[upperBound s parts]? with
        | none => rfl
        | some nx =>
          obtain ⟨hxm, hxs, -⟩ := next_is_smallest parts hasc s nx hx
          exact absurd (hall nx hxm) (Nat.not_le.mpr hxs)
      rcases Nat.eq_zero_or_pos (upperBound s parts) with h0 | hpos
      · rw [heval.1 h0, hend]
      · obtain ⟨prev, hprev, hfind⟩ := heval.2 hpos
        obtain ⟨hpm, hps, hpmax⟩ := prev_is_greatest parts hasc s prev hpos hprev
        have hle := hprevto prev hpm hps hpmax
        rw [hfind, if_neg (Nat.not_lt.mpr hle), hend]

/-- C17, at a concrete map with segments `[1,10]`, `[11,20]`, `[21,30]`: `findPart(5)` is
the first segment, `findPart(10)` the second (the first does not end above 10), and
`findPart(30)` is empty. -/
theorem findPart_cases_witness :
    findPart threeParts 5 = some (1, samplePart 1 10 40 true) ∧
    findPart threeParts 10 = some (11, samplePart 11 20 40 true) ∧
    findPart threeParts 30 = none :=
  ⟨(findPart_cases threeParts 5 (by decide)).1 (1, samplePart 1 10 40 true) (by decide)
      (by decide) (by decide) (by decide),
   (findPart_cases threeParts 10 (by decide)).2.1 (11, samplePart 11 20 40 true) (by decide)
      (by decide) (by decide) (by decide),
   (findPart_cases threeParts 30 (by decide)).2.2.mpr ⟨by decide, by decide⟩⟩

/-! ## The sync state -/

theorem syncInv_triggerSyncNow (d d' : Domain) (hinv : SyncInv d)
    (h : d.triggerSyncNow = some d') : SyncInv d' := by
  unfold Domain.triggerSyncNow at h
  cases hp : d.pendingSync with
  | true =>
    simp only [hp, Bool.not_true, Bool.false_eq_true, if_false, Option.some.injEq] at h
    subst h
    exact hinv
  | false =>
    simp only [hp, Bool.not_false, if_true] at h
    split at h
    · exact absurd h (by simp)
    · cases h
      have hnil : d.syncTasks = [] := by
        by_contra hne
        have := hinv.2.mpr hne
        rw [hp] at this
        exact absurd this (by simp)
      unfold SyncInv
      simp [hnil]

theorem syncInv_syncTaskDone (ops : PartOps) (d : Domain) (hinv : SyncInv d) :
    SyncInv (d.syncTaskDone ops) ∧
    (d.syncTasks ≠ [] → (d.syncTaskDone ops).pendingSync = false) := by
  unfold Domain.syncTaskDone
  cases ht : d.syncTasks with
  | nil => exact ⟨hinv, fun h => absurd rfl h⟩
  | cons t rest =>
    have hlen := hinv.1
    rw [ht] at hlen
    have hrest : rest = [] := by
      cases rest with
      | nil => rfl
      | cons a r => simp at hlen
    subst hrest
    simp [SyncInv]

theorem syncInv_waitPendingSync (ops : PartOps) (d d1 : Domain) (hinv : SyncInv d)
    (h : d.waitPendingSync ops = some d1) : SyncInv d1 ∧ d1.pendingSync = false := by
  unfold Domain.waitPendingSync at h
  cases hp : d.pendingSync with
  | false =>
    simp only [hp, Bool.not_false, if_true, Option.some.injEq] at h
    subst h
    exact ⟨hinv, hp⟩
  | true =>
    simp only [hp, Bool.not_true, Bool.false_eq_true, if_false] at h
    split at h
    · exact absurd h (by simp)
    · rename_i t rest ht
      cases h
      have hd := syncInv_syncTaskDone ops d hinv
      exact ⟨hd.1, hd.2 (by rw [ht]; simp)⟩

theorem syncInv_optionallyRotateFile (ops : PartOps) (d d1 : Domain) (s k : SerialNum)
    (hinv : SyncInv d) (h : d.optionallyRotateFile ops s = some (k, d1)) : SyncInv d1 := by
  unfold Domain.optionallyRotateFile at h
  split at h
  · exact absurd h (by simp)
  · split_ifs at h
    · split at h
      · exact absurd h (by simp)
      · rename_i da h1
        split at h
        · exact absurd h (by simp)
        · rename_i db h2
          split at h
          · exact absurd h (by simp)
          · rename_i dc h3
            simp only at h
            split at h
            · exact absurd h (by simp)
            · split_ifs at h
              cases h
              have i1 := (syncInv_waitPendingSync ops _ _ hinv h1).1
              have i2 := syncInv_triggerSyncNow _ _ i1 h2
              have i3 := (syncInv_waitPendingSync ops _ _ i2 h3).1
              exact i3
    · cases h
      exact hinv

theorem syncInv_append (ops : PartOps) (d d' : Domain) (packet : Packet) (hinv : SyncInv d)
    (h : d.append ops packet = some d') : SyncInv d' := by
  unfold Domain.append at h
  split at h
  · exact absurd h (by simp)
  · rename_i k d1 hrot
    split at h
    · exact absurd h (by simp)
    · split at h
      · exact absurd h (by simp)
      · cases h
        exact syncInv_optionallyRotateFile ops d d1 _ k hinv hrot

theorem syncInv_initFrom (ops : PartOps) (cfg : DomainConfig) (a b : Int)
    (ids : List SerialNum) (d : Domain) (h : Domain.initFrom ops cfg a b ids = some d) :
    SyncInv d := by
  unfold Domain.initFrom at h
  split_ifs at h
  simp only at h
  split at h
  · exact absurd h (by simp)
  · split at h
    · split at h
      · exact absurd h (by simp)
      · cases h; simp [SyncInv]
    · cases h; simp [SyncInv]

theorem syncInv_reached (ops : PartOps) (d : Domain) (k : Nat) (h : Reached ops d k) :
    SyncInv d := by
  induction h with
  | init h0 => exact syncInv_initFrom _ _ _ _ _ _ h0
  | visit f t _ hv ih =>
    unfold Domain.visit at hv
    simp only [Bool.not_true, Bool.false_eq_true, if_false, Option.some.injEq,
      Prod.mk.injEq] at hv
    obtain ⟨-, hd⟩ := hv
    subst hd
    exact ih
  | append p _ ha ih => exact syncInv_append ops _ _ p ih ha
  | erase t _ he ih =>
    unfold Domain.erase at he
    simp only [Option.map_eq_some'] at he
    obtain ⟨parts, -, hp⟩ := he
    cases hp
    exact ih
  | startSession i n a _ ih =>
    unfold Domain.startSession
    split
    · exact ih
    · split_ifs <;> exact ih
  | closeSession i rt env fuel _ hc ih =>
    unfold Domain.closeSession at hc
    simp only at hc
    split at hc
    · exact absurd hc (by simp)
    · cases hc
      exact ih
  | triggerSyncNow _ ht ih => exact syncInv_triggerSyncNow _ _ ih ht
  | syncTaskDone _ ih => exact (syncInv_syncTaskDone ops _ ih).1
  | sessionProgress _ _ _ _ ih => exact ih
  | setConfig _ _ ih => exact ih

/-- C11: in every state reached from construction by `triggerSyncNow`, by the completion
of a sync task and by any other operation of the Domain, at most one sync task is in
flight, and the pending flag is set exactly while one is.  A `triggerSyncNow` issued
while a sync is pending schedules nothing and leaves the state as it is, so a second call
right after a first one has no further effect. -/
theorem at_most_one_sync_in_flight (ops : PartOps) :
    (∀ d k, Reached ops d k →
      d.syncTasks.length ≤ 1 ∧ (d.pendingSync = true ↔ d.syncTasks ≠ []) ∧ SyncInv d) ∧
    (∀ d : Domain, d.pendingSync = true → d.triggerSyncNow = some d) ∧
    (∀ d d1 : Domain, d.triggerSyncNow = some d1 →
      d1.pendingSync = true ∧ d1.triggerSyncNow = some d1) := by
  refine ⟨fun d k h => ⟨(syncInv_reached ops d k h).1, (syncInv_reached ops d k h).2,
    syncInv_reached ops d k h⟩, ?_, ?_⟩
  · intro d hp
    simp [Domain.triggerSyncNow, hp]
  · intro d d1 h
    have hp : d1.pendingSync = true := by
      unfold Domain.triggerSyncNow at h
      cases hpd : d.pendingSync with
      | true =>
        simp only [hpd, Bool.not_true, Bool.false_eq_true, if_false, Option.some.injEq] at h
        subst h
        exact hpd
      | false =>
        simp only [hpd, Bool.not_false, if_true] at h
        split at h
        · exact absurd h (by simp)
        · cases h; rfl
    exact ⟨hp, by simp [Domain.triggerSyncNow, hp]⟩

/-- C11, on a freshly constructed Domain: the first `triggerSyncNow` schedules the sync of
the segment under key 0, the second changes nothing, and after the task has completed
nothing is pending. -/
theorem at_most_one_sync_in_flight_witness :
    (freshDomain.triggerSyncNow).map (fun d => (d.pendingSync, d.syncTasks))
      = some (true, [0]) ∧
    ((freshDomain.triggerSyncNow).bind Domain.triggerSyncNow).map
      (fun d => (d.pendingSync, d.syncTasks)) = some (true, [0]) ∧
    ((freshDomain.triggerSyncNow).map (Domain.syncTaskDone sampleOps)).map
      (fun d => (d.pendingSync, d.syncTasks)) = some (false, []) ∧
    (freshDomain.syncTasks.length ≤ 1 ∧
      (freshDomain.pendingSync = true ↔ freshDomain.syncTasks ≠ []) ∧ SyncInv freshDomain) :=
  ⟨by decide, by decide, by decide,
   (at_most_one_sync_in_flight sampleOps).1 freshDomain 0
     (@Reached.init sampleOps ⟨100⟩ [] freshDomain (by decide))⟩

/-! ## More on ordered maps -/

theorem mem_mapInsert {V : Type} (k : SerialNum) (v : V) :
    ∀ (m : List (SerialNum × V)) (e : SerialNum × V),
      e ∈ mapInsert k v m → e = (k, v) ∨ e ∈ m
  | [], e, h => by
    simp only [mapInsert, List.mem_singleton] at h
    exact Or.inl h
  | (k', v') :: rest, e, h => by
    unfold mapInsert at h
    by_cases h1 : k < k'
    · simp only [h1, if_true, List.mem_cons] at h
      rcases h with h | h | h
      · exact Or.inl h
      · exact Or.inr (h ▸ List.mem_cons_self _ _)
      · exact Or.inr (List.mem_cons_of_mem _ h)
    · by_cases h2 : k = k'
      · subst h2
        simp only [Nat.lt_irrefl, ↓reduceIte, List.mem_cons] at h
        rcases h with h | h
        · exact Or.inl h
        · exact Or.inr (List.mem_cons_of_mem _ h)
      · simp only [h1, h2, if_false, List.mem_cons] at h
        rcases h with h | h
        · exact Or.inr (h ▸ List.mem_cons_self _ _)
        · rcases mem_mapInsert k v rest e h with h3 | h3
          · exact Or.inl h3
          · exact Or.inr (List.mem_cons_of_mem _ h3)

theorem keysAscending_cons {V : Type} (a : SerialNum × V) (m : List (SerialNum × V)) :
    KeysAscending (a :: m) ↔ (∀ e ∈ m, a.1 < e.1) ∧ KeysAscending m := by
  unfold KeysAscending keys
  rw [List.map_cons, List.pairwise_cons]
  constructor
  · rintro ⟨h1, h2⟩
    exact ⟨fun e he => h1 e.1 (List.mem_map_of_mem Prod.fst he), h2⟩
  · rintro ⟨h1, h2⟩
    refine ⟨?_, h2⟩
    intro x hx
    obtain ⟨e, he, rfl⟩ := List.mem_map.mp hx
    exact h1 e he

theorem keysAscending_mapInsert {V : Type} (k : SerialNum) (v : V) :
    ∀ (m : List (SerialNum × V)), KeysAscending m → KeysAscending (mapInsert k v m)
  | [], _ => by simp [mapInsert, KeysAscending, keys]
  | (k', v') :: rest, h => by
    obtain ⟨hhead, htail⟩ := (keysAscending_cons _ _).mp h
    unfold mapInsert
    by_cases h1 : k < k'
    · simp only [h1, if_true]
      refine (keysAscending_cons _ _).mpr ⟨?_, h⟩
      intro e he
      rcases List.mem_cons.mp he with rfl | hin
      · exact h1
      · exact Nat.lt_trans h1 (hhead e hin)
    · by_cases h2 : k = k'
      · subst h2
        simp only [Nat.lt_irrefl, ↓reduceIte]
        exact (keysAscending_cons _ _).mpr ⟨hhead, htail⟩
      · simp only [h1, h2, if_false]
        refine (keysAscending_cons _ _).mpr ⟨?_, keysAscending_mapInsert k v rest htail⟩
        intro e he
        rcases mem_mapInsert k v rest e he with rfl | hin
        · exact Nat.lt_of_le_of_ne (Nat.not_lt.mp h1) (fun hc => h2 hc.symm)
        · exact hhead e hin

theorem keys_mapUpdate {V : Type} (k : SerialNum) (f : V → V) (m : List (SerialNum × V)) :
    keys (mapUpdate k f m) = keys m := by
  unfold keys mapUpdate
  rw [List.map_map]
  apply List.map_congr_left
  intro e _
  by_cases h : e.1 = k <;> simp [h]

theorem keys_map_of_fst {V : Type} (G : SerialNum × V → SerialNum × V)
    (hG : ∀ e, (G e).1 = e.1) (m : List (SerialNum × V)) : keys (m.map G) = keys m := by
  unfold keys
  rw [List.map_map]
  apply List.map_congr_left
  intro e _
  exact hG e

/-- In a map with ascending keys no entry before the last has the key of the last. -/
theorem keysAscending_append_last {V : Type} (init : List (SerialNum × V))
    (last : SerialNum × V) (h : KeysAscending (init ++ [last])) :
    KeysAscending init ∧ ∀ e ∈ init, e.1 < last.1 := by
  unfold KeysAscending keys at h ⊢
  rw [List.map_append, List.pairwise_append] at h
  refine ⟨h.1, ?_⟩
  intro e he
  exact h.2.2 e.1 (List.mem_map_of_mem Prod.fst he) last.1 (by simp)

theorem keysAscending_append_of_lt {V : Type} (init : List (SerialNum × V))
    (last : SerialNum × V) (h1 : KeysAscending init) (h2 : ∀ e ∈ init, e.1 < last.1) :
    KeysAscending (init ++ [last]) := by
  unfold KeysAscending keys at h1 ⊢
  rw [List.map_append, List.pairwise_append]
  refine ⟨h1, by simp, ?_⟩
  intro x hx y hy
  obtain ⟨e, he, rfl⟩ := List.mem_map.mp hx
  simp only [List.map_cons, List.map_nil, List.mem_singleton] at hy
  rw [hy]
  exact h2 e he

/-- When the key just assigned is the last key of the map, the map is the entries below
that key followed by the new entry. -/
theorem mapInsert_is_last {V : Type} (k : SerialNum) (v : V) :
    ∀ (m : List (SerialNum × V)), KeysAscending m →
      ((mapInsert k v m).getLast?).map Prod.fst = some k →
      ∃ init, mapInsert k v m = init ++ [(k, v)] ∧ (∀ e ∈ init, e ∈ m) ∧
        (∀ e ∈ init, e.1 < k)
  | [], _, _ => ⟨[], rfl, by simp, by simp⟩
  | (k', v') :: rest, hasc, hlast => by
    obtain ⟨hhead, htail⟩ := (keysAscending_cons _ _).mp hasc
    -- the last key of a non-empty ascending map is at least its first key
    have hlastge : ∀ (l : List (SerialNum × V)) (a : SerialNum × V), KeysAscending (a :: l) →
        ∀ z, (a :: l).getLast? = some z → a.1 ≤ z.1 := by
      intro l a hl z hz
      have hzm := List.mem_of_getLast?_eq_some hz
      rcases List.mem_cons.mp hzm with rfl | hin
      · exact Nat.le_refl _
      · exact Nat.le_of_lt (((keysAscending_cons _ _).mp hl).1 z hin)
    unfold mapInsert at hlast ⊢
    by_cases h1 : k < k'
    · simp only [h1, if_true] at hlast ⊢
      exfalso
      rw [List.getLast?_cons_cons] at hlast
      obtain ⟨z, hz, hzk⟩ := Option.map_eq_some'.mp hlast
      have := hlastge rest (k', v') hasc z hz
      rw [hzk] at this
      exact absurd h1 (Nat.not_lt.mpr this)
    · by_cases h2 : k = k'
      · subst h2
        simp only [Nat.lt_irrefl, ↓reduceIte] at hlast ⊢
        cases rest with
        | nil => exact ⟨[], rfl, by simp, by simp⟩
        | cons b r =>
          exfalso
          rw [List.getLast?_cons_cons] at hlast
          obtain ⟨z, hz, hzk⟩ := Option.map_eq_some'.mp hlast
          have hzm := List.mem_of_getLast?_eq_some hz
          have := hhead z hzm
          rw [hzk] at this
          exact absurd this (Nat.lt_irrefl _)
      · simp only [h1, h2, if_false] at hlast ⊢
        have hne : mapInsert k v rest ≠ [] := mapInsert_ne_nil k v rest
        have hlast' : ((mapInsert k v rest).getLast?).map Prod.fst = some k := by
          cases hm : mapInsert k v rest with
          | nil => exact absurd hm hne
          | cons b r =>
            rw [hm, List.getLast?_cons_cons] at hlast
            exact hlast
        obtain ⟨init, hi, hmem, hlt⟩ := mapInsert_is_last k v rest htail hlast'
        refine ⟨(k', v') :: init, by rw [hi]; rfl, ?_, ?_⟩
        · intro e he
          rcases List.mem_cons.mp he with rfl | hin
          · exact List.mem_cons_self _ _
          · exact List.mem_cons_of_mem _ (hmem e hin)
        · intro e he
          rcases List.mem_cons.mp he with rfl | hin
          · exact Nat.lt_of_le_of_ne (Nat.not_lt.mp h1) (fun hc => h2 hc.symm)
          · exact hlt e hin

/-! ## What append and erase do to the segment map -/

theorem waitPendingSync_parts (ops : PartOps) (d d1 : Domain)
    (h : d.waitPendingSync ops = some d1) :
    ∃ g : SerialNum × DomainPart → SerialNum × DomainPart,
      (∀ e, (g e).1 = e.1 ∧ ((g e).2 = e.2 ∨ (g e).2 = ops.sync e.2)) ∧
      d1.parts = d.parts.map g ∧ d1.config = d.config := by
  unfold Domain.waitPendingSync at h
  split_ifs at h
  · cases h
    exact ⟨id, by simp, by simp, rfl⟩
  · split at h
    · exact absurd h (by simp)
    · rename_i t rest ht
      cases h
      refine ⟨fun e => if e.1 = t then (e.1, ops.sync e.2) else e, ?_, ?_, ?_⟩
      · intro e
        by_cases hk : e.1 = t <;> simp [hk]
      · simp [Domain.syncTaskDone, ht, mapUpdate]
      · simp [Domain.syncTaskDone, ht]

theorem triggerSyncNow_parts (d d2 : Domain) (h : d.triggerSyncNow = some d2) :
    d2.parts = d.parts ∧ d2.config = d.config := by
  unfold Domain.triggerSyncNow at h
  split_ifs at h
  · split at h
    · exact absurd h (by simp)
    · cases h; exact ⟨rfl, rfl⟩
  · cases h; exact ⟨rfl, rfl⟩

/-- What a returning `optionallyRotateFile` has done: nothing when the newest segment is
within the size limit; otherwise the segments were synced, the newest closed and a fresh
segment assigned under the new serial, which is then the last key. -/
theorem optionallyRotateFile_some (ops : PartOps) (d d1 : Domain) (s k' : SerialNum)
    (h : d.optionallyRotateFile ops s = some (k', d1)) :
    ∃ k dp, d.parts.getLast? = some (k, dp) ∧
      ((dp.byteSize ≤ d.config.partSizeLimit ∧ k' = k ∧ d1 = d) ∨
       (d.config.partSizeLimit < dp.byteSize ∧ k' = s ∧
        ∃ (G : SerialNum × DomainPart → SerialNum × DomainPart) (fresh : DomainPart),
          (∀ e, (G e).1 = e.1 ∧
            ((G e).2 = e.2 ∨ (G e).2 = ops.sync e.2 ∨ (G e).2 = ops.sync (ops.sync e.2))) ∧
          ops.create s false = some fresh ∧
          d1.parts = mapInsert s fresh (mapUpdate k ops.close (d.parts.map G)) ∧
          (d1.parts.getLast?).map Prod.fst = some s)) := by
  unfold Domain.optionallyRotateFile at h
  split at h
  · exact absurd h (by simp)
  · rename_i k dp hlast
    refine ⟨k, dp, hlast, ?_⟩
    split_ifs at h with hbig
    · right
      split at h
      · exact absurd h (by simp)
      · rename_i da h1
        split at h
        · exact absurd h (by simp)
        · rename_i db h2
          split at h
          · exact absurd h (by simp)
          · rename_i dc h3
            simp only at h
            split at h
            · exact absurd h (by simp)
            · rename_i fresh hcreate
              split_ifs at h with hassert
              simp only [Option.some.injEq, Prod.mk.injEq] at h
              obtain ⟨hk, hd⟩ := h
              obtain ⟨g1, hg1, hp1, -⟩ := waitPendingSync_parts ops _ _ h1
              obtain ⟨hp2, -⟩ := triggerSyncNow_parts _ _ h2
              obtain ⟨g3, hg3, hp3, -⟩ := waitPendingSync_parts ops _ _ h3
              refine ⟨hbig, hk.symm, g3 ∘ g1, fresh, ?_, hcreate, ?_, ?_⟩
              · intro e
                have a1 := hg1 e
                have a3 := hg3 (g1 e)
                refine ⟨by simp [a1.1, a3.1], ?_⟩
                simp only [Function.comp]
                rcases a1.2 with b1 | b1 <;> rcases a3.2 with b3 | b3 <;> simp [b1, b3]
              · rw [← hd]
                simp only
                rw [hp3, hp2, hp1, List.map_map]
              · rw [← hd]
                exact hassert
    · left
      simp only [Option.some.injEq, Prod.mk.injEq] at h
      exact ⟨Nat.not_lt.mp hbig, h.1.symm, h.2.symm⟩

theorem append_some (ops : PartOps) (d d' : Domain) (packet : Packet)
    (h : d.append ops packet = some d') :
    ∃ k' d1 dp dp', d.optionallyRotateFile ops packet.serial = some (k', d1) ∧
      mapFind k' d1.parts = some dp ∧ ops.commit dp packet.serial packet = some dp' ∧
      d'.parts = mapUpdate k' (fun _ => dp') d1.parts := by
  unfold Domain.append at h
  split at h
  · exact absurd h (by simp)
  · rename_i k d1 hrot
    split at h
    · exact absurd h (by simp)
    · rename_i dp hfind
      split at h
      · exact absurd h (by simp)
      · rename_i dp' hcommit
        cases h
        exact ⟨k, d1, dp, dp', hrot, hfind, hcommit, rfl⟩

theorem getLast?_eq_some_append {α : Type} (l : List α) (a : α) (h : l.getLast? = some a) :
    ∃ init, l = init ++ [a] := List.getLast?_eq_some_iff.mp h

/-- The segment map after a returning `append`, on a map with ascending keys: either the
packet went to the newest segment, or the map now ends with the new segment, which holds
the packet, and every segment before it is one of the old ones, synced, the old newest
one closed. -/
theorem append_parts (ops : PartOps) (d d' : Domain) (packet : Packet)
    (hasc : KeysAscending d.parts) (h : d.append ops packet = some d') :
    ∃ init k dp, d.parts = init ++ [(k, dp)] ∧
      ((dp.byteSize ≤ d.config.partSizeLimit ∧
        ∃ dp', ops.commit dp packet.serial packet = some dp' ∧
          d'.parts = init ++ [(k, dp')]) ∨
       (d.config.partSizeLimit < dp.byteSize ∧
        ∃ (G : SerialNum × DomainPart → SerialNum × DomainPart) (fresh fresh' : DomainPart)
          (init' : DomainPartList),
          (∀ e, (G e).1 = e.1 ∧
            ((G e).2 = e.2 ∨ (G e).2 = ops.sync e.2 ∨ (G e).2 = ops.sync (ops.sync e.2))) ∧
          ops.create packet.serial false = some fresh ∧
          ops.commit fresh packet.serial packet = some fresh' ∧
          d'.parts = init' ++ [(packet.serial, fresh')] ∧
          (∀ e ∈ init', e.1 < packet.serial) ∧
          (∀ e ∈ init', e ∈ init.map G ++ [(k, ops.close (G (k, dp)).2)]) ∧
          KeysAscending d'.parts)) := by
  obtain ⟨k', d1, dpf, dp', hrot, hfind, hcommit, hparts⟩ := append_some ops d d' packet h
  obtain ⟨k, dp, hlast, hcase⟩ := optionallyRotateFile_some ops d d1 _ _ hrot
  obtain ⟨init, hinit⟩ := getLast?_eq_some_append _ _ hlast
  have hasc' : KeysAscending (init ++ [(k, dp)]) := hinit ▸ hasc
  obtain ⟨hascinit, hinitlt⟩ := keysAscending_append_last init (k, dp) hasc'
  have hinitne : ∀ e ∈ init, e.1 ≠ k := fun e he => Nat.ne_of_lt (hinitlt e he)
  refine ⟨init, k, dp, hinit, ?_⟩
  rcases hcase with ⟨hsmall, hk, hd⟩ | ⟨hbig, hk, G, fresh, hG, hcreate, hp1, hassert⟩
  · left
    subst hk hd
    rw [hinit, mapFind_append_last _ _ _ hinitne] at hfind
    cases hfind
    refine ⟨hsmall, dp', hcommit, ?_⟩
    rw [hparts, hinit]
    exact mapUpdate_append_last _ _ _ _ hinitne
  · right
    subst hk
    have hGk : G (k, dp) = (k, (G (k, dp)).2) := Prod.ext (hG (k, dp)).1 rfl
    have hmapne : ∀ e ∈ init.map G, e.1 ≠ k := by
      intro e he
      obtain ⟨e0, he0, rfl⟩ := List.mem_map.mp he
      rw [(hG e0).1]
      exact hinitne e0 he0
    have hclosed : mapUpdate k ops.close (d.parts.map G)
        = init.map G ++ [(k, ops.close (G (k, dp)).2)] := by
      rw [hinit, List.map_append, List.map_cons, List.map_nil, hGk]
      exact mapUpdate_append_last k ops.close _ _ hmapne
    have hascclosed : KeysAscending (init.map G ++ [(k, ops.close (G (k, dp)).2)]) := by
      rw [← hclosed]
      unfold KeysAscending
      rw [keys_mapUpdate, keys_map_of_fst G (fun e => (hG e).1)]
      exact hasc
    rw [hclosed] at hp1
    rw [hp1] at hassert
    obtain ⟨init', hi', hmem', hlt'⟩ := mapInsert_is_last packet.serial fresh _ hascclosed hassert
    have hne' : ∀ e ∈ init', e.1 ≠ packet.serial := fun e he => Nat.ne_of_lt (hlt' e he)
    rw [hp1, hi', mapFind_append_last _ _ _ hne'] at hfind
    cases hfind
    have hfinal : d'.parts = init' ++ [(packet.serial, dp')] := by
      rw [hparts, hp1, hi']
      exact mapUpdate_append_last _ _ _ _ hne'
    refine ⟨hbig, G, dpf, dp', init', hG, hcreate, hcommit, hfinal, hlt', hmem', ?_⟩
    rw [hfinal]
    have hasc1 : KeysAscending (mapInsert packet.serial dpf
        (init.map G ++ [(k, ops.close (G (k, dp)).2)])) :=
      keysAscending_mapInsert _ _ _ hascclosed
    rw [hi'] at hasc1
    exact keysAscending_append_of_lt init' _ (keysAscending_append_last init' _ hasc1).1 hlt'

/-! ## Closed and open segments -/

theorem closedInv_append (ops : PartOps) (hd : ClosedDiscipline ops) (d d' : Domain)
    (packet : Packet) (hasc : KeysAscending d.parts) (hci : ClosedInv d.parts)
    (h : d.append ops packet = some d') : KeysAscending d'.parts ∧ ClosedInv d'.parts := by
  obtain ⟨hcreate, hclose, hsync, hcommit, -⟩ := hd
  obtain ⟨init, k, dp, hinit, hcase⟩ := append_parts ops d d' packet hasc h
  obtain ⟨init0, last0, h0, hclosed0, hopen0⟩ := hci
  rw [hinit] at h0
  obtain ⟨hi0, hl0⟩ := List.append_inj' h0 rfl
  have hl : last0 = (k, dp) := by simpa using hl0.symm
  subst hi0
  subst hl
  rcases hcase with ⟨-, dp', hc, hp⟩ | ⟨-, G, fresh, fresh', init', hG, hcr, hc, hp, hlt, hmem, hasc'⟩
  · refine ⟨?_, init, (k, dp'), hp, hclosed0, ?_⟩
    · have hk : keys d'.parts = keys d.parts := by
        rw [hp, hinit]
        simp [keys]
      unfold KeysAscending
      rw [hk]
      exact hasc
    · simp only
      rw [hcommit dp _ _ dp' hc]
      exact hopen0
  · refine ⟨hasc', init', (packet.serial, fresh'), hp, ?_, ?_⟩
    · intro e he
      rcases List.mem_append.mp (hmem e he) with hin | hin
      · obtain ⟨e0, he0, rfl⟩ := List.mem_map.mp hin
        have hc0 := hclosed0 e0 he0
        rcases (hG e0).2 with hg | hg | hg
        · rw [hg]; exact hc0
        · rw [hg, hsync]; exact hc0
        · rw [hg, hsync, hsync]; exact hc0
      · rw [List.mem_singleton.mp hin]
        exact hclose _
    · simp only
      rw [hcommit fresh _ _ fresh' hc]
      exact hcreate _ _ fresh hcr

theorem eraseBoundary_shape (ops : PartOps) (to_ k : SerialNum) (dp : DomainPart)
    (rest parts' : DomainPartList)
    (h : eraseBoundary ops to_ ((k, dp) :: rest) = some parts') :
    ∃ dp', parts' = (k, dp') :: rest ∧
      (dp' = dp ∨ (to_ ≤ dp.range.to_ ∧ dp' = (ops.erase dp to_).2)) := by
  simp only [eraseBoundary] at h
  by_cases hc : dp.range.to_ ≥ to_
  · rw [if_pos hc] at h
    cases h
    exact ⟨_, rfl, Or.inr ⟨hc, rfl⟩⟩
  · rw [if_neg hc] at h
    cases h
    exact ⟨_, rfl, Or.inl rfl⟩

theorem closedInv_erase (ops : PartOps) (hd : ClosedDiscipline ops) (d d' : Domain)
    (to_ : SerialNum) (r : Bool) (hasc : KeysAscending d.parts) (hci : ClosedInv d.parts)
    (h : d.erase ops to_ = some (r, d')) : KeysAscending d'.parts ∧ ClosedInv d'.parts := by
  obtain ⟨-, -, -, -, herase⟩ := hd
  obtain ⟨init, last, hinit, hclosed, hopen⟩ := hci
  have hne : d.parts ≠ [] := by rw [hinit]; simp
  have hlt := prunedCount_lt to_ d.parts hne
  unfold Domain.erase at h
  simp only [Option.map_eq_some', eraseLoop_parts] at h
  obtain ⟨parts', hb, hp⟩ := h
  have hd' : d'.parts = parts' := by
    cases hp
    rfl
  generalize prunedCount to_ d.parts = n at hlt hb
  have hn : n ≤ init.length := by
    rw [hinit, List.length_append] at hlt
    simp at hlt
    omega
  have hdrop : d.parts.drop n = init.drop n ++ [last] := by
    rw [hinit, List.drop_append_of_le_length hn]
  have hkeys := (eraseBoundary_keys ops to_ _ _ hb).1
  refine ⟨?_, ?_⟩
  · unfold KeysAscending
    rw [hd', hkeys]
    unfold keys
    rw [List.map_drop]
    exact List.Pairwise.sublist (List.drop_sublist _ _) hasc
  · rw [hd']
    rw [hdrop] at hb
    cases hrest : init.drop n with
    | nil =>
      rw [hrest] at hb
      obtain ⟨k, dp⟩ := last
      obtain ⟨dp', hp', hcase⟩ := eraseBoundary_shape ops to_ k dp [] parts' hb
      refine ⟨[], (k, dp'), by rw [hp']; rfl, by simp, ?_⟩
      rcases hcase with rfl | ⟨hto, rfl⟩
      · exact hopen
      · simp only
        rw [herase dp to_ hto]
        exact hopen
    | cons a rest =>
      rw [hrest] at hb
      obtain ⟨k, dp⟩ := a
      obtain ⟨dp', hp', hcase⟩ := eraseBoundary_shape ops to_ k dp (rest ++ [last]) parts' hb
      have hain : (k, dp) ∈ init := by
        have : (k, dp) ∈ init.drop n := by rw [hrest]; simp
        exact List.mem_of_mem_drop this
      have hrestin : ∀ e ∈ rest, e ∈ init := by
        intro e he
        have : e ∈ init.drop n := by rw [hrest]; simp [he]
        exact List.mem_of_mem_drop this
      refine ⟨(k, dp') :: rest, last, by rw [hp']; rfl, ?_, hopen⟩
      intro e he
      rcases List.mem_cons.mp he with rfl | hin
      · rcases hcase with rfl | ⟨hto, rfl⟩
        · exact hclosed _ hain
        · simp only
          rw [herase dp to_ hto]
          exact hclosed _ hain
      · exact hclosed e (hrestin e hin)

theorem loadInv_addPart (ops : PartOps) (hd : ClosedDiscipline ops) (lastPart partId : SerialNum)
    (parts parts' : DomainPartList) (hle : partId ≤ lastPart) (hinv : LoadInv lastPart parts)
    (h : addPart ops parts partId (decide (partId = lastPart)) = some parts') :
    LoadInv lastPart parts' := by
  obtain ⟨hcreate, hclose, -, -, -⟩ := hd
  unfold addPart at h
  split at h
  · exact absurd h (by simp)
  · rename_i dp hcr
    by_cases hsz : dp.size = 0
    · rw [if_pos hsz] at h
      split_ifs at h
      cases h
      exact hinv
    · rw [if_neg hsz] at h
      simp only [Option.some.injEq] at h
      subst h
      refine ⟨keysAscending_mapInsert _ _ _ hinv.1, ?_⟩
      intro e he
      rcases mem_mapInsert _ _ _ e he with rfl | hin
      · refine ⟨hle, ?_, ?_⟩
        · intro hlt
          have hne : ¬ partId = lastPart := Nat.ne_of_lt hlt
          simp only [hne, decide_False, Bool.not_false, if_true]
          exact hclose dp
        · intro heq
          have heq' : partId = lastPart := heq
          simp only [heq', decide_True, Bool.not_true, Bool.false_eq_true, if_false]
          exact hcreate _ _ dp hcr
      · exact hinv.2 e hin

theorem loadInv_loadParts (ops : PartOps) (hd : ClosedDiscipline ops) (lastPart : SerialNum) :
    ∀ (ids : List SerialNum) (parts : DomainPartList) (log : List (Task × Bool))
      (parts' : DomainPartList) (log' : List (Task × Bool)),
      (∀ id ∈ ids, id ≤ lastPart) → LoadInv lastPart parts →
      loadParts ops lastPart ids parts log = some (parts', log') → LoadInv lastPart parts'
  | [], parts, log, parts', log', _, hinv, h => by
    simp only [loadParts, Option.some.injEq, Prod.mk.injEq] at h
    rw [← h.1]
    exact hinv
  | partId :: rest, parts, log, parts', log', hle, hinv, h => by
    unfold loadParts at h
    split_ifs at h with hmax
    · split at h
      · exact absurd h (by simp)
      · rename_i parts1 hadd
        exact loadInv_loadParts ops hd lastPart rest parts1 _ parts' log'
          (fun id hid => hle id (List.mem_cons_of_mem _ hid))
          (loadInv_addPart ops hd lastPart partId parts parts1 (hle partId (List.mem_cons_self _ _))
            hinv hadd) h
    · exact loadInv_loadParts ops hd lastPart rest parts log parts' log'
        (fun id hid => hle id (List.mem_cons_of_mem _ hid)) hinv h

theorem le_getLastD_of_sorted : ∀ (ids : List SerialNum), ids.Sorted (· ≤ ·) →
    ∀ id ∈ ids, id ≤ ids.getLastD 0 := by
  intro ids hs id hid
  induction ids using List.reverseRecOn with
  | nil => simp at hid
  | append_singleton init last _ =>
    have hl : (init ++ [last]).getLastD 0 = last := List.getLastD_concat _ _ _
    rw [hl]
    rcases List.mem_append.mp hid with hin | hin
    · exact (List.pairwise_append.mp hs).2.2 id hin last (by simp)
    · rw [List.mem_singleton.mp hin]

/-- After a completed construction from a sorted scan the keys ascend, every segment but
the newest is closed and the newest is open. -/
theorem closedInv_initFrom (ops : PartOps) (hd : ClosedDiscipline ops) (cfg : DomainConfig)
    (a b : Int) (ids : List SerialNum) (hs : ids.Sorted (· ≤ ·)) (d : Domain)
    (h : Domain.initFrom ops cfg a b ids = some d) :
    KeysAscending d.parts ∧ ClosedInv d.parts := by
  have hcreate := hd.1
  unfold Domain.initFrom at h
  split_ifs at h
  simp only at h
  split at h
  · exact absurd h (by simp)
  · rename_i parts log hload
    have hinv : LoadInv (ids.getLastD 0) parts :=
      loadInv_loadParts ops hd _ ids [] [] parts log (le_getLastD_of_sorted ids hs)
        ⟨by simp [KeysAscending, keys], by simp⟩ hload
    cases hl : parts.getLast? with
    | none =>
      have hnil : parts = [] := List.getLast?_eq_none_iff.mp hl
      simp only [hl, if_true] at h
      split at h
      · exact absurd h (by simp)
      · rename_i dp hcr
        cases h
        simp only [hnil, mapInsert]
        exact ⟨by simp [KeysAscending, keys], [], _, rfl, by simp, hcreate _ _ dp hcr⟩
    | some entry =>
      obtain ⟨init, hinit⟩ := getLast?_eq_some_append _ _ hl
      have hascp : KeysAscending (init ++ [entry]) := hinit ▸ hinv.1
      obtain ⟨hascinit, hltinit⟩ := keysAscending_append_last init entry hascp
      have hentry := hinv.2 entry (by rw [hinit]; simp)
      simp only [hl] at h
      cases hc : entry.2.isClosed with
      | true =>
        simp only [hc, if_true] at h
        split at h
        · exact absurd h (by simp)
        · rename_i dp hcr
          cases h
          simp only
          have hlt : entry.1 < ids.getLastD 0 := by
            rcases Nat.lt_or_eq_of_le hentry.1 with hlt | heq
            · exact hlt
            · have := hentry.2.2 heq
              rw [hc] at this
              exact absurd this (by simp)
          have hall : ∀ e ∈ parts, e.1 < ids.getLastD 0 := by
            intro e he
            rw [hinit] at he
            rcases List.mem_append.mp he with hin | hin
            · exact Nat.lt_trans (hltinit e hin) hlt
            · rw [List.mem_singleton.mp hin]
              exact hlt
          rw [mapInsert_append_of_lt _ _ _ hall]
          refine ⟨keysAscending_append_of_lt parts _ hinv.1 hall, parts, _, rfl, ?_,
            hcreate _ _ dp hcr⟩
          intro e he
          exact (hinv.2 e he).2.1 (hall e he)
      | false =>
        simp only [hc, Bool.false_eq_true, if_false, Option.some.injEq] at h
        cases h
        simp only
        refine ⟨hinv.1, init, entry, hinit, ?_, hc⟩
        intro e he
        have hmem : e ∈ parts := by rw [hinit]; simp [he]
        have hlast : entry.1 = ids.getLastD 0 := by
          rcases Nat.lt_or_eq_of_le hentry.1 with hlt | heq
          · have := hentry.2.1 hlt
            rw [hc] at this
            exact absurd this (by simp)
          · exact heq
        exact (hinv.2 e hmem).2.1 (hlast ▸ hltinit e he)

theorem closedInv_reached (ops : PartOps) (hd : ClosedDiscipline ops) (d : Domain)
    (h : ReachedByAppendErase ops d) : KeysAscending d.parts ∧ ClosedInv d.parts := by
  induction h with
  | init h0 =>
    exact closedInv_initFrom ops hd _ _ _ _ (List.sorted_insertionSort _ _) _ h0
  | append p _ ha ih => exact closedInv_append ops hd _ _ p ih.1 ih.2 ha
  | erase t _ he ih => exact closedInv_erase ops hd _ _ t _ ih.1 ih.2 he

/-- C15: in every state reached from a completed construction by `append` (rotation
included) and `erase`, with segments that follow the closing discipline of the spec, the
keys of the map ascend, every segment other than the one with the greatest starting
serial is closed, and the one with the greatest starting serial is not closed. -/
theorem only_newest_segment_open (ops : PartOps) (hd : ClosedDiscipline ops) (d : Domain)
    (h : ReachedByAppendErase ops d) :
    KeysAscending d.parts ∧
    ∃ init newest, d.parts = init ++ [newest] ∧
      (∀ e ∈ d.parts, e.1 ≤ newest.1) ∧
      (∀ e ∈ init, e.1 < newest.1 ∧ e.2.isClosed = true) ∧
      newest.2.isClosed = false := by
  obtain ⟨hasc, init, newest, hinit, hclosed, hopen⟩ := closedInv_reached ops hd d h
  have hlt := (keysAscending_append_last init newest (hinit ▸ hasc)).2
  refine ⟨hasc, init, newest, hinit, ?_, fun e he => ⟨hlt e he, hclosed e he⟩, hopen⟩
  intro e he
  rw [hinit] at he
  rcases List.mem_append.mp he with hin | hin
  · exact Nat.le_of_lt (hlt e hin)
  · rw [List.mem_singleton.mp hin]

theorem commitEntries_closed : ∀ (l : List SerialNum) (p q : DomainPart),
    commitEntries p l = some q → q.isClosed = p.isClosed
  | [], p, q, h => by
    simp only [commitEntries, Option.some.injEq] at h
    rw [h]
  | s :: rest, p, q, h => by
    simp only [commitEntries] at h
    split_ifs at h
    have hq := commitEntries_closed rest _ q h
    exact hq

theorem closedDiscipline_specOps : ClosedDiscipline specOps := by
  refine ⟨?_, ?_, ?_, ?_, ?_⟩
  · intro s b p h
    simp only [specOps, specCreate, Option.some.injEq] at h
    subst h
    rfl
  · intro p
    rfl
  · intro p
    rfl
  · intro p s packet p' h
    simp only [specOps, specCommit, Option.map_eq_some'] at h
    obtain ⟨q, hq, rfl⟩ := h
    exact commitEntries_closed packet.entries p q hq
  · intro p to_ _
    rfl

/-- C15, at a concrete run: construction on an empty directory, an append, and an append
that rotates give the segments under keys 0 (closed) and 11 (open). -/
theorem only_newest_segment_open_witness :
    ClosedDiscipline specOps ∧ ReachedByAppendErase specOps specRotated ∧
    (KeysAscending specRotated.parts ∧
      ∃ init newest, specRotated.parts = init ++ [newest] ∧
        (∀ e ∈ specRotated.parts, e.1 ≤ newest.1) ∧
        (∀ e ∈ init, e.1 < newest.1 ∧ e.2.isClosed = true) ∧
        newest.2.isClosed = false) :=
  have hr : ReachedByAppendErase specOps specRotated :=
    ReachedByAppendErase.append ⟨11, [7], []⟩
      (ReachedByAppendErase.append ⟨10, [7, 7], []⟩
        (@ReachedByAppendErase.init specOps ⟨1⟩ "dom".toList [] specFresh (by decide))
        (show specFresh.append specOps ⟨10, [7, 7], []⟩ = some specOnce by decide))
      (show specOnce.append specOps ⟨11, [7], []⟩ = some specRotated by decide)
  ⟨closedDiscipline_specOps, hr,
    only_newest_segment_open specOps closedDiscipline_specOps specRotated hr⟩

/-! ## Monotonic append -/

theorem domainEnd_append_last (init : DomainPartList) (k : SerialNum) (dp : DomainPart) :
    domainEnd (init ++ [(k, dp)]) = dp.range.to_ := by
  simp [domainEnd]

theorem syncInv_pending (d : Domain) (h : SyncInv d) :
    d.pendingSync = true → d.syncTasks ≠ [] := h.2.mp

/-- An `append` that does not rotate hands the packet to the newest segment; it returns
exactly when `commit` accepts the packet. -/
theorem append_not_rotating (ops : PartOps) (d : Domain) (packet : Packet)
    (init : DomainPartList) (k : SerialNum) (dp : DomainPart)
    (hparts : d.parts = init ++ [(k, dp)]) (hasc : KeysAscending d.parts)
    (hsmall : dp.byteSize ≤ d.config.partSizeLimit) :
    d.append ops packet =
      (ops.commit dp packet.serial packet).map (fun dp' =>
        { d with parts := init ++ [(k, dp')], sessions := cleanSessions d.sessions }) := by
  have hlast : d.parts.getLast? = some (k, dp) := by rw [hparts]; simp
  have hinit_ne : ∀ e ∈ init, e.1 ≠ k := fun e he =>
    Nat.ne_of_lt ((keysAscending_append_last init (k, dp) (hparts ▸ hasc)).2 e he)
  have hrot : d.optionallyRotateFile ops packet.serial = some (k, d) := by
    unfold Domain.optionallyRotateFile
    rw [hlast]
    simp only [gt_iff_lt, Nat.not_lt.mpr hsmall, if_false]
  have hfind : mapFind k d.parts = some dp := by
    rw [hparts]
    exact mapFind_append_last _ _ _ hinit_ne
  unfold Domain.append
  rw [hrot]
  simp only [hfind]
  cases hc : ops.commit dp packet.serial packet with
  | none => rfl
  | some dp' =>
    have hupd : mapUpdate k (fun _ => dp') d.parts = init ++ [(k, dp')] := by
      rw [hparts]
      exact mapUpdate_append_last _ _ _ _ hinit_ne
    simp only [Option.map_some', hupd]
/-- An assignment under a key that is at least every key of the map puts the entry last,
which is what the `assert` after the rotation checks. -/
theorem mapInsert_last_of_ge {V : Type} (k : SerialNum) (v : V) :
    ∀ (m : List (SerialNum × V)), KeysAscending m → (∀ e ∈ m, e.1 ≤ k) →
      ((mapInsert k v m).getLast?).map Prod.fst = some k
  | [], _, _ => rfl
  | (k', v') :: rest, hasc, hle => by
    obtain ⟨hhead, htail⟩ := (keysAscending_cons _ _).mp hasc
    have hk : k' ≤ k := hle (k', v') (by simp)
    have h1 : ¬ k < k' := Nat.not_lt.mpr hk
    unfold mapInsert
    by_cases h2 : k = k'
    · subst h2
      simp only [Nat.lt_irrefl, ↓reduceIte]
      cases rest with
      | nil => rfl
      | cons b r =>
        exfalso
        have hb1 : k < b.1 := hhead b (by simp)
        have hb2 : b.1 ≤ k := hle b (by simp)
        exact absurd hb1 (Nat.not_lt.mpr hb2)
    · simp only [h1, h2, if_false]
      have ih := mapInsert_last_of_ge k v rest htail (fun e he => hle e (by simp [he]))
      have hne := mapInsert_ne_nil k v rest
      cases hm : mapInsert k v rest with
      | nil => exact absurd hm hne
      | cons b r =>
        rw [List.getLast?_cons_cons, ← hm]
        exact ih

theorem getLastD_cons_eq {α : Type} (a b : α) (l : List α) :
    (b :: l).getLastD a = l.getLastD b := by
  cases l <;> rfl

theorem getLastD_append_eq {α : Type} : ∀ (l1 l2 : List α) (a : α),
    (l1 ++ l2).getLastD a = l2.getLastD (l1.getLastD a)
  | [], l2, a => rfl
  | b :: l1, l2, a => by
    rw [List.cons_append, getLastD_cons_eq, getLastD_cons_eq]
    exact getLastD_append_eq l1 l2 b

theorem chain_append_getLastD : ∀ (l1 l2 : List Nat) (a : Nat),
    List.Chain (· < ·) a (l1 ++ l2) →
      List.Chain (· < ·) a l1 ∧ List.Chain (· < ·) (l1.getLastD a) l2
  | [], l2, a, h => ⟨List.Chain.nil, h⟩
  | b :: l1, l2, a, h => by
    rw [List.cons_append, List.chain_cons] at h
    obtain ⟨hab, hrest⟩ := h
    obtain ⟨h1, h2⟩ := chain_append_getLastD l1 l2 b hrest
    rw [getLastD_cons_eq]
    exact ⟨List.Chain.cons hab h1, h2⟩

theorem chain_le_getLastD : ∀ (l : List Nat) (a : Nat), List.Chain (· < ·) a l →
    a ≤ l.getLastD a ∧ ∀ s ∈ l, s ≤ l.getLastD a
  | [], a, _ => ⟨Nat.le_refl _, by simp⟩
  | b :: l, a, h => by
    rw [List.chain_cons] at h
    obtain ⟨hab, hrest⟩ := h
    obtain ⟨h1, h2⟩ := chain_le_getLastD l b hrest
    rw [getLastD_cons_eq]
    refine ⟨Nat.le_trans (Nat.le_of_lt hab) h1, ?_⟩
    intro s hs
    rcases List.mem_cons.mp hs with rfl | hin
    · exact h1
    · exact h2 s hin

/-- Entries with strictly increasing serials above `range.to` are all stored, and
`range.to` ends at the last of them. -/
theorem commitEntries_chain : ∀ (l : List SerialNum) (p : DomainPart),
    List.Chain (· < ·) p.range.to_ l →
      ∃ q, commitEntries p l = some q ∧ q.range.to_ = l.getLastD p.range.to_ ∧
        q.sz = p.sz + l.length
  | [], p, _ => ⟨p, rfl, rfl, rfl⟩
  | s :: rest, p, h => by
    rw [List.chain_cons] at h
    obtain ⟨hps, hrest⟩ := h
    obtain ⟨q, hq, hto, hsz⟩ := commitEntries_chain rest
      { p with range := ⟨p.range.from_, s⟩, sz := p.sz + 1 } hrest
    refine ⟨q, ?_, ?_, ?_⟩
    · simp only [commitEntries, hps, if_true]
      exact hq
    · rw [getLastD_cons_eq]
      exact hto
    · rw [hsz, List.length_cons]
      simp only
      omega

/-- When `commitEntries` returns, every entry stored lies above the old `range.to` and at
or below the new one. -/
theorem commitEntries_some : ∀ (l : List SerialNum) (p q : DomainPart),
    commitEntries p l = some q →
      p.range.to_ ≤ q.range.to_ ∧ ∀ s ∈ l, p.range.to_ < s ∧ s ≤ q.range.to_
  | [], p, q, h => by
    simp only [commitEntries, Option.some.injEq] at h
    subst h
    exact ⟨Nat.le_refl _, by simp⟩
  | s :: rest, p, q, h => by
    simp only [commitEntries] at h
    by_cases hps : p.range.to_ < s
    · rw [if_pos hps] at h
      have ih := commitEntries_some rest _ q h
      obtain ⟨h1, h2⟩ := ih
      simp only at h1 h2
      refine ⟨Nat.le_trans (Nat.le_of_lt hps) h1, ?_⟩
      intro x hx
      rcases List.mem_cons.mp hx with rfl | hin
      · exact ⟨hps, h1⟩
      · exact ⟨Nat.lt_trans hps (h2 x hin).1, (h2 x hin).2⟩
    · rw [if_neg hps] at h
      exact absurd h (by simp)

/-- An `append` that rotates, for a serial that is at least every starting serial, returns
when the new segment can be created and accepts the packet; the map then ends with the new
segment, after the segments of smaller starting serial. -/
theorem append_rotating_ge (ops : PartOps) (d : Domain) (packet : Packet)
    (init : DomainPartList) (k : SerialNum) (dp fresh fresh' : DomainPart)
    (hparts : d.parts = init ++ [(k, dp)]) (hasc : KeysAscending d.parts)
    (hge : ∀ e ∈ d.parts, e.1 ≤ packet.serial)
    (hsync : d.pendingSync = true → d.syncTasks ≠ [])
    (hbig : d.config.partSizeLimit < dp.byteSize)
    (hcreate : ops.create packet.serial false = some fresh)
    (hcommit : ops.commit fresh packet.serial packet = some fresh') :
    ∃ d' older, d.append ops packet = some d' ∧
      d'.parts = older ++ [(packet.serial, fresh')] ∧
      (∀ e ∈ older, e.1 < packet.serial) ∧ KeysAscending d'.parts := by
  have hne : d.parts ≠ [] := by rw [hparts]; simp
  obtain ⟨d1, d2, d3, G, h1, h2, h3, hG, hp3, hs3, -, hi3⟩ := rotate_sync_phase ops d hne hsync
  have hlast : d.parts.getLast? = some (k, dp) := by rw [hparts]; simp
  have hkeys : keys (mapUpdate k ops.close d3.parts) = keys d.parts := by
    rw [keys_mapUpdate, hp3, keys_map_of_fst G (fun e => (hG e).1)]
  have hascclosed : KeysAscending (mapUpdate k ops.close d3.parts) := by
    unfold KeysAscending
    rw [hkeys]
    exact hasc
  have hgeclosed : ∀ e ∈ mapUpdate k ops.close d3.parts, e.1 ≤ packet.serial := by
    intro e he
    have hk : e.1 ∈ keys (mapUpdate k ops.close d3.parts) := List.mem_map_of_mem Prod.fst he
    rw [hkeys] at hk
    obtain ⟨e0, he0, heq⟩ := List.mem_map.mp hk
    rw [← heq]
    exact hge e0 he0
  have hassert := mapInsert_last_of_ge packet.serial fresh _ hascclosed hgeclosed
  obtain ⟨older, hshape, -, hlt⟩ :=
    mapInsert_is_last packet.serial fresh _ hascclosed hassert
  have hrot : d.optionallyRotateFile ops packet.serial = some (packet.serial,
      { d3 with parts := older ++ [(packet.serial, fresh)] }) := by
    unfold Domain.optionallyRotateFile
    rw [hlast]
    simp only [gt_iff_lt, hbig, if_true, h1, h2, h3, hcreate, hshape]
    simp
  have hne' : ∀ e ∈ older, e.1 ≠ packet.serial := fun e he => Nat.ne_of_lt (hlt e he)
  have hasc1 : KeysAscending (mapInsert packet.serial fresh (mapUpdate k ops.close d3.parts)) :=
    keysAscending_mapInsert _ _ _ hascclosed
  rw [hshape] at hasc1
  refine ⟨{ d3 with parts := older ++ [(packet.serial, fresh')],
                    sessions := cleanSessions d3.sessions }, older, ?_, rfl, hlt, ?_⟩
  · unfold Domain.append
    rw [hrot]
    simp only [mapFind_append_last _ _ _ hne', hcommit, mapUpdate_append_last _ _ _ _ hne']
  · exact keysAscending_append_of_lt older _ (keysAscending_append_last older _ hasc1).1 hlt
/-- One `append` of a packet whose entries have strictly increasing serials above `end()`,
with the segments of the spec: it returns, the newest segment then ends at the last entry
of the packet, and the state stays well formed. -/
theorem specAppend_step (d : Domain) (packet : Packet) (hne : d.parts ≠ [])
    (hasc : KeysAscending d.parts) (hsi : SyncInv d)
    (hkeys : ∀ e ∈ d.parts, e.1 ≤ domainEnd d.parts + 1)
    (hchain : List.Chain (· < ·) (domainEnd d.parts) packet.entries) :
    ∃ d', d.append specOps packet = some d' ∧ d'.parts ≠ [] ∧ KeysAscending d'.parts ∧
      SyncInv d' ∧ domainEnd d'.parts = packet.entries.getLastD (domainEnd d.parts) ∧
      (∀ e ∈ d'.parts, e.1 ≤ domainEnd d'.parts) := by
  obtain ⟨init, ⟨k, dp⟩, hparts⟩ : ∃ init last, d.parts = init ++ [last] := by
    cases hl : d.parts.getLast? with
    | none => exact absurd (List.getLast?_eq_none_iff.mp hl) hne
    | some last =>
      obtain ⟨init, hinit⟩ := getLast?_eq_some_append _ _ hl
      exact ⟨init, last, hinit⟩
  have hend : domainEnd d.parts = dp.range.to_ := by
    rw [hparts]
    exact domainEnd_append_last _ _ _
  rw [hend] at hchain hkeys ⊢
  have hser : dp.range.to_ < packet.serial := by
    unfold Packet.entries at hchain
    exact (List.chain_cons.mp hchain).1
  have hmore : List.Chain (· < ·) packet.serial packet.more := by
    unfold Packet.entries at hchain
    exact (List.chain_cons.mp hchain).2
  have hlastge : packet.serial ≤ packet.entries.getLastD dp.range.to_ := by
    unfold Packet.entries
    rw [getLastD_cons_eq]
    exact (chain_le_getLastD _ _ hmore).1
  have hge : ∀ e ∈ d.parts, e.1 ≤ packet.serial := fun e he =>
    Nat.le_trans (hkeys e he) hser
  have hinitlt := (keysAscending_append_last init (k, dp) (hparts ▸ hasc))
  by_cases hbig : d.config.partSizeLimit < dp.byteSize
  · have hpos : packet.serial - 1 < packet.serial :=
      Nat.sub_lt (Nat.lt_of_le_of_lt (Nat.zero_le _) hser) Nat.one_pos
    have hfresh : List.Chain (· < ·)
        (⟨⟨packet.serial, packet.serial - 1⟩, 0, 0, 0, false⟩ : DomainPart).range.to_
        packet.entries := by
      unfold Packet.entries
      exact List.Chain.cons hpos hmore
    obtain ⟨q, hq, hqto, -⟩ := commitEntries_chain _ _ hfresh
    have hqto' : q.range.to_ = packet.entries.getLastD dp.range.to_ := by
      rw [hqto]
      unfold Packet.entries
      rw [getLastD_cons_eq, getLastD_cons_eq]
    have hcommit : specOps.commit ⟨⟨packet.serial, packet.serial - 1⟩, 0, 0, 0, false⟩
        packet.serial packet
        = some { q with byteSize := q.byteSize + packet.payload.length } := by
      simp only [specOps, specCommit, hq, Option.map_some']
    obtain ⟨d', older, happ, hshape, hlt, hasc'⟩ := append_rotating_ge specOps d packet init k
      dp _ _ hparts hasc hge (syncInv_pending d hsi) hbig rfl hcommit
    have hend' : domainEnd d'.parts = packet.entries.getLastD dp.range.to_ := by
      rw [hshape, domainEnd_append_last]
      exact hqto'
    refine ⟨d', happ, by rw [hshape]; simp, hasc', syncInv_append specOps d d' packet hsi happ,
      hend', ?_⟩
    intro e he
    rw [hend']
    rw [hshape] at he
    rcases List.mem_append.mp he with hin | hin
    · exact Nat.le_trans (Nat.le_of_lt (hlt e hin)) hlastge
    · rw [List.mem_singleton.mp hin]
      exact hlastge
  · have hsmall : dp.byteSize ≤ d.config.partSizeLimit := Nat.not_lt.mp hbig
    have happ := append_not_rotating specOps d packet init k dp hparts hasc hsmall
    obtain ⟨q, hq, hqto, -⟩ := commitEntries_chain _ _ hchain
    have hcommit : specOps.commit dp packet.serial packet
        = some { q with byteSize := q.byteSize + packet.payload.length } := by
      simp only [specOps, specCommit, hq, Option.map_some']
    rw [hcommit, Option.map_some'] at happ
    have hend' : domainEnd (init ++ [(k, ({ q with
        byteSize := q.byteSize + packet.payload.length } : DomainPart))])
        = packet.entries.getLastD dp.range.to_ := by
      rw [domainEnd_append_last]
      exact hqto
    refine ⟨_, happ, by simp, ?_, syncInv_append specOps d _ packet hsi happ, hend', ?_⟩
    · exact keysAscending_append_of_lt init _ hinitlt.1 hinitlt.2
    · intro e he
      simp only at he
      rw [hend']
      have hek : e.1 ≤ packet.serial := by
        rcases List.mem_append.mp he with hin | hin
        · exact hge e (by rw [hparts]; simp [hin])
        · rw [List.mem_singleton.mp hin]
          exact hge (k, dp) (by rw [hparts]; simp)
      exact Nat.le_trans hek hlastge

/-- A sequence of appends whose entries have strictly increasing serials above `end()`,
with the segments of the spec: every append returns and `end()` is the last serial. -/
theorem specAppendAll_chain : ∀ (packets : List Packet) (d : Domain), d.parts ≠ [] →
    KeysAscending d.parts → SyncInv d → (∀ e ∈ d.parts, e.1 ≤ domainEnd d.parts + 1) →
    List.Chain (· < ·) (domainEnd d.parts) (allEntries packets) →
    ∃ d', appendAll specOps d packets = some d' ∧
      domainEnd d'.parts = (allEntries packets).getLastD (domainEnd d.parts) ∧
      (∀ s ∈ allEntries packets, s ≤ domainEnd d'.parts) ∧
      domainEnd d.parts ≤ domainEnd d'.parts
  | [], d, _, _, _, _, _ => ⟨d, rfl, rfl, by simp [allEntries], Nat.le_refl _⟩
  | packet :: rest, d, hne, hasc, hsi, hkeys, hchain => by
    simp only [allEntries] at hchain
    obtain ⟨hfirst, hrest⟩ := chain_append_getLastD _ _ _ hchain
    obtain ⟨d1, happ, hne1, hasc1, hsi1, hend1, hkeys1⟩ :=
      specAppend_step d packet hne hasc hsi hkeys hfirst
    rw [← hend1] at hrest
    obtain ⟨d', hall, hend', hmem', hmono'⟩ :=
      specAppendAll_chain rest d1 hne1 hasc1 hsi1
        (fun e he => Nat.le_succ_of_le (hkeys1 e he)) hrest
    obtain ⟨hle1, hmem1⟩ := chain_le_getLastD _ _ hfirst
    rw [← hend1] at hle1 hmem1
    refine ⟨d', ?_, ?_, ?_, ?_⟩
    · simp only [appendAll, happ]
      exact hall
    · simp only [allEntries]
      rw [hend', hend1, getLastD_append_eq]
    · intro s hs
      simp only [allEntries] at hs
      rcases List.mem_append.mp hs with hin | hin
      · exact Nat.le_trans (hmem1 s hin) hmono'
      · exact hmem' s hin
    · exact Nat.le_trans hle1 hmono'
theorem addPart_specOps (parts parts' : DomainPartList) (partId : SerialNum) (isLast : Bool)
    (h : addPart specOps parts partId isLast = some parts') : parts' = parts := by
  unfold addPart at h
  simp only [specOps, specCreate, DomainPart.size] at h
  cases isLast with
  | true =>
    simp only [if_true, Option.some.injEq] at h
    exact h.symm
  | false => simp at h

theorem loadParts_specOps (lastPart : SerialNum) :
    ∀ (ids : List SerialNum) (parts : DomainPartList) (log : List (Task × Bool))
      (parts' : DomainPartList) (log' : List (Task × Bool)),
      loadParts specOps lastPart ids parts log = some (parts', log') → parts' = parts
  | [], parts, log, parts', log', h => by
    simp only [loadParts, Option.some.injEq, Prod.mk.injEq] at h
    exact h.1.symm
  | partId :: rest, parts, log, parts', log', h => by
    unfold loadParts at h
    by_cases hmax : partId ≠ maxSerialNum
    · rw [if_pos hmax] at h
      cases ha : addPart specOps parts partId (decide (partId = lastPart)) with
      | none =>
        rw [ha] at h
        exact absurd h (by simp)
      | some p1 =>
        rw [ha] at h
        simp only at h
        rw [loadParts_specOps lastPart rest p1 _ parts' log' h]
        exact addPart_specOps _ _ _ _ ha
    · rw [if_neg hmax] at h
      exact loadParts_specOps lastPart rest parts log parts' log' h

/-- With the segments of the spec, which load as empty files, the constructor leaves one
new segment, keyed by the last serial of the scan. -/
theorem initFrom_specOps_parts (cfg : DomainConfig) (a b : Int) (ids : List SerialNum)
    (d : Domain) (h : Domain.initFrom specOps cfg a b ids = some d) :
    d.parts = [(ids.getLastD 0, ⟨⟨ids.getLastD 0, ids.getLastD 0 - 1⟩, 0, 0, 0, false⟩)] := by
  unfold Domain.initFrom at h
  split_ifs at h
  simp only at h
  cases hl : loadParts specOps (ids.getLastD 0) ids [] [] with
  | none =>
    rw [hl] at h
    exact absurd h (by simp)
  | some r =>
    obtain ⟨parts, log⟩ := r
    have hp := loadParts_specOps _ _ _ _ _ _ hl
    subst hp
    rw [hl] at h
    simp only [List.getLast?_nil, if_true, specOps, specCreate, mapInsert,
      Option.some.injEq] at h
    rw [← h]

/-- A returning `append` with the segments of the spec keeps every starting serial at or
below `end() + 1`. -/
theorem keysBelowEnd_append (d d' : Domain) (packet : Packet) (hasc : KeysAscending d.parts)
    (hkeys : ∀ e ∈ d.parts, e.1 ≤ domainEnd d.parts + 1)
    (h : d.append specOps packet = some d') :
    ∀ e ∈ d'.parts, e.1 ≤ domainEnd d'.parts + 1 := by
  obtain ⟨init, k, dp, hparts, hcase⟩ := append_parts specOps d d' packet hasc h
  rcases hcase with ⟨-, dp', hc, hd'⟩ | ⟨-, G, fresh, fresh', init', -, -, hc, hd', hlt, -, -⟩
  · simp only [specOps, specCommit, Option.map_eq_some'] at hc
    obtain ⟨q, hq, rfl⟩ := hc
    have hmono := (commitEntries_some _ _ _ hq).1
    have hend : domainEnd d.parts = dp.range.to_ := by
      rw [hparts]
      exact domainEnd_append_last _ _ _
    rw [hend] at hkeys
    intro e he
    rw [hd', domainEnd_append_last]
    simp only
    have hek : e.1 ≤ dp.range.to_ + 1 := by
      rw [hd'] at he
      rcases List.mem_append.mp he with hin | hin
      · exact hkeys e (by rw [hparts]; simp [hin])
      · rw [List.mem_singleton.mp hin]
        exact hkeys (k, dp) (by rw [hparts]; simp)
    exact Nat.le_trans hek (Nat.succ_le_succ hmono)
  · simp only [specOps, specCommit, Option.map_eq_some'] at hc
    obtain ⟨q, hq, rfl⟩ := hc
    have hser : packet.serial ≤ q.range.to_ :=
      ((commitEntries_some _ _ _ hq).2 packet.serial (by simp [Packet.entries])).2
    intro e he
    rw [hd', domainEnd_append_last]
    simp only
    rw [hd'] at he
    rcases List.mem_append.mp he with hin | hin
    · exact Nat.le_succ_of_le (Nat.le_trans (Nat.le_of_lt (hlt e hin)) hser)
    · rw [List.mem_singleton.mp hin]
      exact Nat.le_succ_of_le hser

/-- A returning `erase` with the segments of the spec leaves `end()` as it is and removes
starting serials only. -/
theorem keysBelowEnd_erase (d d' : Domain) (to_ : SerialNum) (r : Bool) (hne : d.parts ≠ [])
    (hkeys : ∀ e ∈ d.parts, e.1 ≤ domainEnd d.parts + 1)
    (h : d.erase specOps to_ = some (r, d')) :
    ∀ e ∈ d'.parts, e.1 ≤ domainEnd d'.parts + 1 := by
  obtain ⟨init, ⟨kl, dl⟩, hinit⟩ : ∃ init last, d.parts = init ++ [last] := by
    cases hl : d.parts.getLast? with
    | none => exact absurd (List.getLast?_eq_none_iff.mp hl) hne
    | some last =>
      obtain ⟨init, hinit⟩ := getLast?_eq_some_append _ _ hl
      exact ⟨init, last, hinit⟩
  have hend : domainEnd d.parts = dl.range.to_ := by
    rw [hinit]
    exact domainEnd_append_last _ _ _
  rw [hend] at hkeys
  have hlt := prunedCount_lt to_ d.parts hne
  unfold Domain.erase at h
  simp only [Option.map_eq_some', eraseLoop_parts] at h
  obtain ⟨parts', hb, hp⟩ := h
  have hd' : d'.parts = parts' := by
    cases hp
    rfl
  generalize prunedCount to_ d.parts = n at hlt hb
  have hn : n ≤ init.length := by
    rw [hinit, List.length_append] at hlt
    simp at hlt
    omega
  have hdrop : d.parts.drop n = init.drop n ++ [(kl, dl)] := by
    rw [hinit, List.drop_append_of_le_length hn]
  rw [hd']
  rw [hdrop] at hb
  cases hrest : init.drop n with
  | nil =>
    rw [hrest] at hb
    obtain ⟨dp', hp', hcase⟩ := eraseBoundary_shape specOps to_ kl dl [] parts' hb
    have hto : dp'.range.to_ = dl.range.to_ := by
      rcases hcase with rfl | ⟨-, rfl⟩
      · rfl
      · rfl
    intro e he
    rw [hp'] at he ⊢
    rw [List.mem_singleton.mp he]
    have hE : domainEnd [(kl, dp')] = dp'.range.to_ := domainEnd_append_last [] kl dp'
    rw [hE, hto]
    exact hkeys (kl, dl) (by rw [hinit]; simp)
  | cons a rest =>
    rw [hrest] at hb
    obtain ⟨k, dp⟩ := a
    obtain ⟨dp', hp', -⟩ := eraseBoundary_shape specOps to_ k dp (rest ++ [(kl, dl)]) parts' hb
    have hain : (k, dp) ∈ init := by
      have : (k, dp) ∈ init.drop n := by rw [hrest]; simp
      exact List.mem_of_mem_drop this
    have hrestin : ∀ e ∈ rest, e ∈ init := by
      intro e he
      have : e ∈ init.drop n := by rw [hrest]; simp [he]
      exact List.mem_of_mem_drop this
    have hE : domainEnd parts' = dl.range.to_ := by
      rw [hp']
      exact domainEnd_append_last ((k, dp') :: rest) kl dl
    intro e he
    rw [hE]
    rw [hp'] at he
    rcases List.mem_cons.mp he with rfl | hin
    · exact hkeys (k, dp) (by rw [hinit]; simp [hain])
    · rcases List.mem_append.mp hin with hin1 | hin1
      · exact hkeys e (by rw [hinit]; simp [hrestin e hin1])
      · rw [List.mem_singleton.mp hin1]
        exact hkeys (kl, dl) (by rw [hinit]; simp)

/-- Every state reached from a completed construction by `append` and `erase`, with the
segments of the spec, is well formed: the map is not empty, its keys ascend, the sync
state is consistent, and no starting serial exceeds `end() + 1`. -/
theorem reached_wellFormed (d : Domain) (h : ReachedByAppendErase specOps d) :
    d.parts ≠ [] ∧ KeysAscending d.parts ∧ SyncInv d ∧
      ∀ e ∈ d.parts, e.1 ≤ domainEnd d.parts + 1 := by
  induction h with
  | init h0 =>
    have hp := initFrom_specOps_parts _ _ _ _ _ h0
    refine ⟨by rw [hp]; simp, by rw [hp]; simp [KeysAscending, keys],
      syncInv_initFrom _ _ _ _ _ _ h0, ?_⟩
    intro e he
    rw [hp] at he ⊢
    rw [List.mem_singleton.mp he]
    generalize (scanDir _ _).getLastD 0 = s
    have hE : domainEnd [(s, (⟨⟨s, s - 1⟩, 0, 0, 0, false⟩ : DomainPart))] = s - 1 := rfl
    rw [hE]
    exact Nat.le_succ_of_pred_le (Nat.le_refl _)
  | append p hr ha ih =>
    obtain ⟨hne, hasc, hsi, hkeys⟩ := ih
    have hci := closedInv_append specOps closedDiscipline_specOps _ _ p hasc
      (closedInv_reached specOps closedDiscipline_specOps _ hr).2 ha
    obtain ⟨init, last, hinit, -, -⟩ := hci.2
    exact ⟨by rw [hinit]; simp, hci.1, syncInv_append specOps _ _ p hsi ha,
      keysBelowEnd_append _ _ p hasc hkeys ha⟩
  | erase t hr he ih =>
    obtain ⟨hne, hasc, hsi, hkeys⟩ := ih
    have hci := closedInv_erase specOps closedDiscipline_specOps _ _ t _ hasc
      (closedInv_reached specOps closedDiscipline_specOps _ hr).2 he
    obtain ⟨init, last, hinit, -, -⟩ := hci.2
    refine ⟨by rw [hinit]; simp, hci.1, ?_, keysBelowEnd_erase _ _ t _ hne hkeys he⟩
    unfold Domain.erase at he
    simp only [Option.map_eq_some'] at he
    obtain ⟨parts, -, hp⟩ := he
    cases hp
    exact hsi
/-- C12, as stated, fails: with `partSizeLimit = 1`, after the append of serial 10 to a
fresh Domain `end()` is 10 and the newest segment is over the limit; the append of
serial 5 then rotates and is stored in the new segment instead of being rejected, and
afterwards `end()` is 5, not the maximum serial appended. -/
theorem append_stores_lower_serial_after_rotation :
    Domain.init specOps ⟨1⟩ 0 0 "dom".toList [] = some specFresh ∧
    specFresh.append specOps ⟨10, [7, 7], []⟩ = some specOnce ∧
    domainEnd specOnce.parts = 10 ∧
    (specOnce.append specOps ⟨5, [7], []⟩).map (fun d => d.parts)
      = some [(0, ⟨⟨0, 10⟩, 1, 2, 10, true⟩), (5, ⟨⟨5, 5⟩, 1, 1, 0, false⟩)] ∧
    (appendAll specOps specFresh [⟨10, [7, 7], []⟩, ⟨5, [7], []⟩]).map
      (fun d => domainEnd d.parts) = some 5 := by
  decide

/-- C12, amended: with segments as the spec describes them, whose `commit` stores every
entry of the packet, on a Domain in which no starting serial exceeds `end() + 1`: every
sequence of appends whose entries, taken over all the packets in order, have strictly
increasing serials above `end()` goes through, and afterwards `end()` equals the last and
so the maximum serial appended; and an append whose lead serial is `<= end()` is rejected
(fatal) whenever the newest segment is within `partSizeLimit`, that is, when the append
does not rotate.  The conditions on the Domain hold in every state reached from a
completed construction by `append` and `erase` (`reached_wellFormed`). -/
theorem append_monotonic_when_increasing (d : Domain) (packets : List Packet)
    (hne : d.parts ≠ []) (hasc : KeysAscending d.parts) (hsi : SyncInv d)
    (hkeys : ∀ e ∈ d.parts, e.1 ≤ domainEnd d.parts + 1)
    (hchain : List.Chain (· < ·) (domainEnd d.parts) (allEntries packets)) :
    (∃ d', appendAll specOps d packets = some d' ∧
      domainEnd d'.parts = (allEntries packets).getLastD (domainEnd d.parts) ∧
      (∀ s ∈ allEntries packets, s ≤ domainEnd d'.parts)) ∧
    (∀ (packet : Packet) (init : DomainPartList) (k : SerialNum) (dp : DomainPart),
      d.parts = init ++ [(k, dp)] → packet.serial ≤ domainEnd d.parts →
      dp.byteSize ≤ d.config.partSizeLimit → d.append specOps packet = none) := by
  constructor
  · obtain ⟨d', h1, h2, h3, -⟩ := specAppendAll_chain packets d hne hasc hsi hkeys hchain
    exact ⟨d', h1, h2, h3⟩
  · intro packet init k dp hparts hle hsmall
    have hend : domainEnd d.parts = dp.range.to_ := by
      rw [hparts]
      exact domainEnd_append_last _ _ _
    rw [hend] at hle
    rw [append_not_rotating specOps d packet init k dp hparts hasc hsmall]
    have hc : specOps.commit dp packet.serial packet = none := by
      simp only [specOps, specCommit, Packet.entries, commitEntries, Nat.not_lt.mpr hle,
        if_false, Option.map_none']
    rw [hc]
    rfl

/-- C12 amended, at a concrete input: the constructor on a directory whose only segment
file, of starting serial 5, is empty gives a Domain with key 5 and `end() = 4`; the append
of a packet with the entries 5 and 6 and the append of a packet with the entry 7, which
rotates, go through and leave `end()` at 7; a following append of serial 7 to the new
segment, which is within the size limit, is rejected. -/
theorem append_monotonic_when_increasing_witness :
    Domain.init specOps ⟨1⟩ 0 0 "dom".toList ["dom-0000000000000005".toList] = some specTail ∧
    domainEnd specTail.parts = 4 ∧
    ((∃ d', appendAll specOps specTail [⟨5, [7, 7], [6]⟩, ⟨7, [7], []⟩] = some d' ∧
      domainEnd d'.parts
        = (allEntries [⟨5, [7, 7], [6]⟩, ⟨7, [7], []⟩]).getLastD (domainEnd specTail.parts) ∧
      (∀ s ∈ allEntries [⟨5, [7, 7], [6]⟩, ⟨7, [7], []⟩], s ≤ domainEnd d'.parts)) ∧
     (∀ (packet : Packet) (init : DomainPartList) (k : SerialNum) (dp : DomainPart),
      specTail.parts = init ++ [(k, dp)] → packet.serial ≤ domainEnd specTail.parts →
      dp.byteSize ≤ specTail.config.partSizeLimit → specTail.append specOps packet = none)) ∧
    appendAll specOps specTail [⟨5, [7, 7], [6]⟩, ⟨7, [7], []⟩] = some specTailAppended ∧
    domainEnd specTailAppended.parts = 7 ∧
    specTailAppended.append specOps ⟨7, [7], []⟩ = none :=
  ⟨by decide, by decide,
   append_monotonic_when_increasing specTail [⟨5, [7, 7], [6]⟩, ⟨7, [7], []⟩] (by decide)
      (by decide) ⟨by decide, by decide⟩ (by decide)
      (List.Chain.cons (by decide) (List.Chain.cons (by decide)
        (List.Chain.cons (by decide) List.Chain.nil))),
   by decide, by decide, by decide⟩

end TransLog
